import Mathlib

/-!
# A verification development for the fbssdc BinAST container codec

This file gives a shallow embedding of the two Python source files of the
repository, `format.py` (the container encoder `write` and decoder `read`,
with lazy pieces) and `cpp_codegen.py` (the `TypeVisitor` traversal and the
model-id allocation of `CppTypeMacroGenerator`), together with the collaborator
modules that `format.py` drives (`bits`, `strings`, `model`, `encode`, `lazy`,
`tycheck`, brotli).  The collaborator modules are not part of the shown source;
their definitions below are modelled from the specification document and each
such definition says so in its doc comment.

Modelling conventions:
* bytes are `Nat`s, byte streams are `List Nat`;
* Python strings (attribute names, tree strings, dictionary entries) are their
  byte sequences, `Str := List Nat`;
* IEEE-754 doubles are represented abstractly by `DblVal`: the double obtained
  by coercing an integer is `DblVal.ofInt i` and any other double is an opaque
  bit pattern `DblVal.raw b`.  The claims never depend on bit-level float
  arithmetic, only on the coercion having a definite, injective image;
* the schema is an arena `Schema := List TyDef`; types are referenced by their
  arena index (a `Nat` handle), which models Python object identity for the
  visited sets and the model-id keys;
* mutation is made explicit: `format.write` mutates its input tree only via
  the FloatFixer, so the embedding applies the pure `floatFix` and the frame
  claims are stated about that function;
* the recursive token codec and the recursive piece reader take a fuel
  parameter for totality (the Python functions recurse unboundedly and may
  exhaust the stack); every claim quantifies over the fuel.
-/

namespace Fbssdc

/-- Python strings, represented by their UTF-8 byte sequences. -/
abbrev Str := List Nat

/-- Lexicographic order on byte strings; models Python `sorted` on `str`
(code-point order coincides with byte order for UTF-8). -/
def lexLe : Str → Str → Bool
  | [], _ => true
  | _ :: _, [] => false
  | a :: as, b :: bs => if a < b then true else if a = b then lexLe as bs else false

/-- Insert into a `lexLe`-sorted list, keeping it sorted. -/
def insertSorted (x : Str) : List Str → List Str
  | [] => [x]
  | y :: ys => if lexLe x y then x :: y :: ys else y :: insertSorted x ys

/-- Sort a list of byte strings lexicographically; models Python `sorted`. -/
def sortStrs (l : List Str) : List Str := l.foldr insertSorted []

/-- Structural worker for `writeVarint`; the fuel argument only bounds the
recursion depth and `n + 1` steps always suffice. -/
def writeVarintAux : Nat → Nat → List Nat
  | 0, _ => []
  | fuel + 1, n =>
    if n < 128 then [n] else (128 + n % 128) :: writeVarintAux fuel (n / 128)

/-- Modelled from the spec (module `bits`, not in src): `write_varint` emits a
non-negative integer base-128 little-endian, continuation bit on every byte
except the last. -/
def writeVarint (n : Nat) : List Nat := writeVarintAux (n + 1) n

/-- Modelled from the spec (module `bits`, not in src): `read_varint` reads a
base-128 little-endian integer from the front of the stream. -/
def readVarint : List Nat → Option (Nat × List Nat)
  | [] => none
  | b :: rest =>
    if b < 128 then some (b, rest)
    else
      match readVarint rest with
      | none => none
      | some (n, r) => some ((b - 128) + 128 * n, r)

/-- First index at which a predicate holds; models Python `list.index` /
first-match dispatch. -/
def firstIdx (p : α → Bool) : List α → Option Nat
  | [] => none
  | x :: xs => if p x then some 0 else (firstIdx p xs).map (· + 1)

/-- Map a fallible function over a list, failing if any element fails. -/
def omap (f : α → Option β) : List α → Option (List β)
  | [] => some []
  | x :: xs =>
    match f x, omap f xs with
    | some y, some ys => some (y :: ys)
    | _, _ => none

/-- Read `n` consecutive records with the record reader `rd`. -/
def readListN (rd : List Nat → Option (α × List Nat)) : Nat → List Nat → Option (List α × List Nat)
  | 0, inp => some ([], inp)
  | n + 1, inp =>
    match rd inp with
    | none => none
    | some (x, r) =>
      match readListN rd n r with
      | none => none
      | some (xs, r') => some (x :: xs, r')

/-- Varint round trip: reading back a written varint recovers the integer and
leaves the rest of the stream untouched. -/
theorem readVarint_writeVarintAux (fuel : Nat) :
    ∀ (n : Nat), n < fuel → ∀ (rest : List Nat),
      readVarint (writeVarintAux fuel n ++ rest) = some (n, rest) := by
  induction fuel with
  | zero => intro n hn; omega
  | succ f ih =>
    intro n hn rest
    by_cases h : n < 128
    · rw [writeVarintAux]
      simp [h, readVarint]
    · rw [writeVarintAux]
      simp only [h, if_false, List.cons_append]
      rw [readVarint]
      have h128 : ¬ (128 + n % 128 < 128) := by omega
      simp only [h128, if_false]
      have hdiv : n / 128 < f := by
        have := Nat.div_lt_self (show 0 < n by omega) (show 1 < 128 by omega)
        omega
      rw [ih (n / 128) hdiv rest]
      have hmd := Nat.mod_add_div n 128
      simp
      omega

/-- Varint round trip: reading back a written varint recovers the integer and
leaves the rest of the stream untouched. -/
theorem readVarint_writeVarint (n : Nat) (rest : List Nat) :
    readVarint (writeVarint n ++ rest) = some (n, rest) :=
  readVarint_writeVarintAux (n + 1) n (by omega) rest

/-- Generic record-list round trip: if each record round-trips, so does a
count-prefixed sequence of records. -/
theorem readListN_flatten (wr : α → List Nat) (rd : List Nat → Option (α × List Nat))
    (hrd : ∀ x rest, rd (wr x ++ rest) = some (x, rest)) :
    ∀ (l : List α) (rest : List Nat),
      readListN rd l.length ((l.map wr).flatten ++ rest) = some (l, rest) := by
  intro l
  induction l with
  | nil => intro rest; simp [readListN]
  | cons x xs ih =>
    intro rest
    simp only [List.map_cons, List.flatten_cons, List.length_cons, List.append_assoc]
    rw [readListN, hrd x _]
    simp only []
    rw [ih rest]

/-! ## The schema universe and trees (spec section 3; module `idl` not in src) -/

/-- An IDL attribute: name, resolved type (arena handle), lazy marker.
Modelled from the spec: every attribute has a name, a resolved type and a
boolean lazy marker. -/
structure Attr where
  name : Str
  ty : Nat
  lazy : Bool
deriving DecidableEq, Repr

/-- One definition in the type arena.  Modelled from the spec: a type is an
interface (ordered attributes), an alternation (tagged union of members, by
handle), an enumeration (ordered symbols), a primitive (boolean, unsigned
integer, double, string, identifier name, the distinguished None type),
or a frozen array.  Interface and enumeration names play no role in any
claim and are omitted; a type's identity is its arena handle. -/
inductive TyDef where
  | iface (attrs : List Attr)
  | alt (tys : List Nat)
  | enum (syms : List Str)
  | pBool
  | pUint
  | pDouble
  | pStr
  | pIdent
  | pNone
  | arr (elem : Nat)
deriving DecidableEq, Repr

/-- The schema arena: types are referenced by list index (handle). -/
abbrev Schema := List TyDef

/-- Abstract IEEE-754 double values: the image of an integer under the
FloatFixer coercion, or an opaque 64-bit pattern.  Modelled from the spec:
doubles are coded by value (as bit patterns) and the FloatFixer rewrites an
integer into its double equivalent; no claim needs bit-level arithmetic. -/
inductive DblVal where
  | ofInt (i : Int)
  | raw (bits : Nat)
deriving DecidableEq, Repr

/-- Tree values.  An interface node carries its interface handle (runtime
identity, used for alternation dispatch) and one value per attribute in
order; `intV` is an integer sitting in a double slot before the FloatFixer
ran; `placeholder` is the lazy sentinel of spec section 4.7. -/
inductive Value where
  | ifaceV (k : Nat) (fields : List Value)
  | enumV (s : Str)
  | boolV (b : Bool)
  | uintV (n : Nat)
  | intV (i : Int)
  | dblV (d : DblVal)
  | strV (s : Str)
  | nullV
  | arrV (items : List Value)
  | placeholder (i : Nat)
deriving Repr

/-- Shallow runtime-type dispatch: does the value's head constructor match the
type at handle `h`?  Models Python dispatch on the runtime type of the node
(an interface node matches only its own interface; an un-fixed integer
matches a double slot, which is what the FloatFixer relies on). -/
def shapeMatches (s : Schema) (h : Nat) (v : Value) : Bool :=
  match s[h]?, v with
  | some (.iface _), .ifaceV k _ => k = h
  | some .pNone, .nullV => true
  | some .pBool, .boolV _ => true
  | some .pUint, .uintV _ => true
  | some .pDouble, .dblV _ => true
  | some .pDouble, .intV _ => true
  | some .pStr, .strV _ => true
  | some .pIdent, .strV _ => true
  | some (.enum syms), .enumV x => syms.contains x
  | some (.arr _), .arrV _ => true
  | _, _ => false

/-- Resolve an alternation to the (first) member whose shape the value has; any other
type resolves to itself.  Models the discriminator choice of spec 4.8: an
alternation value is coded with the runtime variant's identity. -/
def resolveFor (s : Schema) (ty : Nat) (v : Value) : Nat :=
  match s[ty]? with
  | some (.alt tys) => (tys.find? (fun t => shapeMatches s t v)).getD ty
  | _ => ty

/-! ## TypeChecker and FloatFixer (module `tycheck`, not in src) -/

mutual
/-- Modelled from the spec (module `tycheck`, not in src):
`TypeChecker.check_any` verifies structural conformance: every interface node
has exactly the declared attributes, every alternation value matches one
variant, every enumeration value is a declared symbol, every primitive
matches its type, every frozen-array element matches the element type. -/
def checkAny (s : Schema) (ty : Nat) (v : Value) : Bool :=
  match v with
  | .ifaceV k fields =>
    match s[resolveFor s ty (.ifaceV k fields)]? with
    | some (.iface attrs) =>
      k = resolveFor s ty (.ifaceV k fields) && checkFields s attrs fields
    | _ => false
  | .enumV x =>
    match s[resolveFor s ty (.enumV x)]? with
    | some (.enum syms) => syms.contains x
    | _ => false
  | .boolV b =>
    match s[resolveFor s ty (.boolV b)]? with
    | some .pBool => true
    | _ => false
  | .uintV n =>
    match s[resolveFor s ty (.uintV n)]? with
    | some .pUint => true
    | _ => false
  | .dblV d =>
    match s[resolveFor s ty (.dblV d)]? with
    | some .pDouble => true
    | _ => false
  | .strV x =>
    match s[resolveFor s ty (.strV x)]? with
    | some .pStr => true
    | some .pIdent => true
    | _ => false
  | .nullV =>
    match s[resolveFor s ty .nullV]? with
    | some .pNone => true
    | _ => false
  | .arrV items =>
    match s[resolveFor s ty (.arrV items)]? with
    | some (.arr e) => checkItems s e items
    | _ => false
  | .intV _ => false
  | .placeholder _ => false
termination_by structural v

/-- Check interface fields against the declared attributes, in order. -/
def checkFields (s : Schema) : List Attr → List Value → Bool
  | [], [] => true
  | a :: as, f :: fs => checkAny s a.ty f && checkFields s as fs
  | _, _ => false
termination_by structural attrs fields => fields

/-- Check every array element against the element type. -/
def checkItems (s : Schema) (e : Nat) : List Value → Bool
  | [] => true
  | x :: xs => checkAny s e x && checkItems s e xs
termination_by structural items => items
end

mutual
/-- Modelled from the spec (module `tycheck`, not in src): the FloatFixer
walks the tree against the schema and rewrites any integer value occupying a
double-typed slot into its double equivalent, in place; everything else is
left unchanged. -/
def floatFix (s : Schema) (ty : Nat) (v : Value) : Value :=
  match v with
  | .ifaceV k fields =>
    match s[resolveFor s ty (.ifaceV k fields)]? with
    | some (.iface attrs) => .ifaceV k (fixFields s attrs fields)
    | _ => .ifaceV k fields
  | .arrV items =>
    match s[resolveFor s ty (.arrV items)]? with
    | some (.arr e) => .arrV (fixItems s e items)
    | _ => .arrV items
  | .intV i =>
    match s[resolveFor s ty (.intV i)]? with
    | some .pDouble => .dblV (.ofInt i)
    | _ => .intV i
  | w => w
termination_by structural v

/-- Fix interface fields pointwise against the declared attributes. -/
def fixFields (s : Schema) : List Attr → List Value → List Value
  | a :: as, f :: fs => floatFix s a.ty f :: fixFields s as fs
  | _, fs => fs
termination_by structural attrs fields => fields

/-- Fix every array element against the element type. -/
def fixItems (s : Schema) (e : Nat) : List Value → List Value
  | [] => []
  | x :: xs => floatFix s e x :: fixItems s e xs
termination_by structural items => items
end

/-! ## String collection (module `strings`, not in src) -/

mutual
/-- Modelled from the spec (module `strings`, not in src):
`StringCollector` scans the tree emitting every string-typed and
identifier-typed leaf; on conforming trees those are exactly the `strV`
leaves, so the collection is value-structural. -/
def collectStrs : Value → List Str
  | .strV x => [x]
  | .ifaceV _ fields => collectStrsL fields
  | .arrV items => collectStrsL items
  | _ => []
termination_by structural v => v

/-- Collect strings from a list of subtrees, left to right. -/
def collectStrsL : List Value → List Str
  | [] => []
  | v :: vs => collectStrs v ++ collectStrsL vs
termination_by structural l => l
end

/-- The sorted local dictionary: the collected strings minus the shared
dictionary, deduplicated (the collector stores a set) and sorted
lexicographically.  Models `format.write` lines 55-58. -/
def sortedLocals (dict : List Str) (v : Value) : List Str :=
  sortStrs (((collectStrs v).dedup).filter (fun x => ¬ x ∈ dict))

/-! ## Lazy extraction and restoration (module `lazy`, not in src) -/

mutual
/-- Modelled from the spec (module `lazy`, not in src):
`LazyMemberExtractor.replace` structurally clones the node, replacing every
lazy-attributed value by `placeholder i` where `i` is the value's position in
the accumulated `lazies` list (traversal order); the extracted values are not
descended into. -/
def extractV (s : Schema) (ty : Nat) (v : Value) (acc : List (Attr × Value)) :
    Value × List (Attr × Value) :=
  match v with
  | .ifaceV k fields =>
    match s[resolveFor s ty (.ifaceV k fields)]? with
    | some (.iface attrs) =>
      let p := extractFs s attrs fields acc
      (.ifaceV k p.1, p.2)
    | _ => (.ifaceV k fields, acc)
  | .arrV items =>
    match s[resolveFor s ty (.arrV items)]? with
    | some (.arr e) =>
      let p := extractIs s e items acc
      (.arrV p.1, p.2)
    | _ => (.arrV items, acc)
  | w => (w, acc)
termination_by structural v

/-- Extract over interface fields, threading the lazies accumulator. -/
def extractFs (s : Schema) : List Attr → List Value → List (Attr × Value) →
    List Value × List (Attr × Value)
  | [], fs, acc => (fs, acc)
  | _ :: _, [], acc => ([], acc)
  | a :: as, f :: fs, acc =>
    let p1 :=
      if a.lazy then (Value.placeholder acc.length, acc ++ [(a, f)])
      else extractV s a.ty f acc
    let p2 := extractFs s as fs p1.2
    (p1.1 :: p2.1, p2.2)
termination_by structural attrs fields acc => fields

/-- Extract over array items, threading the lazies accumulator. -/
def extractIs (s : Schema) (e : Nat) : List Value → List (Attr × Value) →
    List Value × List (Attr × Value)
  | [], acc => ([], acc)
  | x :: xs, acc =>
    let p1 := extractV s e x acc
    let p2 := extractIs s e xs p1.2
    (p1.1 :: p2.1, p2.2)
termination_by structural items acc => items
end

mutual
/-- Modelled from the spec (module `lazy`, not in src):
`LazyMemberRestorer.replace` structurally rebuilds the node, replacing the
placeholder at each lazy attribute by `resolver (attribute, index)`. -/
def restoreV (s : Schema) (r : Attr → Nat → Option Value) (ty : Nat) (v : Value) :
    Option Value :=
  match v with
  | .ifaceV k fields =>
    match s[resolveFor s ty (.ifaceV k fields)]? with
    | some (.iface attrs) =>
      match restoreFs s r attrs fields with
      | some fs => some (.ifaceV k fs)
      | none => none
    | _ => some (.ifaceV k fields)
  | .arrV items =>
    match s[resolveFor s ty (.arrV items)]? with
    | some (.arr e) =>
      match restoreIs s r e items with
      | some is => some (.arrV is)
      | none => none
    | _ => some (.arrV items)
  | w => some w
termination_by structural v

/-- Restore over interface fields in order. -/
def restoreFs (s : Schema) (r : Attr → Nat → Option Value) :
    List Attr → List Value → Option (List Value)
  | [], fs => some fs
  | _ :: _, [] => some []
  | a :: as, f :: fs =>
    let f? :=
      if a.lazy then
        match f with
        | .placeholder i => r a i
        | _ => none
      else restoreV s r a.ty f
    match f?, restoreFs s r as fs with
    | some f', some fs' => some (f' :: fs')
    | _, _ => none
termination_by structural attrs fields => fields

/-- Restore over array items in order. -/
def restoreIs (s : Schema) (r : Attr → Nat → Option Value) (e : Nat) :
    List Value → Option (List Value)
  | [] => some []
  | x :: xs =>
    match restoreV s r e x, restoreIs s r e xs with
    | some x', some xs' => some (x' :: xs')
    | _, _ => none
termination_by structural items => items
end

mutual
/-- The placeholder indices of a tree in traversal order. -/
def phs : Value → List Nat
  | .ifaceV _ fields => phsL fields
  | .arrV items => phsL items
  | .placeholder i => [i]
  | _ => []
termination_by structural v => v

/-- Placeholder indices of a list of subtrees, left to right. -/
def phsL : List Value → List Nat
  | [] => []
  | v :: vs => phs v ++ phsL vs
termination_by structural l => l
end

mutual
/-- A tree with no lazy placeholders (the form `write` accepts). -/
def phFree : Value → Bool
  | .ifaceV _ fields => phFreeL fields
  | .arrV items => phFreeL items
  | .placeholder _ => false
  | _ => true
termination_by structural v => v

/-- Placeholder-freedom for a list of subtrees. -/
def phFreeL : List Value → Bool
  | [] => true
  | v :: vs => phFree v && phFreeL vs
termination_by structural l => l
end

mutual
/-- A tree containing no raw integer leaf (nothing for the FloatFixer to do). -/
def hasInt : Value → Bool
  | .ifaceV _ fields => hasIntL fields
  | .arrV items => hasIntL items
  | .intV _ => true
  | _ => false
termination_by structural v => v

/-- Integer-leaf presence for a list of subtrees. -/
def hasIntL : List Value → Bool
  | [] => false
  | v :: vs => hasInt v || hasIntL vs
termination_by structural l => l
end

/-! ## Probability models (modules `model` and `encode`, not in src) -/

/-- A model key: `(type handle, attribute name)` for interface attributes and
`(array handle, "list-length")` for frozen-array lengths (spec section 3). -/
abbrev MKey := Nat × Str

/-- The bytes of the distinguished `"list-length"` model-key name. -/
def listLengthName : Str := [108, 105, 115, 116, 45, 108, 101, 110, 103, 116, 104]

/-- The synthetic key used at the root of a piece, where no enclosing
attribute exists; interface- and array-rooted pieces never consult it. -/
def rootKey (ty : Nat) : MKey := (ty, [])

/-- One coded token.  Modelled from the spec (module `model`, not in src):
discriminator tags and enum symbols are coded as indices, booleans as two
symbols, unsigned integers and array lengths by value, doubles by their
(abstract) bit pattern, strings by their index into `local ++ shared`. -/
inductive Sym where
  | tag (j : Nat)
  | enumI (j : Nat)
  | boolS (b : Bool)
  | uintS (n : Nat)
  | dblS (d : DblVal)
  | strS (j : Nat)
  | lenS (n : Nat)
deriving DecidableEq, Repr

/-- A symbol distribution: symbols with non-negative weights, in insertion
order of first observation (spec 4.5/4.6); weight zero means "must not
occur". -/
abbrev Dist := List (Sym × Nat)

/-- The model: one distribution per model key, in first-use order. -/
abbrev Model := List (MKey × Dist)

/-- Add one observation of `sym` to a distribution, appending on first
observation so insertion order is the canonical symbol order. -/
def bumpDist (sym : Sym) : Dist → Dist
  | [] => [(sym, 1)]
  | e :: es => if e.1 = sym then (e.1, e.2 + 1) :: es else e :: bumpDist sym es

/-- Add one observation of `(key, sym)` to the model, appending a fresh
distribution on a key's first use. -/
def bump (key : MKey) (sym : Sym) : Model → Model
  | [] => [(key, [(sym, 1)])]
  | e :: es => if e.1 = key then (e.1, bumpDist sym e.2) :: es else e :: bump key sym es

/-- Look up a key's distribution. -/
def lookupKey (m : Model) (key : MKey) : Option Dist :=
  (m.find? (fun e => e.1 = key)).map (·.2)

/-- Modelled from the spec (module `encode`, not in src): the entropy coder
codes a symbol under a distribution.  The spec leaves the concrete coder
open (any byte-aligned choice that rejects zero weights is acceptable); this
embedding codes the symbol's index in the distribution's canonical order as
a varint.  Coding a symbol that is absent or has weight zero is fatal. -/
def encSym (m : Model) (key : MKey) (sym : Sym) : Option (List Nat) :=
  match lookupKey m key with
  | none => none
  | some d =>
    match firstIdx (fun e => e.1 = sym) d with
    | none => none
    | some j =>
      match d[j]? with
      | some e => if e.2 ≠ 0 then some (writeVarint j) else none
      | none => none

/-- Modelled from the spec (module `encode`, not in src): the decoding side of
`encSym`; decoding a symbol with weight zero is fatal (corrupt stream). -/
def decSym (m : Model) (key : MKey) (inp : List Nat) : Option (Sym × List Nat) :=
  match lookupKey m key with
  | none => none
  | some d =>
    match readVarint inp with
    | none => none
    | some (j, r) =>
      match d[j]? with
      | none => none
      | some e => if e.2 ≠ 0 then some (e.1, r) else none

/-! ## Serialization of the model section (module `encode`, not in src) -/

/-- A length-prefixed byte string record. -/
def writeStr (x : Str) : List Nat := writeVarint x.length ++ x

/-- Read a length-prefixed byte string record. -/
def readStr (inp : List Nat) : Option (Str × List Nat) :=
  match readVarint inp with
  | none => none
  | some (n, r) => if n ≤ r.length then some (r.take n, r.drop n) else none

/-- A sign-and-magnitude integer record. -/
def writeInt (i : Int) : List Nat :=
  (if i < 0 then [1] else [0]) ++ writeVarint i.natAbs

/-- Read a sign-and-magnitude integer record. -/
def readInt (inp : List Nat) : Option (Int × List Nat) :=
  match inp with
  | 0 :: r =>
    match readVarint r with
    | some (n, r') => some ((n : Int), r')
    | none => none
  | 1 :: r =>
    match readVarint r with
    | some (n, r') => some (-(n : Int), r')
    | none => none
  | _ => none

/-- A double-value record (coercion image or raw pattern). -/
def writeDbl : DblVal → List Nat
  | .ofInt i => 0 :: writeInt i
  | .raw b => 1 :: writeVarint b

/-- Read a double-value record. -/
def readDbl (inp : List Nat) : Option (DblVal × List Nat) :=
  match inp with
  | 0 :: r =>
    match readInt r with
    | some (i, r') => some (.ofInt i, r')
    | none => none
  | 1 :: r =>
    match readVarint r with
    | some (b, r') => some (.raw b, r')
    | none => none
  | _ => none

/-- Serialise one symbol, tagged by kind.  Modelled from the spec: symbol
serialisation depends on the logical symbol kind; this embedding makes the
kind self-describing, which the reader reverses exactly. -/
def writeSym : Sym → List Nat
  | .tag j => 0 :: writeVarint j
  | .enumI j => 1 :: writeVarint j
  | .boolS b => [2, if b then 1 else 0]
  | .uintS n => 3 :: writeVarint n
  | .dblS d => 4 :: writeDbl d
  | .strS j => 5 :: writeVarint j
  | .lenS n => 6 :: writeVarint n

/-- Read one serialised symbol. -/
def readSym (inp : List Nat) : Option (Sym × List Nat) :=
  match inp with
  | 0 :: r => (readVarint r).map (fun p => (.tag p.1, p.2))
  | 1 :: r => (readVarint r).map (fun p => (.enumI p.1, p.2))
  | 2 :: 1 :: r => some (.boolS true, r)
  | 2 :: 0 :: r => some (.boolS false, r)
  | 3 :: r => (readVarint r).map (fun p => (.uintS p.1, p.2))
  | 4 :: r => (readDbl r).map (fun p => (.dblS p.1, p.2))
  | 5 :: r => (readVarint r).map (fun p => (.strS p.1, p.2))
  | 6 :: r => (readVarint r).map (fun p => (.lenS p.1, p.2))
  | _ => none

/-- Serialise one distribution entry: symbol, then weight varint. -/
def writeDistEntry (e : Sym × Nat) : List Nat := writeSym e.1 ++ writeVarint e.2

/-- Read one distribution entry. -/
def readDistEntry (inp : List Nat) : Option ((Sym × Nat) × List Nat) :=
  match readSym inp with
  | none => none
  | some (sym, r) =>
    match readVarint r with
    | none => none
    | some (w, r') => some ((sym, w), r')

/-- Serialise one model entry: key (handle, name record), then symbol count,
then the entries in canonical symbol order (spec 4.6). -/
def writeModelEntry (e : MKey × Dist) : List Nat :=
  writeVarint e.1.1 ++ writeStr e.1.2 ++ writeVarint e.2.length ++
    (e.2.map writeDistEntry).flatten

/-- Read one model entry. -/
def readModelEntry (inp : List Nat) : Option ((MKey × Dist) × List Nat) :=
  match readVarint inp with
  | none => none
  | some (h, r1) =>
    match readStr r1 with
    | none => none
    | some (nm, r2) =>
      match readVarint r2 with
      | none => none
      | some (cnt, r3) =>
        match readListN readDistEntry cnt r3 with
        | none => none
        | some (d, r4) => some (((h, nm), d), r4)

/-- Modelled from the spec (module `encode`, not in src): `ModelWriter.write`
serialises the whole model section before any tree token, one distribution
per model id in canonical order. -/
def modelWrite (m : Model) : List Nat :=
  writeVarint m.length ++ (m.map writeModelEntry).flatten

/-- Modelled from the spec (module `encode`, not in src): `ModelReader.read`
reconstitutes the same mapping in the same canonical order. -/
def modelRead (inp : List Nat) : Option (Model × List Nat) :=
  match readVarint inp with
  | none => none
  | some (n, r) => readListN readModelEntry n r

/-- Modelled from the spec (module `strings`, not in src): `write_dict` writes
a varint count then each string as a varint length plus its bytes; no
signature inside the brotli frame. -/
def writeDict (l : List Str) : List Nat :=
  writeVarint l.length ++ (l.map writeStr).flatten

/-- Modelled from the spec (module `strings`, not in src): `read_dict`. -/
def readDict (inp : List Nat) : Option (List Str × List Nat) :=
  match readVarint inp with
  | none => none
  | some (n, r) => readListN readStr n r

/-! ## The type-directed tree codec (module `encode`, not in src; spec 4.8) -/

mutual
/-- Modelled from the spec (module `encode`, not in src): `encode.encode`,
the type-directed encoder: resolve the type handle in the schema and encode
the value under the resulting definition.  The fuel only bounds recursion
depth; the claims quantify over it. -/
def encodeVal (s : Schema) (sd : List Str) (m : Model) :
    Nat → MKey → Nat → Value → Option (List Nat)
  | 0, _, _, _ => none
  | fuel + 1, key, ty, v =>
    match s[ty]? with
    | none => none
    | some td => encodeDef s sd m fuel key ty td v
termination_by structural fuel key ty v => fuel

/-- One step of the type-directed encoder, by type definition.  For an
alternation it emits the discriminator of the runtime variant under the
enclosing attribute's model key and recurses; an interface emits nothing
itself and encodes each attribute in order under `(interface, name)`, a lazy
attribute holding a placeholder emitting nothing; enums, booleans, unsigned
integers, doubles and strings emit one symbol under the enclosing key; None
emits nothing; a frozen array emits its length under
`(array, "list-length")` and then each element under the enclosing key. -/
def encodeDef (s : Schema) (sd : List Str) (m : Model) :
    Nat → MKey → Nat → TyDef → Value → Option (List Nat)
  | 0, _, _, _, _ => none
  | fuel + 1, key, ty, .alt tys, v =>
    match firstIdx (fun t => shapeMatches s t v) tys with
    | none => none
    | some j =>
      match tys[j]?, encSym m key (.tag j) with
      | some t, some wt =>
        match encodeVal s sd m fuel key t v with
        | some wr => some (wt ++ wr)
        | none => none
      | _, _ => none
  | fuel + 1, _, ty, .iface attrs, v =>
    match v with
    | .ifaceV k fields =>
      if k = ty then encodeFields s sd m fuel ty attrs fields else none
    | _ => none
  | _ + 1, key, _, .enum syms, v =>
    match v with
    | .enumV x =>
      match firstIdx (fun y => y = x) syms with
      | some j => encSym m key (.enumI j)
      | none => none
    | _ => none
  | _ + 1, key, _, .pBool, v =>
    match v with
    | .boolV b => encSym m key (.boolS b)
    | _ => none
  | _ + 1, key, _, .pUint, v =>
    match v with
    | .uintV n => encSym m key (.uintS n)
    | _ => none
  | _ + 1, key, _, .pDouble, v =>
    match v with
    | .dblV d => encSym m key (.dblS d)
    | _ => none
  | _ + 1, key, _, .pStr, v =>
    match v with
    | .strV x =>
      match firstIdx (fun y => y = x) sd with
      | some j => encSym m key (.strS j)
      | none => none
    | _ => none
  | _ + 1, key, _, .pIdent, v =>
    match v with
    | .strV x =>
      match firstIdx (fun y => y = x) sd with
      | some j => encSym m key (.strS j)
      | none => none
    | _ => none
  | _ + 1, _, _, .pNone, v =>
    match v with
    | .nullV => some []
    | _ => none
  | fuel + 1, key, ty, .arr e, v =>
    match v with
    | .arrV items =>
      match encSym m (ty, listLengthName) (.lenS items.length) with
      | none => none
      | some wl =>
        match encodeItems s sd m fuel key e items with
        | some wi => some (wl ++ wi)
        | none => none
    | _ => none
termination_by structural fuel key ty td v => fuel

/-- Encode interface fields in order; a lazy attribute must hold a
placeholder and contributes no bytes. -/
def encodeFields (s : Schema) (sd : List Str) (m : Model) :
    Nat → Nat → List Attr → List Value → Option (List Nat)
  | 0, _, _, _ => none
  | _ + 1, _, [], [] => some []
  | fuel + 1, tyH, a :: as, f :: fs =>
    let wf? : Option (List Nat) :=
      if a.lazy then
        match f with
        | .placeholder _ => some []
        | _ => none
      else encodeVal s sd m fuel (tyH, a.name) a.ty f
    match wf?, encodeFields s sd m fuel tyH as fs with
    | some wf, some wr => some (wf ++ wr)
    | _, _ => none
  | _ + 1, _, _, _ => none
termination_by structural fuel tyH attrs fields => fuel

/-- Encode array elements in order under the enclosing attribute's key. -/
def encodeItems (s : Schema) (sd : List Str) (m : Model) :
    Nat → MKey → Nat → List Value → Option (List Nat)
  | 0, _, _, _ => none
  | _ + 1, _, _, [] => some []
  | fuel + 1, key, e, x :: xs =>
    match encodeVal s sd m fuel key e x, encodeItems s sd m fuel key e xs with
    | some w1, some wr => some (w1 ++ wr)
    | _, _ => none
termination_by structural fuel key e items => fuel
end

mutual
/-- Modelled from the spec (module `encode`, not in src): `encode.decode`,
the exact mirror of `encodeVal`.  The counter `c` numbers the lazy
placeholders in traversal order (the piece's lazy index is implicit in the
tree, `format.py` line 170). -/
def decodeVal (s : Schema) (sd : List Str) (m : Model) :
    Nat → MKey → Nat → List Nat → Nat → Option (Value × List Nat × Nat)
  | 0, _, _, _, _ => none
  | fuel + 1, key, ty, inp, c =>
    match s[ty]? with
    | none => none
    | some td => decodeDef s sd m fuel key ty td inp c
termination_by structural fuel key ty inp c => fuel

/-- One step of the type-directed decoder, by type definition; the mirror of
`encodeDef`. -/
def decodeDef (s : Schema) (sd : List Str) (m : Model) :
    Nat → MKey → Nat → TyDef → List Nat → Nat → Option (Value × List Nat × Nat)
  | 0, _, _, _, _, _ => none
  | fuel + 1, key, _, .alt tys, inp, c =>
    match decSym m key inp with
    | some (.tag j, r1) =>
      match tys[j]? with
      | some t => decodeVal s sd m fuel key t r1 c
      | none => none
    | _ => none
  | fuel + 1, _, ty, .iface attrs, inp, c =>
    match decodeFields s sd m fuel ty attrs inp c with
    | some (fs, r1, c1) => some (.ifaceV ty fs, r1, c1)
    | none => none
  | _ + 1, key, _, .enum syms, inp, c =>
    match decSym m key inp with
    | some (.enumI j, r1) =>
      match syms[j]? with
      | some x => some (.enumV x, r1, c)
      | none => none
    | _ => none
  | _ + 1, key, _, .pBool, inp, c =>
    match decSym m key inp with
    | some (.boolS b, r1) => some (.boolV b, r1, c)
    | _ => none
  | _ + 1, key, _, .pUint, inp, c =>
    match decSym m key inp with
    | some (.uintS n, r1) => some (.uintV n, r1, c)
    | _ => none
  | _ + 1, key, _, .pDouble, inp, c =>
    match decSym m key inp with
    | some (.dblS d, r1) => some (.dblV d, r1, c)
    | _ => none
  | _ + 1, key, _, .pStr, inp, c =>
    match decSym m key inp with
    | some (.strS j, r1) =>
      match sd[j]? with
      | some x => some (.strV x, r1, c)
      | none => none
    | _ => none
  | _ + 1, key, _, .pIdent, inp, c =>
    match decSym m key inp with
    | some (.strS j, r1) =>
      match sd[j]? with
      | some x => some (.strV x, r1, c)
      | none => none
    | _ => none
  | _ + 1, _, _, .pNone, inp, c => some (.nullV, inp, c)
  | fuel + 1, key, ty, .arr e, inp, c =>
    match decSym m (ty, listLengthName) inp with
    | some (.lenS n, r1) =>
      match decodeItems s sd m fuel key e n r1 c with
      | some (xs, r2, c2) => some (.arrV xs, r2, c2)
      | none => none
    | _ => none
termination_by structural fuel key ty td inp c => fuel

/-- Decode interface fields in order; a lazy attribute consumes no bytes and
produces the next placeholder. -/
def decodeFields (s : Schema) (sd : List Str) (m : Model) :
    Nat → Nat → List Attr → List Nat → Nat → Option (List Value × List Nat × Nat)
  | 0, _, _, _, _ => none
  | _ + 1, _, [], inp, c => some ([], inp, c)
  | fuel + 1, tyH, a :: as, inp, c =>
    let f? : Option (Value × List Nat × Nat) :=
      if a.lazy then some (Value.placeholder c, inp, c + 1)
      else decodeVal s sd m fuel (tyH, a.name) a.ty inp c
    match f? with
    | none => none
    | some (f, r1, c1) =>
      match decodeFields s sd m fuel tyH as r1 c1 with
      | some (fs, r2, c2) => some (f :: fs, r2, c2)
      | none => none
termination_by structural fuel tyH attrs inp c => fuel

/-- Decode `n` array elements under the enclosing attribute's key. -/
def decodeItems (s : Schema) (sd : List Str) (m : Model) :
    Nat → MKey → Nat → Nat → List Nat → Nat → Option (List Value × List Nat × Nat)
  | 0, _, _, _, _, _ => none
  | _ + 1, _, _, 0, inp, c => some ([], inp, c)
  | fuel + 1, key, e, n + 1, inp, c =>
    match decodeVal s sd m fuel key e inp c with
    | none => none
    | some (x, r1, c1) =>
      match decodeItems s sd m fuel key e n r1 c1 with
      | some (xs, r2, c2) => some (x :: xs, r2, c2)
      | none => none
termination_by structural fuel key e n inp c => fuel
end

mutual
/-- Modelled from the spec (module `model`, not in src): `model.model_tree`
accumulates empirical symbol counts by a traversal of the full tree aligned
with the encoder's traversal, before lazy extraction, so the lazy subtrees'
tokens are counted under the same keys. -/
def mtv (s : Schema) (sd : List Str) :
    Nat → MKey → Nat → Value → Model → Option Model
  | 0, _, _, _, _ => none
  | fuel + 1, key, ty, v, m =>
    match s[ty]? with
    | none => none
    | some (.alt tys) =>
      match firstIdx (fun t => shapeMatches s t v) tys with
      | none => none
      | some j =>
        match tys[j]? with
        | some t => mtv s sd fuel key t v (bump key (.tag j) m)
        | none => none
    | some (.iface attrs) =>
      match v with
      | .ifaceV k fields =>
        if k = ty then mtFields s sd fuel ty attrs fields m else none
      | _ => none
    | some (.enum syms) =>
      match v with
      | .enumV x =>
        match firstIdx (fun y => y = x) syms with
        | some j => some (bump key (.enumI j) m)
        | none => none
      | _ => none
    | some .pBool =>
      match v with
      | .boolV b => some (bump key (.boolS b) m)
      | _ => none
    | some .pUint =>
      match v with
      | .uintV n => some (bump key (.uintS n) m)
      | _ => none
    | some .pDouble =>
      match v with
      | .dblV d => some (bump key (.dblS d) m)
      | _ => none
    | some .pStr =>
      match v with
      | .strV x =>
        match firstIdx (fun y => y = x) sd with
        | some j => some (bump key (.strS j) m)
        | none => none
      | _ => none
    | some .pIdent =>
      match v with
      | .strV x =>
        match firstIdx (fun y => y = x) sd with
        | some j => some (bump key (.strS j) m)
        | none => none
      | _ => none
    | some .pNone =>
      match v with
      | .nullV => some m
      | _ => none
    | some (.arr e) =>
      match v with
      | .arrV items =>
        mtItems s sd fuel key e items (bump (ty, listLengthName) (.lenS items.length) m)
      | _ => none
termination_by structural fuel key ty v m => fuel

/-- Count interface fields; a lazy attribute's subtree is counted in place
under the attribute's key. -/
def mtFields (s : Schema) (sd : List Str) :
    Nat → Nat → List Attr → List Value → Model → Option Model
  | 0, _, _, _, _ => none
  | _ + 1, _, [], [], m => some m
  | fuel + 1, tyH, a :: as, f :: fs, m =>
    match mtv s sd fuel (tyH, a.name) a.ty f m with
    | none => none
    | some m1 => mtFields s sd fuel tyH as fs m1
  | _ + 1, _, _, _, _ => none
termination_by structural fuel tyH attrs fields m => fuel

/-- Count array elements. -/
def mtItems (s : Schema) (sd : List Str) :
    Nat → MKey → Nat → List Value → Model → Option Model
  | 0, _, _, _, _ => none
  | _ + 1, _, _, [], m => some m
  | fuel + 1, key, e, x :: xs, m =>
    match mtv s sd fuel key e x m with
    | none => none
    | some m1 => mtItems s sd fuel key e xs m1
termination_by structural fuel key e items m => fuel
end

/-! ## The container (format.py, in src) -/

/-- The magic header for all (recent) binjs formats (`format.py` line 21). -/
def MAGIC_HEADER : List Nat := [0x89, 0x42, 0x4A, 0x53, 0x0D, 0x0A, 0x00, 0x0A]

/-- The single version byte of the context-0.1 format (`format.py` line 25). -/
def FORMAT_VERSION : Nat := 2

/-- Modelled from the spec: the brotli codec is an external collaborator with
the block contract `decompress (compress b) = b`; its internals are outside
the repository, so it is embedded as the invertible identity block codec. -/
def brotliCompress (b : List Nat) : List Nat := b

/-- Modelled from the spec: inverse of `brotliCompress`. -/
def brotliDecompress (b : List Nat) : Option (List Nat) := some b

/-- `write_piece` (`format.py` lines 68-87): extract the lazy members, encode
the body with placeholders, recursively encode each lazy part in memory,
then write the body, the varint part count, one varint byte length per part,
and the concatenated parts. -/
def writePiece (s : Schema) (sd : List Str) (m : Model) :
    Nat → Nat → Nat → Value → Option (List Nat)
  | 0, _, _, _ => none
  | fp + 1, fv, ty, v =>
    let ex := extractV s ty v []
    match encodeVal s sd m fv (rootKey ty) ty ex.1 with
    | none => none
    | some body =>
      match omap (fun e => writePiece s sd m fp fv e.1.ty e.2) ex.2 with
      | none => none
      | some parts =>
        some (body ++ writeVarint parts.length ++
          (parts.map (fun p => writeVarint p.length)).flatten ++ parts.flatten)

/-- The absolute lazy offsets: the cumulative sums of the declared sizes,
added to the stream position just after the size list (`format.py` lines
172-176). -/
def offsetsFrom (p : Nat) : List Nat → List Nat
  | [] => [p]
  | sz :: szs => p :: offsetsFrom (p + sz) szs

/-- The resolver installed by `read_piece` (`format.py` lines 178-182):
for lazy index `i`, seek to `offset[i]`, decode a piece of the attribute's
resolved type, and fail unless the stream position afterwards equals
`offset[i+1]`. -/
def lazyResolver (rp : Nat → Nat → Option (Value × Nat)) (offs : List Nat)
    (a : Attr) (i : Nat) : Option Value :=
  match offs[i]?, offs[i + 1]? with
  | some o, some o' =>
    match rp o a.ty with
    | some (p, e) => if e = o' then some p else none
    | none => none
  | _, _ => none

/-- `read_piece` (`format.py` lines 166-187): decode the body, read the lazy
count and size list, compute the absolute offsets, restore every placeholder
through the resolver, and leave the stream at the last offset, past all lazy
bodies. -/
def readPiece (s : Schema) (sd : List Str) (m : Model) :
    Nat → Nat → List Nat → Nat → Nat → Option (Value × Nat)
  | 0, _, _, _, _ => none
  | fp + 1, fv, data, pos, ty =>
    match decodeVal s sd m fv (rootKey ty) ty (data.drop pos) 0 with
    | none => none
    | some (v, rest1, _) =>
      match readVarint rest1 with
      | none => none
      | some (k, rest2) =>
        match readListN readVarint k rest2 with
        | none => none
        | some (sizes, rest3) =>
          let pos3 := data.length - rest3.length
          let offs := offsetsFrom pos3 sizes
          match restoreV s
              (lazyResolver (fun o t => readPiece s sd m fp fv data o t) offs) ty v with
          | some v' => some (v', pos3 + sizes.sum)
          | none => none

/-- `write` (`format.py` lines 28-91): FloatFix the tree in place, type-check
it, write magic and version, then the brotli-compressed inner frame: local
string table (collected strings minus the shared dictionary, sorted), model
section, and the root piece; `out` is the byte stream written to. -/
def write (s : Schema) (dict : List Str) (ty : Nat) (tree : Value)
    (fv fp : Nat) (out : List Nat) : Option (List Nat) :=
  let tFix := floatFix s ty tree
  if checkAny s ty tFix then
    let locals := sortedLocals dict tFix
    let sd := locals ++ dict
    match mtv s sd fv (rootKey ty) ty tFix [] with
    | none => none
    | some m =>
      match writePiece s sd m fp fv ty tFix with
      | none => none
      | some pieceB =>
        some (out ++ MAGIC_HEADER ++ [FORMAT_VERSION] ++
          brotliCompress (writeDict locals ++ modelWrite m ++ pieceB))
  else none

/-- Decode errors; each corresponds to an assertion site in `read`. -/
inductive ReadErr where
  | magicMismatch
  | versionMismatch
  | corrupt
  | checkFailed
deriving DecidableEq, Repr

/-- `read` (`format.py` lines 94-192): check the magic header, then the
version byte, decompress the rest, read the local string table and prepend
it to the shared dictionary, read the model, read the root piece, and
type-check the result before returning it. -/
def read (s : Schema) (dict : List Str) (ty : Nat) (fv fp : Nat)
    (inp : List Nat) : Except ReadErr Value :=
  if inp.take 8 ≠ MAGIC_HEADER then .error .magicMismatch
  else
    let r1 := inp.drop 8
    if r1.take 1 ≠ [FORMAT_VERSION] then .error .versionMismatch
    else
      match brotliDecompress (r1.drop 1) with
      | none => .error .corrupt
      | some content =>
        match readDict content with
        | none => .error .corrupt
        | some (locals, c1) =>
          let sd := locals ++ dict
          match modelRead c1 with
          | none => .error .corrupt
          | some (m, c2) =>
            match readPiece s sd m fp fv content (content.length - c2.length) ty with
            | none => .error .corrupt
            | some (v, _) =>
              if checkAny s ty v then .ok v else .error .checkFailed

/-! ## Round-trip lemmas for the primitive records -/

/-- A found first index points at an element satisfying the predicate. -/
theorem firstIdx_some {p : α → Bool} :
    ∀ {l : List α} {j : Nat}, firstIdx p l = some j →
      ∃ x, l[j]? = some x ∧ p x = true := by
  intro l
  induction l with
  | nil => intro j h; simp [firstIdx] at h
  | cons x xs ih =>
    intro j h
    rw [firstIdx] at h
    by_cases hp : p x
    · simp [hp] at h
      exact ⟨x, by simp [← h], hp⟩
    · simp [hp] at h
      obtain ⟨j', hj', rfl⟩ := h
      obtain ⟨y, hy, hpy⟩ := ih hj'
      exact ⟨y, by simpa using hy, hpy⟩

/-- Splitting an arithmetic progression at an append boundary. -/
theorem range'_split {l1 l2 : List Nat} {c : Nat}
    (h : l1 ++ l2 = List.range' c (l1.length + l2.length)) :
    l1 = List.range' c l1.length ∧ l2 = List.range' (c + l1.length) l2.length := by
  have hr : List.range' c l1.length ++ List.range' (c + l1.length) l2.length =
      List.range' c (l1.length + l2.length) := by
    have := List.range'_append c l1.length l2.length 1
    simp only [Nat.one_mul] at this
    rw [this, Nat.add_comm]
  exact List.append_inj (h.trans hr.symm) (by simp)

/-- String-record round trip. -/
theorem readStr_writeStr (x : Str) (rest : List Nat) :
    readStr (writeStr x ++ rest) = some (x, rest) := by
  have hle : x.length ≤ (x ++ rest).length := by simp
  simp only [writeStr, readStr, List.append_assoc, readVarint_writeVarint, hle, if_true]
  simp [List.take_left, List.drop_left]

/-- Integer-record round trip. -/
theorem readInt_writeInt (i : Int) (rest : List Nat) :
    readInt (writeInt i ++ rest) = some (i, rest) := by
  rw [writeInt]
  by_cases h : i < 0
  · simp only [h, if_true, List.cons_append, List.nil_append, readInt,
      readVarint_writeVarint]
    simp only [Option.some.injEq, Prod.mk.injEq, and_true]
    omega
  · simp only [h, if_false, List.cons_append, List.nil_append, readInt,
      readVarint_writeVarint]
    simp only [Option.some.injEq, Prod.mk.injEq, and_true]
    omega

/-- Double-record round trip. -/
theorem readDbl_writeDbl (d : DblVal) (rest : List Nat) :
    readDbl (writeDbl d ++ rest) = some (d, rest) := by
  cases d with
  | ofInt i =>
    simp only [writeDbl, List.cons_append, readDbl, readInt_writeInt]
  | raw b =>
    simp only [writeDbl, List.cons_append, readDbl, readVarint_writeVarint]

/-- Symbol-record round trip. -/
theorem readSym_writeSym (sym : Sym) (rest : List Nat) :
    readSym (writeSym sym ++ rest) = some (sym, rest) := by
  cases sym with
  | tag j => simp [writeSym, readSym, readVarint_writeVarint]
  | enumI j => simp [writeSym, readSym, readVarint_writeVarint]
  | boolS b => cases b <;> simp [writeSym, readSym]
  | uintS n => simp [writeSym, readSym, readVarint_writeVarint]
  | dblS d => simp [writeSym, readSym, readDbl_writeDbl]
  | strS j => simp [writeSym, readSym, readVarint_writeVarint]
  | lenS n => simp [writeSym, readSym, readVarint_writeVarint]

/-- Distribution-entry round trip. -/
theorem readDistEntry_writeDistEntry (e : Sym × Nat) (rest : List Nat) :
    readDistEntry (writeDistEntry e ++ rest) = some (e, rest) := by
  simp [writeDistEntry, readDistEntry, List.append_assoc, readSym_writeSym,
    readVarint_writeVarint]

/-- Model-entry round trip. -/
theorem readModelEntry_writeModelEntry (e : MKey × Dist) (rest : List Nat) :
    readModelEntry (writeModelEntry e ++ rest) = some (e, rest) := by
  simp [writeModelEntry, readModelEntry, List.append_assoc, readVarint_writeVarint,
    readStr_writeStr,
    readListN_flatten writeDistEntry readDistEntry readDistEntry_writeDistEntry]

/-- Model-section round trip: the reader reconstitutes the same mapping in
the same canonical order. -/
theorem modelRead_modelWrite (m : Model) (rest : List Nat) :
    modelRead (modelWrite m ++ rest) = some (m, rest) := by
  simp [modelWrite, modelRead, List.append_assoc, readVarint_writeVarint,
    readListN_flatten writeModelEntry readModelEntry readModelEntry_writeModelEntry]

/-- String-table round trip. -/
theorem readDict_writeDict (l : List Str) (rest : List Nat) :
    readDict (writeDict l ++ rest) = some (l, rest) := by
  simp [writeDict, readDict, List.append_assoc, readVarint_writeVarint,
    readListN_flatten writeStr readStr readStr_writeStr]

/-- Symbol-coder round trip: a symbol the encoder accepts (present with
non-zero weight) is decoded back exactly, consuming exactly its bytes. -/
theorem decSym_encSym {m : Model} {key : MKey} {sym : Sym} {w : List Nat}
    (h : encSym m key sym = some w) (rest : List Nat) :
    decSym m key (w ++ rest) = some (sym, rest) := by
  rw [encSym] at h
  cases hd : lookupKey m key with
  | none => rw [hd] at h; exact absurd h (by simp)
  | some d =>
    rw [hd] at h
    simp only [] at h
    cases hj : firstIdx (fun e => e.1 = sym) d with
    | none => rw [hj] at h; simp at h
    | some j =>
      rw [hj] at h
      simp only [] at h
      obtain ⟨e, he, hpe⟩ := firstIdx_some hj
      rw [he] at h
      simp only [] at h
      by_cases hw : e.2 ≠ 0
      · rw [if_pos hw] at h
        have hweq : writeVarint j = w := Option.some.inj h
        subst hweq
        rw [decSym, hd]
        simp only []
        rw [readVarint_writeVarint]
        simp only []
        rw [he]
        simp only []
        rw [if_pos hw]
        have heq : e.1 = sym := by simpa using hpe
        rw [heq]
      · rw [if_neg hw] at h
        simp at h

/-! ## The token-codec round trip -/

/-- Round-trip statement for `encodeVal`/`decodeVal` at one fuel level: a
value whose placeholders are numbered consecutively from `c` in traversal
order decodes back from its own encoding, consuming exactly its bytes and
counting exactly its placeholders. -/
def EncDecP (s : Schema) (sd : List Str) (m : Model) (n : Nat) : Prop :=
  ∀ key ty v w c rest, encodeVal s sd m n key ty v = some w →
    phs v = List.range' c (phs v).length →
    decodeVal s sd m n key ty (w ++ rest) c = some (v, rest, c + (phs v).length)

/-- Round-trip statement for `encodeDef`/`decodeDef`. -/
def EncDecD (s : Schema) (sd : List Str) (m : Model) (n : Nat) : Prop :=
  ∀ key ty td v w c rest, encodeDef s sd m n key ty td v = some w →
    phs v = List.range' c (phs v).length →
    decodeDef s sd m n key ty td (w ++ rest) c = some (v, rest, c + (phs v).length)

/-- Round-trip statement for `encodeFields`/`decodeFields`. -/
def EncDecF (s : Schema) (sd : List Str) (m : Model) (n : Nat) : Prop :=
  ∀ tyH attrs fields w c rest, encodeFields s sd m n tyH attrs fields = some w →
    phsL fields = List.range' c (phsL fields).length →
    decodeFields s sd m n tyH attrs (w ++ rest) c =
      some (fields, rest, c + (phsL fields).length)

/-- Round-trip statement for `encodeItems`/`decodeItems`. -/
def EncDecI (s : Schema) (sd : List Str) (m : Model) (n : Nat) : Prop :=
  ∀ key e items w c rest, encodeItems s sd m n key e items = some w →
    phsL items = List.range' c (phsL items).length →
    decodeItems s sd m n key e items.length (w ++ rest) c =
      some (items, rest, c + (phsL items).length)

theorem encDecP_step {s : Schema} {sd : List Str} {m : Model} {n : Nat}
    (hD : EncDecD s sd m n) : EncDecP s sd m (n + 1) := by
  intro key ty v w c rest henc hph
  have hredE : encodeVal s sd m (n + 1) key ty v =
      (match s[ty]? with
       | none => none
       | some td => encodeDef s sd m n key ty td v) := rfl
  have hredD : decodeVal s sd m (n + 1) key ty (w ++ rest) c =
      (match s[ty]? with
       | none => none
       | some td => decodeDef s sd m n key ty td (w ++ rest) c) := rfl
  rw [hredE] at henc
  rw [hredD]
  cases hty : s[ty]? with
  | none => rw [hty] at henc; exact absurd henc (by simp)
  | some td =>
    rw [hty] at henc
    simp only [] at henc
    simp only []
    exact hD key ty td v w c rest henc hph

/-- Unfolding equation for `encodeFields` at a cons cell. -/
theorem encodeFields_cons_eq (s : Schema) (sd : List Str) (m : Model) (n tyH : Nat)
    (a : Attr) (as : List Attr) (f : Value) (fs : List Value) :
    encodeFields s sd m (n + 1) tyH (a :: as) (f :: fs) =
      (let wf? : Option (List Nat) :=
        if a.lazy then
          match f with
          | .placeholder _ => some []
          | _ => none
        else encodeVal s sd m n (tyH, a.name) a.ty f
      match wf?, encodeFields s sd m n tyH as fs with
      | some wf, some wr => some (wf ++ wr)
      | _, _ => none) := rfl

/-- Unfolding equation for `decodeFields` at a cons cell. -/
theorem decodeFields_cons_eq (s : Schema) (sd : List Str) (m : Model) (n tyH : Nat)
    (a : Attr) (as : List Attr) (inp : List Nat) (c : Nat) :
    decodeFields s sd m (n + 1) tyH (a :: as) inp c =
      (let f? : Option (Value × List Nat × Nat) :=
        if a.lazy then some (Value.placeholder c, inp, c + 1)
        else decodeVal s sd m n (tyH, a.name) a.ty inp c
      match f? with
      | none => none
      | some (f, r1, c1) =>
        match decodeFields s sd m n tyH as r1 c1 with
        | some (fs, r2, c2) => some (f :: fs, r2, c2)
        | none => none) := rfl

/-- Unfolding equation for `encodeItems` at a cons cell. -/
theorem encodeItems_cons_eq (s : Schema) (sd : List Str) (m : Model) (n : Nat)
    (key : MKey) (e : Nat) (x : Value) (xs : List Value) :
    encodeItems s sd m (n + 1) key e (x :: xs) =
      (match encodeVal s sd m n key e x, encodeItems s sd m n key e xs with
       | some w1, some wr => some (w1 ++ wr)
       | _, _ => none) := rfl

/-- Unfolding equation for `decodeItems` at a positive count. -/
theorem decodeItems_succ_eq (s : Schema) (sd : List Str) (m : Model) (n : Nat)
    (key : MKey) (e k : Nat) (inp : List Nat) (c : Nat) :
    decodeItems s sd m (n + 1) key e (k + 1) inp c =
      (match decodeVal s sd m n key e inp c with
       | none => none
       | some (x, r1, c1) =>
         match decodeItems s sd m n key e k r1 c1 with
         | some (xs, r2, c2) => some (x :: xs, r2, c2)
         | none => none) := rfl

theorem encDecF_step {s : Schema} {sd : List Str} {m : Model} {n : Nat}
    (hP : EncDecP s sd m n) (hF : EncDecF s sd m n) : EncDecF s sd m (n + 1) := by
  intro tyH attrs fields w c rest henc hph
  cases attrs with
  | nil =>
    cases fields with
    | nil =>
      have hredE : encodeFields s sd m (n + 1) tyH [] [] = some [] := rfl
      rw [hredE] at henc
      have hw : ([] : List Nat) = w := Option.some.inj henc
      subst hw
      have hredD : decodeFields s sd m (n + 1) tyH [] (([] : List Nat) ++ rest) c =
          some ([], ([] : List Nat) ++ rest, c) := rfl
      rw [hredD]
      simp [phsL]
    | cons f fs =>
      have hredE : encodeFields s sd m (n + 1) tyH [] (f :: fs) = none := rfl
      rw [hredE] at henc
      exact Option.noConfusion henc
  | cons a as =>
    cases fields with
    | nil =>
      have hredE : encodeFields s sd m (n + 1) tyH (a :: as) [] = none := rfl
      rw [hredE] at henc
      exact Option.noConfusion henc
    | cons f fs =>
      rw [encodeFields_cons_eq] at henc
      simp only [] at henc
      have hphc : phs f ++ phsL fs =
          List.range' c ((phs f).length + (phsL fs).length) := by
        have h1 : phsL (f :: fs) = phs f ++ phsL fs := rfl
        rw [h1] at hph
        simpa [List.length_append] using hph
      obtain ⟨hph1, hph2⟩ := range'_split hphc
      by_cases hl : a.lazy
      · rw [if_pos hl] at henc
        cases f with
        | placeholder i =>
          simp only [] at henc
          cases hr : encodeFields s sd m n tyH as fs with
          | none => rw [hr] at henc; exact absurd henc (by simp)
          | some wr =>
            rw [hr] at henc
            simp only [] at henc
            have hw : [] ++ wr = w := Option.some.inj henc
            simp only [List.nil_append] at hw
            subst hw
            have hic : i = c := by
              have h2 : phs (Value.placeholder i) = [i] := rfl
              rw [h2] at hph1
              simpa [List.range'] using hph1
            subst i
            rw [decodeFields_cons_eq]
            simp only []
            rw [if_pos hl]
            simp only []
            have hphfs : phsL fs = List.range' (c + 1) (phsL fs).length := by
              have h3 : (phs (Value.placeholder c)).length = 1 := rfl
              rw [h3] at hph2
              exact hph2
            rw [hF tyH as fs wr (c + 1) rest hr hphfs]
            simp only []
            have h4 : phsL (Value.placeholder c :: fs) = [c] ++ phsL fs := rfl
            rw [h4]
            simp only [Option.some.injEq, Prod.mk.injEq, List.length_append, true_and,
              and_true, List.length_cons, List.length_nil]
            omega
        | ifaceV k fields => simp at henc
        | enumV x => simp at henc
        | boolV b => simp at henc
        | uintV nn => simp at henc
        | intV i => simp at henc
        | dblV d => simp at henc
        | strV x => simp at henc
        | nullV => simp at henc
        | arrV items => simp at henc
      · rw [if_neg hl] at henc
        cases hwf : encodeVal s sd m n (tyH, a.name) a.ty f with
        | none => rw [hwf] at henc; exact absurd henc (by simp)
        | some wf =>
          rw [hwf] at henc
          cases hr : encodeFields s sd m n tyH as fs with
          | none => rw [hr] at henc; exact absurd henc (by simp)
          | some wr =>
            rw [hr] at henc
            simp only [] at henc
            have hw : wf ++ wr = w := Option.some.inj henc
            subst hw
            rw [decodeFields_cons_eq]
            simp only []
            rw [if_neg hl]
            rw [List.append_assoc]
            rw [hP (tyH, a.name) a.ty f wf c (wr ++ rest) hwf hph1]
            simp only []
            rw [hF tyH as fs wr (c + (phs f).length) rest hr hph2]
            simp only []
            have h1 : phsL (f :: fs) = phs f ++ phsL fs := rfl
            rw [h1]
            simp only [Option.some.injEq, Prod.mk.injEq, List.length_append, true_and,
              and_true]
            omega

theorem encDecI_step {s : Schema} {sd : List Str} {m : Model} {n : Nat}
    (hP : EncDecP s sd m n) (hI : EncDecI s sd m n) : EncDecI s sd m (n + 1) := by
  intro key e items w c rest henc hph
  cases items with
  | nil =>
    have hredE : encodeItems s sd m (n + 1) key e [] = some [] := rfl
    rw [hredE] at henc
    have hw : ([] : List Nat) = w := Option.some.inj henc
    subst hw
    have hredD : decodeItems s sd m (n + 1) key e 0 (([] : List Nat) ++ rest) c =
        some ([], ([] : List Nat) ++ rest, c) := rfl
    simp only [List.length_nil]
    rw [hredD]
    simp [phsL]
  | cons x xs =>
    rw [encodeItems_cons_eq] at henc
    cases hwx : encodeVal s sd m n key e x with
    | none => rw [hwx] at henc; exact absurd henc (by simp)
    | some w1 =>
      rw [hwx] at henc
      cases hr : encodeItems s sd m n key e xs with
      | none => rw [hr] at henc; exact absurd henc (by simp)
      | some wr =>
        rw [hr] at henc
        simp only [] at henc
        have hw : w1 ++ wr = w := Option.some.inj henc
        subst hw
        have hphc : phs x ++ phsL xs =
            List.range' c ((phs x).length + (phsL xs).length) := by
          have h1 : phsL (x :: xs) = phs x ++ phsL xs := rfl
          rw [h1] at hph
          simpa [List.length_append] using hph
        obtain ⟨hph1, hph2⟩ := range'_split hphc
        simp only [List.length_cons]
        rw [decodeItems_succ_eq]
        rw [List.append_assoc]
        rw [hP key e x w1 c (wr ++ rest) hwx hph1]
        simp only []
        rw [hI key e xs wr (c + (phs x).length) rest hr hph2]
        simp only []
        have h1 : phsL (x :: xs) = phs x ++ phsL xs := rfl
        rw [h1]
        simp only [Option.some.injEq, Prod.mk.injEq, List.length_append, true_and,
          and_true]
        omega

/-- Unfolding equation for `encodeDef` at an alternation. -/
theorem encodeDef_alt_eq (s : Schema) (sd : List Str) (m : Model) (n : Nat)
    (key : MKey) (ty : Nat) (tys : List Nat) (v : Value) :
    encodeDef s sd m (n + 1) key ty (.alt tys) v =
      (match firstIdx (fun t => shapeMatches s t v) tys with
       | none => none
       | some j =>
         match tys[j]?, encSym m key (.tag j) with
         | some t, some wt =>
           match encodeVal s sd m n key t v with
           | some wr => some (wt ++ wr)
           | none => none
         | _, _ => none) := rfl

/-- Unfolding equation for `decodeDef` at an alternation. -/
theorem decodeDef_alt_eq (s : Schema) (sd : List Str) (m : Model) (n : Nat)
    (key : MKey) (ty : Nat) (tys : List Nat) (inp : List Nat) (c : Nat) :
    decodeDef s sd m (n + 1) key ty (.alt tys) inp c =
      (match decSym m key inp with
       | some (.tag j, r1) =>
         match tys[j]? with
         | some t => decodeVal s sd m n key t r1 c
         | none => none
       | _ => none) := rfl

/-- Unfolding equation for `encodeDef` at an interface. -/
theorem encodeDef_iface_eq (s : Schema) (sd : List Str) (m : Model) (n : Nat)
    (key : MKey) (ty : Nat) (attrs : List Attr) (v : Value) :
    encodeDef s sd m (n + 1) key ty (.iface attrs) v =
      (match v with
       | .ifaceV k fields =>
         if k = ty then encodeFields s sd m n ty attrs fields else none
       | _ => none) := rfl

/-- Unfolding equation for `decodeDef` at an interface. -/
theorem decodeDef_iface_eq (s : Schema) (sd : List Str) (m : Model) (n : Nat)
    (key : MKey) (ty : Nat) (attrs : List Attr) (inp : List Nat) (c : Nat) :
    decodeDef s sd m (n + 1) key ty (.iface attrs) inp c =
      (match decodeFields s sd m n ty attrs inp c with
       | some (fs, r1, c1) => some (.ifaceV ty fs, r1, c1)
       | none => none) := rfl

/-- Unfolding equation for `encodeDef` at an enumeration. -/
theorem encodeDef_enum_eq (s : Schema) (sd : List Str) (m : Model) (n : Nat)
    (key : MKey) (ty : Nat) (syms : List Str) (v : Value) :
    encodeDef s sd m (n + 1) key ty (.enum syms) v =
      (match v with
       | .enumV x =>
         match firstIdx (fun y => y = x) syms with
         | some j => encSym m key (.enumI j)
         | none => none
       | _ => none) := rfl

/-- Unfolding equation for `decodeDef` at an enumeration. -/
theorem decodeDef_enum_eq (s : Schema) (sd : List Str) (m : Model) (n : Nat)
    (key : MKey) (ty : Nat) (syms : List Str) (inp : List Nat) (c : Nat) :
    decodeDef s sd m (n + 1) key ty (.enum syms) inp c =
      (match decSym m key inp with
       | some (.enumI j, r1) =>
         match syms[j]? with
         | some x => some (.enumV x, r1, c)
         | none => none
       | _ => none) := rfl

/-- Unfolding equation for `encodeDef` at the primitives. -/
theorem encodeDef_pBool_eq (s : Schema) (sd : List Str) (m : Model) (n : Nat)
    (key : MKey) (ty : Nat) (v : Value) :
    encodeDef s sd m (n + 1) key ty .pBool v =
      (match v with
       | .boolV b => encSym m key (.boolS b)
       | _ => none) := rfl

/-- Unfolding equation for `decodeDef` at booleans. -/
theorem decodeDef_pBool_eq (s : Schema) (sd : List Str) (m : Model) (n : Nat)
    (key : MKey) (ty : Nat) (inp : List Nat) (c : Nat) :
    decodeDef s sd m (n + 1) key ty .pBool inp c =
      (match decSym m key inp with
       | some (.boolS b, r1) => some (.boolV b, r1, c)
       | _ => none) := rfl

/-- Unfolding equation for `encodeDef` at unsigned integers. -/
theorem encodeDef_pUint_eq (s : Schema) (sd : List Str) (m : Model) (n : Nat)
    (key : MKey) (ty : Nat) (v : Value) :
    encodeDef s sd m (n + 1) key ty .pUint v =
      (match v with
       | .uintV k => encSym m key (.uintS k)
       | _ => none) := rfl

/-- Unfolding equation for `decodeDef` at unsigned integers. -/
theorem decodeDef_pUint_eq (s : Schema) (sd : List Str) (m : Model) (n : Nat)
    (key : MKey) (ty : Nat) (inp : List Nat) (c : Nat) :
    decodeDef s sd m (n + 1) key ty .pUint inp c =
      (match decSym m key inp with
       | some (.uintS k, r1) => some (.uintV k, r1, c)
       | _ => none) := rfl

/-- Unfolding equation for `encodeDef` at doubles. -/
theorem encodeDef_pDouble_eq (s : Schema) (sd : List Str) (m : Model) (n : Nat)
    (key : MKey) (ty : Nat) (v : Value) :
    encodeDef s sd m (n + 1) key ty .pDouble v =
      (match v with
       | .dblV d => encSym m key (.dblS d)
       | _ => none) := rfl

/-- Unfolding equation for `decodeDef` at doubles. -/
theorem decodeDef_pDouble_eq (s : Schema) (sd : List Str) (m : Model) (n : Nat)
    (key : MKey) (ty : Nat) (inp : List Nat) (c : Nat) :
    decodeDef s sd m (n + 1) key ty .pDouble inp c =
      (match decSym m key inp with
       | some (.dblS d, r1) => some (.dblV d, r1, c)
       | _ => none) := rfl

/-- Unfolding equation for `encodeDef` at strings. -/
theorem encodeDef_pStr_eq (s : Schema) (sd : List Str) (m : Model) (n : Nat)
    (key : MKey) (ty : Nat) (v : Value) :
    encodeDef s sd m (n + 1) key ty .pStr v =
      (match v with
       | .strV x =>
         match firstIdx (fun y => y = x) sd with
         | some j => encSym m key (.strS j)
         | none => none
       | _ => none) := rfl

/-- Unfolding equation for `decodeDef` at strings. -/
theorem decodeDef_pStr_eq (s : Schema) (sd : List Str) (m : Model) (n : Nat)
    (key : MKey) (ty : Nat) (inp : List Nat) (c : Nat) :
    decodeDef s sd m (n + 1) key ty .pStr inp c =
      (match decSym m key inp with
       | some (.strS j, r1) =>
         match sd[j]? with
         | some x => some (.strV x, r1, c)
         | none => none
       | _ => none) := rfl

/-- Unfolding equation for `encodeDef` at identifier names. -/
theorem encodeDef_pIdent_eq (s : Schema) (sd : List Str) (m : Model) (n : Nat)
    (key : MKey) (ty : Nat) (v : Value) :
    encodeDef s sd m (n + 1) key ty .pIdent v =
      (match v with
       | .strV x =>
         match firstIdx (fun y => y = x) sd with
         | some j => encSym m key (.strS j)
         | none => none
       | _ => none) := rfl

/-- Unfolding equation for `decodeDef` at identifier names. -/
theorem decodeDef_pIdent_eq (s : Schema) (sd : List Str) (m : Model) (n : Nat)
    (key : MKey) (ty : Nat) (inp : List Nat) (c : Nat) :
    decodeDef s sd m (n + 1) key ty .pIdent inp c =
      (match decSym m key inp with
       | some (.strS j, r1) =>
         match sd[j]? with
         | some x => some (.strV x, r1, c)
         | none => none
       | _ => none) := rfl

/-- Unfolding equation for `encodeDef` at the None type. -/
theorem encodeDef_pNone_eq (s : Schema) (sd : List Str) (m : Model) (n : Nat)
    (key : MKey) (ty : Nat) (v : Value) :
    encodeDef s sd m (n + 1) key ty .pNone v =
      (match v with
       | .nullV => some []
       | _ => none) := rfl

/-- Unfolding equation for `encodeDef` at a frozen array. -/
theorem encodeDef_arr_eq (s : Schema) (sd : List Str) (m : Model) (n : Nat)
    (key : MKey) (ty : Nat) (e : Nat) (v : Value) :
    encodeDef s sd m (n + 1) key ty (.arr e) v =
      (match v with
       | .arrV items =>
         match encSym m (ty, listLengthName) (.lenS items.length) with
         | none => none
         | some wl =>
           match encodeItems s sd m n key e items with
           | some wi => some (wl ++ wi)
           | none => none
       | _ => none) := rfl

/-- Unfolding equation for `decodeDef` at a frozen array. -/
theorem decodeDef_arr_eq (s : Schema) (sd : List Str) (m : Model) (n : Nat)
    (key : MKey) (ty : Nat) (e : Nat) (inp : List Nat) (c : Nat) :
    decodeDef s sd m (n + 1) key ty (.arr e) inp c =
      (match decSym m (ty, listLengthName) inp with
       | some (.lenS k, r1) =>
         match decodeItems s sd m n key e k r1 c with
         | some (xs, r2, c2) => some (.arrV xs, r2, c2)
         | none => none
       | _ => none) := rfl

theorem encDecD_step {s : Schema} {sd : List Str} {m : Model} {n : Nat}
    (hP : EncDecP s sd m n) (hF : EncDecF s sd m n) (hI : EncDecI s sd m n) :
    EncDecD s sd m (n + 1) := by
  intro key ty td v w c rest henc hph
  cases td with
  | alt tys =>
    rw [encodeDef_alt_eq] at henc
    cases hj : firstIdx (fun t => shapeMatches s t v) tys with
    | none => rw [hj] at henc; exact absurd henc (by simp)
    | some j =>
      rw [hj] at henc
      simp only [] at henc
      cases ht : tys[j]? with
      | none => rw [ht] at henc; exact absurd henc (by simp)
      | some t =>
        rw [ht] at henc
        cases hwt : encSym m key (.tag j) with
        | none => rw [hwt] at henc; exact absurd henc (by simp)
        | some wt =>
          rw [hwt] at henc
          simp only [] at henc
          cases hwr : encodeVal s sd m n key t v with
          | none => rw [hwr] at henc; exact absurd henc (by simp)
          | some wr =>
            rw [hwr] at henc
            simp only [] at henc
            have hw : wt ++ wr = w := Option.some.inj henc
            subst hw
            rw [decodeDef_alt_eq, List.append_assoc, decSym_encSym hwt]
            simp only []
            rw [ht]
            simp only []
            exact hP key t v wr c rest hwr hph
  | iface attrs =>
    rw [encodeDef_iface_eq] at henc
    cases v with
    | ifaceV k fields =>
      simp only [] at henc
      by_cases hk : k = ty
      · rw [if_pos hk] at henc
        subst hk
        rw [decodeDef_iface_eq]
        have hphf : phsL fields = List.range' c (phsL fields).length := hph
        rw [hF k attrs fields w c rest henc hphf]
        simp only []
        rfl
      · rw [if_neg hk] at henc
        exact absurd henc (by simp)
    | enumV x => simp at henc
    | boolV b => simp at henc
    | uintV k => simp at henc
    | intV i => simp at henc
    | dblV d => simp at henc
    | strV x => simp at henc
    | nullV => simp at henc
    | arrV items => simp at henc
    | placeholder i => simp at henc
  | enum syms =>
    rw [encodeDef_enum_eq] at henc
    cases v with
    | enumV x =>
      simp only [] at henc
      cases hj : firstIdx (fun y => y = x) syms with
      | none => rw [hj] at henc; exact absurd henc (by simp)
      | some j =>
        rw [hj] at henc
        simp only [] at henc
        obtain ⟨y, hy, hpy⟩ := firstIdx_some hj
        rw [decodeDef_enum_eq, decSym_encSym henc]
        simp only []
        rw [hy]
        simp only []
        have hyx : y = x := by simpa using hpy
        rw [hyx]
        rfl
    | ifaceV k fields => simp at henc
    | boolV b => simp at henc
    | uintV k => simp at henc
    | intV i => simp at henc
    | dblV d => simp at henc
    | strV x => simp at henc
    | nullV => simp at henc
    | arrV items => simp at henc
    | placeholder i => simp at henc
  | pBool =>
    rw [encodeDef_pBool_eq] at henc
    cases v with
    | boolV b =>
      simp only [] at henc
      rw [decodeDef_pBool_eq, decSym_encSym henc]
      rfl
    | ifaceV k fields => simp at henc
    | enumV x => simp at henc
    | uintV k => simp at henc
    | intV i => simp at henc
    | dblV d => simp at henc
    | strV x => simp at henc
    | nullV => simp at henc
    | arrV items => simp at henc
    | placeholder i => simp at henc
  | pUint =>
    rw [encodeDef_pUint_eq] at henc
    cases v with
    | uintV k =>
      simp only [] at henc
      rw [decodeDef_pUint_eq, decSym_encSym henc]
      rfl
    | ifaceV k fields => simp at henc
    | enumV x => simp at henc
    | boolV b => simp at henc
    | intV i => simp at henc
    | dblV d => simp at henc
    | strV x => simp at henc
    | nullV => simp at henc
    | arrV items => simp at henc
    | placeholder i => simp at henc
  | pDouble =>
    rw [encodeDef_pDouble_eq] at henc
    cases v with
    | dblV d =>
      simp only [] at henc
      rw [decodeDef_pDouble_eq, decSym_encSym henc]
      rfl
    | ifaceV k fields => simp at henc
    | enumV x => simp at henc
    | boolV b => simp at henc
    | uintV k => simp at henc
    | intV i => simp at henc
    | strV x => simp at henc
    | nullV => simp at henc
    | arrV items => simp at henc
    | placeholder i => simp at henc
  | pStr =>
    rw [encodeDef_pStr_eq] at henc
    cases v with
    | strV x =>
      simp only [] at henc
      cases hj : firstIdx (fun y => y = x) sd with
      | none => rw [hj] at henc; exact absurd henc (by simp)
      | some j =>
        rw [hj] at henc
        simp only [] at henc
        obtain ⟨y, hy, hpy⟩ := firstIdx_some hj
        rw [decodeDef_pStr_eq, decSym_encSym henc]
        simp only []
        rw [hy]
        simp only []
        have hyx : y = x := by simpa using hpy
        rw [hyx]
        rfl
    | ifaceV k fields => simp at henc
    | enumV x => simp at henc
    | boolV b => simp at henc
    | uintV k => simp at henc
    | intV i => simp at henc
    | dblV d => simp at henc
    | nullV => simp at henc
    | arrV items => simp at henc
    | placeholder i => simp at henc
  | pIdent =>
    rw [encodeDef_pIdent_eq] at henc
    cases v with
    | strV x =>
      simp only [] at henc
      cases hj : firstIdx (fun y => y = x) sd with
      | none => rw [hj] at henc; exact absurd henc (by simp)
      | some j =>
        rw [hj] at henc
        simp only [] at henc
        obtain ⟨y, hy, hpy⟩ := firstIdx_some hj
        rw [decodeDef_pIdent_eq, decSym_encSym henc]
        simp only []
        rw [hy]
        simp only []
        have hyx : y = x := by simpa using hpy
        rw [hyx]
        rfl
    | ifaceV k fields => simp at henc
    | enumV x => simp at henc
    | boolV b => simp at henc
    | uintV k => simp at henc
    | intV i => simp at henc
    | dblV d => simp at henc
    | nullV => simp at henc
    | arrV items => simp at henc
    | placeholder i => simp at henc
  | pNone =>
    rw [encodeDef_pNone_eq] at henc
    cases v with
    | nullV =>
      simp only [] at henc
      have hw : ([] : List Nat) = w := Option.some.inj henc
      subst hw
      have hredD : decodeDef s sd m (n + 1) key ty .pNone (([] : List Nat) ++ rest) c =
          some (.nullV, ([] : List Nat) ++ rest, c) := rfl
      rw [hredD]
      simp [phs]
    | ifaceV k fields => simp at henc
    | enumV x => simp at henc
    | boolV b => simp at henc
    | uintV k => simp at henc
    | intV i => simp at henc
    | dblV d => simp at henc
    | strV x => simp at henc
    | arrV items => simp at henc
    | placeholder i => simp at henc
  | arr e =>
    rw [encodeDef_arr_eq] at henc
    cases v with
    | arrV items =>
      simp only [] at henc
      cases hwl : encSym m (ty, listLengthName) (.lenS items.length) with
      | none => rw [hwl] at henc; exact absurd henc (by simp)
      | some wl =>
        rw [hwl] at henc
        simp only [] at henc
        cases hwi : encodeItems s sd m n key e items with
        | none => rw [hwi] at henc; exact absurd henc (by simp)
        | some wi =>
          rw [hwi] at henc
          simp only [] at henc
          have hw : wl ++ wi = w := Option.some.inj henc
          subst hw
          rw [decodeDef_arr_eq, List.append_assoc, decSym_encSym hwl]
          simp only []
          have hphi : phsL items = List.range' c (phsL items).length := hph
          rw [hI key e items wi c rest hwi hphi]
          simp only []
          rfl
    | ifaceV k fields => simp at henc
    | enumV x => simp at henc
    | boolV b => simp at henc
    | uintV k => simp at henc
    | intV i => simp at henc
    | dblV d => simp at henc
    | strV x => simp at henc
    | nullV => simp at henc
    | placeholder i => simp at henc

theorem encDec_all (s : Schema) (sd : List Str) (m : Model) :
    ∀ n, EncDecP s sd m n ∧ EncDecD s sd m n ∧ EncDecF s sd m n ∧ EncDecI s sd m n := by
  intro n
  induction n with
  | zero =>
    refine ⟨?_, ?_, ?_, ?_⟩
    · intro key ty v w c rest henc
      exact absurd henc (by rw [show encodeVal s sd m 0 key ty v = none from rfl]; simp)
    · intro key ty td v w c rest henc
      exact absurd henc (by rw [show encodeDef s sd m 0 key ty td v = none from rfl]; simp)
    · intro tyH attrs fields w c rest henc
      exact absurd henc
        (by rw [show encodeFields s sd m 0 tyH attrs fields = none from rfl]; simp)
    · intro key e items w c rest henc
      exact absurd henc
        (by rw [show encodeItems s sd m 0 key e items = none from rfl]; simp)
  | succ k ih =>
    obtain ⟨hP, hD, hF, hI⟩ := ih
    exact ⟨encDecP_step hD, encDecD_step hP hF hI, encDecF_step hP hF,
      encDecI_step hP hI⟩

/-- The token-codec round trip: any value the encoder accepts, whose lazy
placeholders are numbered consecutively from `c` in traversal order, is
decoded back exactly from its own byte string, leaving the rest of the
stream and advancing the placeholder counter by the placeholder count. -/
theorem decodeVal_encodeVal {s : Schema} {sd : List Str} {m : Model} {n : Nat}
    {key : MKey} {ty : Nat} {v : Value} {w : List Nat} {c : Nat}
    (henc : encodeVal s sd m n key ty v = some w)
    (hph : phs v = List.range' c (phs v).length) (rest : List Nat) :
    decodeVal s sd m n key ty (w ++ rest) c = some (v, rest, c + (phs v).length) :=
  (encDec_all s sd m n).1 key ty v w c rest henc hph

/-! ## Extraction and restoration invert each other -/

/-- A placeholder-free tree has no placeholder indices. -/
theorem phs_nil_of_phFree : ∀ v, phFree v = true → phs v = [] := by
  refine phFree.induct (fun v => phFree v = true → phs v = [])
    (fun l => phFreeL l = true → phsL l = []) ?_ ?_ ?_ ?_ ?_ ?_
  · intro k fields ih h
    have hf : phFreeL fields = true := h
    have : phsL fields = [] := ih hf
    simpa [phs] using this
  · intro items ih h
    have hf : phFreeL items = true := h
    have : phsL items = [] := ih hf
    simpa [phs] using this
  · intro i h
    simp [phFree] at h
  · intro t h1 h2 h3
    cases t
    case ifaceV k fields => exact fun _ => (h1 k fields rfl).elim
    case arrV items => exact fun _ => (h2 items rfl).elim
    case placeholder i => exact fun _ => (h3 i rfl).elim
    all_goals exact fun _ => rfl
  · intro _
    rfl
  · intro x xs ih1 ih2 h
    have hsplit : phFree x = true ∧ phFreeL xs = true := by
      simpa [phFreeL, Bool.and_eq_true] using h
    have e1 : phsL (x :: xs) = phs x ++ phsL xs := rfl
    rw [e1, ih1 hsplit.1, ih2 hsplit.2]
    rfl

/-- A list of placeholder-free trees has no placeholder indices. -/
theorem phsL_nil_of_phFreeL : ∀ l, phFreeL l = true → phsL l = [] := by
  intro l
  induction l with
  | nil => intro _; rfl
  | cons x xs ih =>
    intro h
    have hsplit : phFree x = true ∧ phFreeL xs = true := by
      simpa [phFreeL, Bool.and_eq_true] using h
    have e1 : phsL (x :: xs) = phs x ++ phsL xs := rfl
    rw [e1, phs_nil_of_phFree x hsplit.1, ih hsplit.2]
    rfl

/-- Unfolding equation for `extractV` at an interface node. -/
theorem extractV_ifaceV_eq (s : Schema) (ty k : Nat) (fields : List Value)
    (acc : List (Attr × Value)) :
    extractV s ty (.ifaceV k fields) acc =
      (match s[resolveFor s ty (.ifaceV k fields)]? with
       | some (.iface attrs) =>
         let p := extractFs s attrs fields acc
         (Value.ifaceV k p.1, p.2)
       | _ => (Value.ifaceV k fields, acc)) := rfl

/-- Unfolding equation for `extractV` at an array node. -/
theorem extractV_arrV_eq (s : Schema) (ty : Nat) (items : List Value)
    (acc : List (Attr × Value)) :
    extractV s ty (.arrV items) acc =
      (match s[resolveFor s ty (.arrV items)]? with
       | some (.arr e) =>
         let p := extractIs s e items acc
         (Value.arrV p.1, p.2)
       | _ => (Value.arrV items, acc)) := rfl

/-- Unfolding equation for `extractFs` at a cons cell. -/
theorem extractFs_cons_eq (s : Schema) (a : Attr) (as : List Attr) (f : Value)
    (fs : List Value) (acc : List (Attr × Value)) :
    extractFs s (a :: as) (f :: fs) acc =
      (let p1 :=
        if a.lazy then (Value.placeholder acc.length, acc ++ [(a, f)])
        else extractV s a.ty f acc
      let p2 := extractFs s as fs p1.2
      (p1.1 :: p2.1, p2.2)) := rfl

/-- Unfolding equation for `extractIs` at a cons cell. -/
theorem extractIs_cons_eq (s : Schema) (e : Nat) (x : Value) (xs : List Value)
    (acc : List (Attr × Value)) :
    extractIs s e (x :: xs) acc =
      (let p1 := extractV s e x acc
      let p2 := extractIs s e xs p1.2
      (p1.1 :: p2.1, p2.2)) := rfl

/-- Unfolding equation for `restoreV` at an interface node. -/
theorem restoreV_ifaceV_eq (s : Schema) (r : Attr → Nat → Option Value)
    (ty k : Nat) (fields : List Value) :
    restoreV s r ty (.ifaceV k fields) =
      (match s[resolveFor s ty (.ifaceV k fields)]? with
       | some (.iface attrs) =>
         match restoreFs s r attrs fields with
         | some fs => some (.ifaceV k fs)
         | none => none
       | _ => some (.ifaceV k fields)) := rfl

/-- Unfolding equation for `restoreV` at an array node. -/
theorem restoreV_arrV_eq (s : Schema) (r : Attr → Nat → Option Value)
    (ty : Nat) (items : List Value) :
    restoreV s r ty (.arrV items) =
      (match s[resolveFor s ty (.arrV items)]? with
       | some (.arr e) =>
         match restoreIs s r e items with
         | some is => some (.arrV is)
         | none => none
       | _ => some (.arrV items)) := rfl

/-- Unfolding equation for `restoreFs` at a cons cell. -/
theorem restoreFs_cons_eq (s : Schema) (r : Attr → Nat → Option Value)
    (a : Attr) (as : List Attr) (f : Value) (fs : List Value) :
    restoreFs s r (a :: as) (f :: fs) =
      (let f? :=
        if a.lazy then
          match f with
          | .placeholder i => r a i
          | _ => none
        else restoreV s r a.ty f
      match f?, restoreFs s r as fs with
      | some f', some fs' => some (f' :: fs')
      | _, _ => none) := rfl

/-- Unfolding equation for `restoreIs` at a cons cell. -/
theorem restoreIs_cons_eq (s : Schema) (r : Attr → Nat → Option Value)
    (e : Nat) (x : Value) (xs : List Value) :
    restoreIs s r e (x :: xs) =
      (match restoreV s r e x, restoreIs s r e xs with
       | some x', some xs' => some (x' :: xs')
       | _, _ => none) := rfl

/-- Shape matching ignores interface fields. -/
theorem shapeMatches_ifaceV (s : Schema) (t k : Nat) (fs fs' : List Value) :
    shapeMatches s t (.ifaceV k fs) = shapeMatches s t (.ifaceV k fs') := by
  unfold shapeMatches
  cases h : s[t]? with
  | none => rfl
  | some td => cases td <;> rfl

/-- Shape matching ignores array elements. -/
theorem shapeMatches_arrV (s : Schema) (t : Nat) (is is' : List Value) :
    shapeMatches s t (.arrV is) = shapeMatches s t (.arrV is') := by
  unfold shapeMatches
  cases h : s[t]? with
  | none => rfl
  | some td => cases td <;> rfl

/-- Alternation resolution ignores interface fields. -/
theorem resolveFor_ifaceV (s : Schema) (ty k : Nat) (fs fs' : List Value) :
    resolveFor s ty (.ifaceV k fs) = resolveFor s ty (.ifaceV k fs') := by
  unfold resolveFor
  have hfun : (fun t => shapeMatches s t (Value.ifaceV k fs)) =
      (fun t => shapeMatches s t (Value.ifaceV k fs')) := by
    funext t
    exact shapeMatches_ifaceV s t k fs fs'
  rw [hfun]

/-- Alternation resolution ignores array elements. -/
theorem resolveFor_arrV (s : Schema) (ty : Nat) (is is' : List Value) :
    resolveFor s ty (.arrV is) = resolveFor s ty (.arrV is') := by
  unfold resolveFor
  have hfun : (fun t => shapeMatches s t (Value.arrV is)) =
      (fun t => shapeMatches s t (Value.arrV is')) := by
    funext t
    exact shapeMatches_arrV s t is is'
  rw [hfun]

/-- Extraction invariant for one tree: the extractor appends its lazies to
the accumulator, numbers the placeholders consecutively from the current
accumulator length in traversal order, keeps the extracted values
placeholder-free, and any resolver that returns exactly the extracted values
restores the original tree. -/
def ExtV (s : Schema) (v : Value) : Prop :=
  ∀ ty acc, phFree v = true →
    ∃ new, (extractV s ty v acc).2 = acc ++ new ∧
      phs (extractV s ty v acc).1 = List.range' acc.length new.length ∧
      (∀ p ∈ new, phFree p.2 = true) ∧
      ∀ r : Attr → Nat → Option Value,
        (∀ i p, new[i]? = some p → r p.1 (acc.length + i) = some p.2) →
        restoreV s r ty (extractV s ty v acc).1 = some v

/-- Extraction invariant for interface fields. -/
def ExtFs (s : Schema) (fields : List Value) : Prop :=
  ∀ attrs acc, phFreeL fields = true →
    ∃ new, (extractFs s attrs fields acc).2 = acc ++ new ∧
      phsL (extractFs s attrs fields acc).1 = List.range' acc.length new.length ∧
      (∀ p ∈ new, phFree p.2 = true) ∧
      ∀ r : Attr → Nat → Option Value,
        (∀ i p, new[i]? = some p → r p.1 (acc.length + i) = some p.2) →
        restoreFs s r attrs (extractFs s attrs fields acc).1 = some fields

/-- Extraction invariant for array items. -/
def ExtIs (s : Schema) (items : List Value) : Prop :=
  ∀ e acc, phFreeL items = true →
    ∃ new, (extractIs s e items acc).2 = acc ++ new ∧
      phsL (extractIs s e items acc).1 = List.range' acc.length new.length ∧
      (∀ p ∈ new, phFree p.2 = true) ∧
      ∀ r : Attr → Nat → Option Value,
        (∀ i p, new[i]? = some p → r p.1 (acc.length + i) = some p.2) →
        restoreIs s r e (extractIs s e items acc).1 = some items

/-- The extraction invariant in the trivial case where extraction leaves the
tree unchanged. -/
theorem extV_triv {s : Schema} {ty : Nat} {acc : List (Attr × Value)} (v : Value)
    (hext : extractV s ty v acc = (v, acc))
    (hres : ∀ r : Attr → Nat → Option Value, restoreV s r ty v = some v)
    (hphs : phs v = []) :
    ∃ new, (extractV s ty v acc).2 = acc ++ new ∧
      phs (extractV s ty v acc).1 = List.range' acc.length new.length ∧
      (∀ p ∈ new, phFree p.2 = true) ∧
      ∀ r : Attr → Nat → Option Value,
        (∀ i p, new[i]? = some p → r p.1 (acc.length + i) = some p.2) →
        restoreV s r ty (extractV s ty v acc).1 = some v :=
  ⟨[], by rw [hext]; simp, by rw [hext]; exact hphs, by simp,
    fun r _ => by rw [hext]; exact hres r⟩

theorem extract_restore_all (s : Schema) : ∀ N : Nat,
    (∀ v, sizeOf v ≤ N → ExtV s v) ∧
    (∀ l, sizeOf l ≤ N → ExtFs s l) ∧
    (∀ l, sizeOf l ≤ N → ExtIs s l) := by
  intro N
  induction N using Nat.strong_induction_on with
  | _ N ih =>
    refine ⟨?_, ?_, ?_⟩
    · -- trees
      intro v hsz ty acc hph
      cases v with
      | ifaceV k fields =>
        cases hlook : s[resolveFor s ty (Value.ifaceV k fields)]? with
        | none =>
          exact extV_triv _ (by rw [extractV_ifaceV_eq, hlook])
            (fun r => by rw [restoreV_ifaceV_eq, hlook]) (phs_nil_of_phFree _ hph)
        | some td =>
          cases td with
          | iface attrs =>
            have hlt : sizeOf fields < N := by
              have h1 : sizeOf fields < sizeOf (Value.ifaceV k fields) := by simp
              omega
            obtain ⟨new, h1, h2, h3, h4⟩ :=
              (ih (sizeOf fields) hlt).2.1 fields (le_refl _) attrs acc hph
            refine ⟨new, ?_, ?_, h3, ?_⟩
            · rw [extractV_ifaceV_eq, hlook]
              exact h1
            · rw [extractV_ifaceV_eq, hlook]
              exact h2
            · intro r halign
              rw [extractV_ifaceV_eq, hlook]
              show restoreV s r ty (Value.ifaceV k (extractFs s attrs fields acc).1) =
                some (Value.ifaceV k fields)
              rw [restoreV_ifaceV_eq,
                resolveFor_ifaceV s ty k (extractFs s attrs fields acc).1 fields, hlook]
              simp only []
              rw [h4 r halign]
          | alt tys =>
            exact extV_triv _ (by rw [extractV_ifaceV_eq, hlook])
              (fun r => by rw [restoreV_ifaceV_eq, hlook]) (phs_nil_of_phFree _ hph)
          | enum syms =>
            exact extV_triv _ (by rw [extractV_ifaceV_eq, hlook])
              (fun r => by rw [restoreV_ifaceV_eq, hlook]) (phs_nil_of_phFree _ hph)
          | pBool =>
            exact extV_triv _ (by rw [extractV_ifaceV_eq, hlook])
              (fun r => by rw [restoreV_ifaceV_eq, hlook]) (phs_nil_of_phFree _ hph)
          | pUint =>
            exact extV_triv _ (by rw [extractV_ifaceV_eq, hlook])
              (fun r => by rw [restoreV_ifaceV_eq, hlook]) (phs_nil_of_phFree _ hph)
          | pDouble =>
            exact extV_triv _ (by rw [extractV_ifaceV_eq, hlook])
              (fun r => by rw [restoreV_ifaceV_eq, hlook]) (phs_nil_of_phFree _ hph)
          | pStr =>
            exact extV_triv _ (by rw [extractV_ifaceV_eq, hlook])
              (fun r => by rw [restoreV_ifaceV_eq, hlook]) (phs_nil_of_phFree _ hph)
          | pIdent =>
            exact extV_triv _ (by rw [extractV_ifaceV_eq, hlook])
              (fun r => by rw [restoreV_ifaceV_eq, hlook]) (phs_nil_of_phFree _ hph)
          | pNone =>
            exact extV_triv _ (by rw [extractV_ifaceV_eq, hlook])
              (fun r => by rw [restoreV_ifaceV_eq, hlook]) (phs_nil_of_phFree _ hph)
          | arr e =>
            exact extV_triv _ (by rw [extractV_ifaceV_eq, hlook])
              (fun r => by rw [restoreV_ifaceV_eq, hlook]) (phs_nil_of_phFree _ hph)
      | arrV items =>
        cases hlook : s[resolveFor s ty (Value.arrV items)]? with
        | none =>
          exact extV_triv _ (by rw [extractV_arrV_eq, hlook])
            (fun r => by rw [restoreV_arrV_eq, hlook]) (phs_nil_of_phFree _ hph)
        | some td =>
          cases td with
          | arr e =>
            have hlt : sizeOf items < N := by
              have h1 : sizeOf items < sizeOf (Value.arrV items) := by simp
              omega
            obtain ⟨new, h1, h2, h3, h4⟩ :=
              (ih (sizeOf items) hlt).2.2 items (le_refl _) e acc hph
            refine ⟨new, ?_, ?_, h3, ?_⟩
            · rw [extractV_arrV_eq, hlook]
              exact h1
            · rw [extractV_arrV_eq, hlook]
              exact h2
            · intro r halign
              rw [extractV_arrV_eq, hlook]
              show restoreV s r ty (Value.arrV (extractIs s e items acc).1) =
                some (Value.arrV items)
              rw [restoreV_arrV_eq,
                resolveFor_arrV s ty (extractIs s e items acc).1 items, hlook]
              simp only []
              rw [h4 r halign]
          | iface attrs =>
            exact extV_triv _ (by rw [extractV_arrV_eq, hlook])
              (fun r => by rw [restoreV_arrV_eq, hlook]) (phs_nil_of_phFree _ hph)
          | alt tys =>
            exact extV_triv _ (by rw [extractV_arrV_eq, hlook])
              (fun r => by rw [restoreV_arrV_eq, hlook]) (phs_nil_of_phFree _ hph)
          | enum syms =>
            exact extV_triv _ (by rw [extractV_arrV_eq, hlook])
              (fun r => by rw [restoreV_arrV_eq, hlook]) (phs_nil_of_phFree _ hph)
          | pBool =>
            exact extV_triv _ (by rw [extractV_arrV_eq, hlook])
              (fun r => by rw [restoreV_arrV_eq, hlook]) (phs_nil_of_phFree _ hph)
          | pUint =>
            exact extV_triv _ (by rw [extractV_arrV_eq, hlook])
              (fun r => by rw [restoreV_arrV_eq, hlook]) (phs_nil_of_phFree _ hph)
          | pDouble =>
            exact extV_triv _ (by rw [extractV_arrV_eq, hlook])
              (fun r => by rw [restoreV_arrV_eq, hlook]) (phs_nil_of_phFree _ hph)
          | pStr =>
            exact extV_triv _ (by rw [extractV_arrV_eq, hlook])
              (fun r => by rw [restoreV_arrV_eq, hlook]) (phs_nil_of_phFree _ hph)
          | pIdent =>
            exact extV_triv _ (by rw [extractV_arrV_eq, hlook])
              (fun r => by rw [restoreV_arrV_eq, hlook]) (phs_nil_of_phFree _ hph)
          | pNone =>
            exact extV_triv _ (by rw [extractV_arrV_eq, hlook])
              (fun r => by rw [restoreV_arrV_eq, hlook]) (phs_nil_of_phFree _ hph)
      | placeholder i => simp [phFree] at hph
      | enumV x => exact extV_triv _ rfl (fun r => rfl) rfl
      | boolV b => exact extV_triv _ rfl (fun r => rfl) rfl
      | uintV nn => exact extV_triv _ rfl (fun r => rfl) rfl
      | intV i => exact extV_triv _ rfl (fun r => rfl) rfl
      | dblV d => exact extV_triv _ rfl (fun r => rfl) rfl
      | strV x => exact extV_triv _ rfl (fun r => rfl) rfl
      | nullV => exact extV_triv _ rfl (fun r => rfl) rfl
    · -- interface fields
      intro l hsz attrs acc hph
      cases l with
      | nil =>
        cases attrs with
        | nil =>
          exact ⟨[], by simp [show extractFs s [] [] acc = ([], acc) from rfl],
            by rw [show extractFs s [] [] acc = ([], acc) from rfl]; rfl,
            by simp,
            fun r _ => by rw [show extractFs s [] [] acc = ([], acc) from rfl]; rfl⟩
        | cons a as =>
          exact ⟨[], by simp [show extractFs s (a :: as) [] acc = ([], acc) from rfl],
            by rw [show extractFs s (a :: as) [] acc = ([], acc) from rfl]; rfl,
            by simp,
            fun r _ => by rw [show extractFs s (a :: as) [] acc = ([], acc) from rfl]; rfl⟩
      | cons f fs =>
        cases attrs with
        | nil =>
          refine ⟨[], by simp [show extractFs s [] (f :: fs) acc = (f :: fs, acc) from rfl],
            ?_, by simp,
            fun r _ => by rw [show extractFs s [] (f :: fs) acc = (f :: fs, acc) from rfl]; rfl⟩
          rw [show extractFs s [] (f :: fs) acc = (f :: fs, acc) from rfl]
          exact phsL_nil_of_phFreeL _ hph
        | cons a as =>
          have hphsplit : phFree f = true ∧ phFreeL fs = true := by
            simpa [phFreeL, Bool.and_eq_true] using hph
          have hltf : sizeOf f < N := by
            have h1 : sizeOf f < sizeOf (f :: fs) := by simp; omega
            omega
          have hltfs : sizeOf fs < N := by
            have h1 : sizeOf fs < sizeOf (f :: fs) := by simp
            omega
          by_cases hl : a.lazy
          · -- lazy attribute: one extracted value, then the rest
            obtain ⟨new2, h1, h2, h3, h4⟩ :=
              (ih (sizeOf fs) hltfs).2.1 fs (le_refl _) as (acc ++ [(a, f)]) hphsplit.2
            have hext : extractFs s (a :: as) (f :: fs) acc =
                (Value.placeholder acc.length :: (extractFs s as fs (acc ++ [(a, f)])).1,
                 (extractFs s as fs (acc ++ [(a, f)])).2) := by
              rw [extractFs_cons_eq]
              simp only [if_pos hl]
            refine ⟨(a, f) :: new2, ?_, ?_, ?_, ?_⟩
            · rw [hext]
              show (extractFs s as fs (acc ++ [(a, f)])).2 = acc ++ ((a, f) :: new2)
              rw [h1]
              simp
            · rw [hext]
              have e1 : phsL (Value.placeholder acc.length ::
                  (extractFs s as fs (acc ++ [(a, f)])).1) =
                  acc.length :: phsL (extractFs s as fs (acc ++ [(a, f)])).1 := rfl
              rw [e1, h2]
              have e2 : (acc ++ [(a, f)]).length = acc.length + 1 := by simp
              rw [e2]
              have e3 : ((a, f) :: new2).length = new2.length + 1 := by simp
              rw [e3]
              rfl
            · intro p hp
              rcases List.mem_cons.mp hp with h | h
              · subst h
                exact hphsplit.1
              · exact h3 p h
            · intro r halign
              rw [hext]
              rw [restoreFs_cons_eq]
              simp only [if_pos hl]
              have hr0 : r a acc.length = some f := by
                have := halign 0 (a, f) (by simp)
                simpa using this
              rw [hr0]
              have halign2 : ∀ i p, new2[i]? = some p →
                  r p.1 ((acc ++ [(a, f)]).length + i) = some p.2 := by
                intro i p hip
                have := halign (i + 1) p (by simpa using hip)
                simpa [List.length_append, Nat.add_comm, Nat.add_assoc,
                  Nat.add_left_comm] using this
              rw [h4 r halign2]
          · -- non-lazy attribute: extract the head value, then the rest
            obtain ⟨newf, g1, g2, g3, g4⟩ :=
              (ih (sizeOf f) hltf).1 f (le_refl _) a.ty acc hphsplit.1
            obtain ⟨new2, h1, h2, h3, h4⟩ :=
              (ih (sizeOf fs) hltfs).2.1 fs (le_refl _) as
                ((extractV s a.ty f acc).2) hphsplit.2
            have hext : extractFs s (a :: as) (f :: fs) acc =
                ((extractV s a.ty f acc).1 ::
                   (extractFs s as fs (extractV s a.ty f acc).2).1,
                 (extractFs s as fs (extractV s a.ty f acc).2).2) := by
              rw [extractFs_cons_eq]
              simp only [if_neg hl]
            refine ⟨newf ++ new2, ?_, ?_, ?_, ?_⟩
            · rw [hext]
              show (extractFs s as fs (extractV s a.ty f acc).2).2 =
                acc ++ (newf ++ new2)
              rw [h1, g1]
              simp [List.append_assoc]
            · rw [hext]
              have e1 : phsL ((extractV s a.ty f acc).1 ::
                  (extractFs s as fs (extractV s a.ty f acc).2).1) =
                  phs (extractV s a.ty f acc).1 ++
                    phsL (extractFs s as fs (extractV s a.ty f acc).2).1 := rfl
              rw [e1, g2, h2, g1]
              have e2 : (acc ++ newf).length = acc.length + newf.length := by simp
              rw [e2]
              have e3 : (newf ++ new2).length = newf.length + new2.length := by simp
              rw [e3]
              have e4 := List.range'_append acc.length newf.length new2.length 1
              simp only [Nat.one_mul] at e4
              rw [e4, Nat.add_comm new2.length newf.length]
            · intro p hp
              rcases List.mem_append.mp hp with h | h
              · exact g3 p h
              · exact h3 p h
            · intro r halign
              rw [hext, restoreFs_cons_eq]
              simp only [if_neg hl]
              have halignf : ∀ i p, newf[i]? = some p →
                  r p.1 (acc.length + i) = some p.2 := by
                intro i p hip
                have hlen : i < newf.length := (List.getElem?_eq_some_iff.mp hip).1
                exact halign i p (by rw [List.getElem?_append_left hlen]; exact hip)
              have halign2 : ∀ i p, new2[i]? = some p →
                  r p.1 ((extractV s a.ty f acc).2.length + i) = some p.2 := by
                intro i p hip
                have hmem : (newf ++ new2)[newf.length + i]? = some p := by
                  rw [List.getElem?_append_right (by omega)]
                  have : newf.length + i - newf.length = i := by omega
                  rw [this]
                  exact hip
                have := halign (newf.length + i) p hmem
                rw [g1]
                simpa [List.length_append, Nat.add_assoc] using this
              rw [g4 r halignf, h4 r halign2]
    · -- array items
      intro l hsz e acc hph
      cases l with
      | nil =>
        exact ⟨[], by simp [show extractIs s e [] acc = ([], acc) from rfl],
          by rw [show extractIs s e [] acc = ([], acc) from rfl]; rfl,
          by simp,
          fun r _ => by rw [show extractIs s e [] acc = ([], acc) from rfl]; rfl⟩
      | cons x xs =>
        have hphsplit : phFree x = true ∧ phFreeL xs = true := by
          simpa [phFreeL, Bool.and_eq_true] using hph
        have hltx : sizeOf x < N := by
          have h1 : sizeOf x < sizeOf (x :: xs) := by simp; omega
          omega
        have hltxs : sizeOf xs < N := by
          have h1 : sizeOf xs < sizeOf (x :: xs) := by simp
          omega
        obtain ⟨newf, g1, g2, g3, g4⟩ :=
          (ih (sizeOf x) hltx).1 x (le_refl _) e acc hphsplit.1
        obtain ⟨new2, h1, h2, h3, h4⟩ :=
          (ih (sizeOf xs) hltxs).2.2 xs (le_refl _) e
            ((extractV s e x acc).2) hphsplit.2
        have hext : extractIs s e (x :: xs) acc =
            ((extractV s e x acc).1 ::
               (extractIs s e xs (extractV s e x acc).2).1,
             (extractIs s e xs (extractV s e x acc).2).2) := by
          rw [extractIs_cons_eq]
        refine ⟨newf ++ new2, ?_, ?_, ?_, ?_⟩
        · rw [hext]
          show (extractIs s e xs (extractV s e x acc).2).2 = acc ++ (newf ++ new2)
          rw [h1, g1]
          simp [List.append_assoc]
        · rw [hext]
          have e1 : phsL ((extractV s e x acc).1 ::
              (extractIs s e xs (extractV s e x acc).2).1) =
              phs (extractV s e x acc).1 ++
                phsL (extractIs s e xs (extractV s e x acc).2).1 := rfl
          rw [e1, g2, h2, g1]
          have e2 : (acc ++ newf).length = acc.length + newf.length := by simp
          rw [e2]
          have e3 : (newf ++ new2).length = newf.length + new2.length := by simp
          rw [e3]
          have e4 := List.range'_append acc.length newf.length new2.length 1
          simp only [Nat.one_mul] at e4
          rw [e4, Nat.add_comm new2.length newf.length]
        · intro p hp
          rcases List.mem_append.mp hp with h | h
          · exact g3 p h
          · exact h3 p h
        · intro r halign
          rw [hext, restoreIs_cons_eq]
          have halignf : ∀ i p, newf[i]? = some p →
              r p.1 (acc.length + i) = some p.2 := by
            intro i p hip
            have hlen : i < newf.length := (List.getElem?_eq_some_iff.mp hip).1
            exact halign i p (by rw [List.getElem?_append_left hlen]; exact hip)
          have halign2 : ∀ i p, new2[i]? = some p →
              r p.1 ((extractV s e x acc).2.length + i) = some p.2 := by
            intro i p hip
            have hmem : (newf ++ new2)[newf.length + i]? = some p := by
              rw [List.getElem?_append_right (by omega)]
              have : newf.length + i - newf.length = i := by omega
              rw [this]
              exact hip
            have := halign (newf.length + i) p hmem
            rw [g1]
            simpa [List.length_append, Nat.add_assoc] using this
          rw [g4 r halignf, h4 r halign2]

/-! ## The piece layer: lazy index arithmetic and the piece round trip -/

/-- `omap` preserves length. -/
theorem omap_length {f : α → Option β} :
    ∀ {l : List α} {l' : List β}, omap f l = some l' → l'.length = l.length := by
  intro l
  induction l with
  | nil => intro l' h; rw [show omap f [] = some [] from rfl] at h; simp [← Option.some.inj h]
  | cons x xs ih =>
    intro l' h
    rw [show omap f (x :: xs) =
        (match f x, omap f xs with
         | some y, some ys => some (y :: ys)
         | _, _ => none) from rfl] at h
    cases hf : f x with
    | none => rw [hf] at h; exact absurd h (by simp)
    | some y =>
      rw [hf] at h
      cases hr : omap f xs with
      | none => rw [hr] at h; exact absurd h (by simp)
      | some ys =>
        rw [hr] at h
        simp only [] at h
        rw [← Option.some.inj h]
        simp [ih hr]

/-- `omap` acts pointwise. -/
theorem omap_get {f : α → Option β} :
    ∀ {l : List α} {l' : List β}, omap f l = some l' →
      ∀ (i : Nat) (a : α), l[i]? = some a → ∃ b, l'[i]? = some b ∧ f a = some b := by
  intro l
  induction l with
  | nil => intro l' h i a ha; simp at ha
  | cons x xs ih =>
    intro l' h i a ha
    rw [show omap f (x :: xs) =
        (match f x, omap f xs with
         | some y, some ys => some (y :: ys)
         | _, _ => none) from rfl] at h
    cases hf : f x with
    | none => rw [hf] at h; exact absurd h (by simp)
    | some y =>
      rw [hf] at h
      cases hr : omap f xs with
      | none => rw [hr] at h; exact absurd h (by simp)
      | some ys =>
        rw [hr] at h
        simp only [] at h
        rw [← Option.some.inj h]
        cases i with
        | zero =>
          simp at ha
          subst ha
          exact ⟨y, by simp, hf⟩
        | succ i =>
          simp only [List.getElem?_cons_succ] at ha ⊢
          exact ih hr i a ha

/-- Prefix-sum step: the sum of the first `i + 1` entries adds the `i`-th. -/
theorem sum_take_succ :
    ∀ (l : List Nat) (i : Nat), i < l.length →
      (l.take (i + 1)).sum = (l.take i).sum + (l[i]?.getD 0) := by
  intro l
  induction l with
  | nil => intro i h; simp at h
  | cons x xs ih =>
    intro i h
    cases i with
    | zero => simp
    | succ i =>
      simp only [List.take_succ_cons, List.sum_cons, List.getElem?_cons_succ]
      rw [ih i (by simpa using h)]
      omega

/-- Splitting a flattened list of chunks at one chunk. -/
theorem flatten_split :
    ∀ (parts : List (List Nat)) (i : Nat), i < parts.length →
      parts.flatten = (parts.take i).flatten ++ ((parts[i]?.getD []) ++
        (parts.drop (i + 1)).flatten) := by
  intro parts
  induction parts with
  | nil => intro i h; simp at h
  | cons p ps ih =>
    intro i h
    cases i with
    | zero => simp
    | succ i =>
      simp only [List.take_succ_cons, List.flatten_cons, List.getElem?_cons_succ,
        List.drop_succ_cons, List.append_assoc]
      rw [ih i (by simpa using h)]

/-- The offsets list is one longer than the size list. -/
theorem offsetsFrom_length : ∀ (l : List Nat) (p : Nat),
    (offsetsFrom p l).length = l.length + 1 := by
  intro l
  induction l with
  | nil => intro p; rfl
  | cons x xs ih => intro p; simp [offsetsFrom, ih]

/-- Each offset is the base plus the prefix sum of the declared sizes. -/
theorem offsetsFrom_get : ∀ (l : List Nat) (p i : Nat), i ≤ l.length →
    (offsetsFrom p l)[i]? = some (p + (l.take i).sum) := by
  intro l
  induction l with
  | nil =>
    intro p i h
    have hi : i = 0 := by simpa using h
    subst hi
    simp [offsetsFrom]
  | cons x xs ih =>
    intro p i h
    cases i with
    | zero => simp [offsetsFrom]
    | succ i =>
      simp only [offsetsFrom, List.getElem?_cons_succ, List.take_succ_cons,
        List.sum_cons]
      rw [ih (p + x) i (by simpa using h)]
      simp only [Option.some.injEq]
      omega

/-- Unfolding equation for `writePiece` at positive fuel. -/
theorem writePiece_succ_eq (s : Schema) (sd : List Str) (m : Model) (fp fv ty : Nat)
    (v : Value) :
    writePiece s sd m (fp + 1) fv ty v =
      (match encodeVal s sd m fv (rootKey ty) ty (extractV s ty v []).1 with
       | none => none
       | some body =>
         match omap (fun e => writePiece s sd m fp fv e.1.ty e.2) (extractV s ty v []).2 with
         | none => none
         | some parts =>
           some (body ++ writeVarint parts.length ++
             (parts.map (fun p => writeVarint p.length)).flatten ++ parts.flatten)) := by
  rw [writePiece]

/-- Unfolding equation for `readPiece` at positive fuel. -/
theorem readPiece_succ_eq (s : Schema) (sd : List Str) (m : Model) (fp fv : Nat)
    (data : List Nat) (pos ty : Nat) :
    readPiece s sd m (fp + 1) fv data pos ty =
      (match decodeVal s sd m fv (rootKey ty) ty (data.drop pos) 0 with
       | none => none
       | some (v, rest1, _) =>
         match readVarint rest1 with
         | none => none
         | some (k, rest2) =>
           match readListN readVarint k rest2 with
           | none => none
           | some (sizes, rest3) =>
             let pos3 := data.length - rest3.length
             let offs := offsetsFrom pos3 sizes
             match restoreV s
                 (lazyResolver (fun o t => readPiece s sd m fp fv data o t) offs) ty v with
             | some v' => some (v', pos3 + sizes.sum)
             | none => none) := by
  rw [readPiece]

/-- The piece round trip (`write_piece`/`read_piece`): a placeholder-free
tree accepted by `writePiece` is read back exactly by `readPiece` from any
stream that carries its bytes at the given position, and the stream position
afterwards is exactly the end of the piece, past all lazy bodies. -/
theorem readPiece_writePiece (s : Schema) (sd : List Str) (m : Model) :
    ∀ (fp fv ty : Nat) (v : Value) (bytes pre post : List Nat),
      phFree v = true →
      writePiece s sd m fp fv ty v = some bytes →
      readPiece s sd m fp fv (pre ++ (bytes ++ post)) pre.length ty =
        some (v, pre.length + bytes.length) := by
  intro fp
  induction fp with
  | zero =>
    intro fv ty v bytes pre post _ hw
    exact absurd hw (by rw [show writePiece s sd m 0 fv ty v = none from rfl]; simp)
  | succ fp ih =>
    intro fv ty v bytes pre post hph hw
    rw [writePiece_succ_eq] at hw
    cases hbody : encodeVal s sd m fv (rootKey ty) ty (extractV s ty v []).1 with
    | none => rw [hbody] at hw; exact absurd hw (by simp)
    | some body =>
      rw [hbody] at hw
      simp only [] at hw
      cases hparts : omap (fun e => writePiece s sd m fp fv e.1.ty e.2)
          (extractV s ty v []).2 with
      | none => rw [hparts] at hw; exact absurd hw (by simp)
      | some parts =>
        rw [hparts] at hw
        simp only [] at hw
        have hbytes : body ++ writeVarint parts.length ++
            (parts.map (fun p => writeVarint p.length)).flatten ++ parts.flatten =
            bytes := Option.some.inj hw
        obtain ⟨lz, e1, e2, e3, e4⟩ :=
          (extract_restore_all s (sizeOf v)).1 v (le_refl _) ty [] hph
        have e1' : (extractV s ty v []).2 = lz := by simpa using e1
        have hlzparts : parts.length = lz.length := by
          have h0 := omap_length hparts
          rw [e1'] at h0
          omega
        subst hbytes
        rw [readPiece_succ_eq]
        have hdrop : (pre ++ ((body ++ writeVarint parts.length ++
            (parts.map (fun p => writeVarint p.length)).flatten ++ parts.flatten) ++
            post)).drop pre.length =
            body ++ (writeVarint parts.length ++
              ((parts.map (fun p => writeVarint p.length)).flatten ++
                (parts.flatten ++ post))) := by
          rw [List.drop_left]
          simp [List.append_assoc]
        rw [hdrop]
        have hlen2 : (phs (extractV s ty v []).1).length = lz.length := by
          rw [e2]
          simp
        have hph2 : phs (extractV s ty v []).1 =
            List.range' 0 (phs (extractV s ty v []).1).length := by
          rw [hlen2]
          exact e2
        rw [decodeVal_encodeVal hbody hph2]
        simp only []
        rw [readVarint_writeVarint]
        simp only []
        have hreadsz : readListN readVarint parts.length
            ((parts.map (fun p => writeVarint p.length)).flatten ++
              (parts.flatten ++ post)) =
            some (parts.map List.length, parts.flatten ++ post) := by
          have h0 := readListN_flatten writeVarint readVarint readVarint_writeVarint
            (parts.map List.length) (parts.flatten ++ post)
          simpa [List.map_map, Function.comp] using h0
        rw [hreadsz]
        simp only []
        set data := pre ++ ((body ++ writeVarint parts.length ++
          (parts.map (fun p => writeVarint p.length)).flatten ++ parts.flatten) ++
          post) with hdata_def
        have hpos3 : data.length - (parts.flatten ++ post).length =
            pre.length + body.length + (writeVarint parts.length).length +
              ((parts.map (fun p => writeVarint p.length)).flatten).length := by
          rw [hdata_def]
          simp only [List.length_append]
          omega
        rw [hpos3]
        set pos3 := pre.length + body.length + (writeVarint parts.length).length +
          ((parts.map (fun p => writeVarint p.length)).flatten).length with hpos3_def
        set sizes := parts.map List.length with hsizes_def
        have hszlen : sizes.length = parts.length := by simp [hsizes_def]
        have halign : ∀ (i : Nat) (p : Attr × Value), lz[i]? = some p →
            lazyResolver (fun o t => readPiece s sd m fp fv data o t)
              (offsetsFrom pos3 sizes) p.1
              (([] : List (Attr × Value)).length + i) = some p.2 := by
          intro i p hip
          have hi0 : ([] : List (Attr × Value)).length + i = i := by simp
          rw [hi0]
          have hilt : i < lz.length := (List.getElem?_eq_some_iff.mp hip).1
          obtain ⟨pb, hpb, hwpb⟩ := omap_get hparts i p (by rw [e1']; exact hip)
          have ho1 : (offsetsFrom pos3 sizes)[i]? =
              some (pos3 + (sizes.take i).sum) :=
            offsetsFrom_get sizes pos3 i (by omega)
          have ho2 : (offsetsFrom pos3 sizes)[i + 1]? =
              some (pos3 + (sizes.take (i + 1)).sum) :=
            offsetsFrom_get sizes pos3 (i + 1) (by omega)
          rw [lazyResolver, ho1, ho2]
          simp only []
          have hflat : parts.flatten = (parts.take i).flatten ++
              (pb ++ (parts.drop (i + 1)).flatten) := by
            have h0 := flatten_split parts i (by omega)
            rw [hpb] at h0
            simpa using h0
          have hdata2 : data = (pre ++ (body ++ (writeVarint parts.length ++
              ((parts.map (fun p => writeVarint p.length)).flatten ++
                (parts.take i).flatten)))) ++
              (pb ++ ((parts.drop (i + 1)).flatten ++ post)) := by
            rw [hdata_def, hflat]
            simp [List.append_assoc]
          have hpre' : (pre ++ (body ++ (writeVarint parts.length ++
              ((parts.map (fun p => writeVarint p.length)).flatten ++
                (parts.take i).flatten)))).length =
              pos3 + (sizes.take i).sum := by
            simp only [List.length_append, hpos3_def]
            have hfl : ((parts.take i).flatten).length = (sizes.take i).sum := by
              rw [List.length_flatten, hsizes_def, List.map_take]
            omega
          have hIH := ih fv p.1.ty p.2 pb
            (pre ++ (body ++ (writeVarint parts.length ++
              ((parts.map (fun p => writeVarint p.length)).flatten ++
                (parts.take i).flatten))))
            ((parts.drop (i + 1)).flatten ++ post)
            (e3 p (List.getElem?_mem hip)) hwpb
          rw [hpre'] at hIH
          rw [← hdata2] at hIH
          rw [hIH]
          simp only []
          have hend : pos3 + (sizes.take i).sum + pb.length =
              pos3 + (sizes.take (i + 1)).sum := by
            have h0 := sum_take_succ sizes i (by omega)
            have h1 : sizes[i]? = some pb.length := by
              rw [hsizes_def, List.getElem?_map, hpb]
              rfl
            rw [h1] at h0
            simp at h0
            omega
          rw [hend]
          simp
        have hrest := e4 (lazyResolver (fun o t => readPiece s sd m fp fv data o t)
          (offsetsFrom pos3 sizes)) halign
        rw [hrest]
        simp only []
        have hfinal : pos3 + sizes.sum = pre.length +
            (body ++ writeVarint parts.length ++
              (parts.map (fun p => writeVarint p.length)).flatten ++
              parts.flatten).length := by
          have hfl : (parts.flatten).length = sizes.sum := by
            rw [List.length_flatten, hsizes_def]
          simp only [List.length_append, hpos3_def]
          omega
        rw [hfinal]

/-! ## The container round trip -/

/-- A tree accepted by the TypeChecker contains no lazy placeholders. -/
theorem phFree_of_checkAny (s : Schema) :
    ∀ v, (∀ ty, checkAny s ty v = true → phFree v = true) := by
  refine phFree.induct (fun v => ∀ ty, checkAny s ty v = true → phFree v = true)
    (fun l => (∀ attrs, checkFields s attrs l = true → phFreeL l = true) ∧
      (∀ e, checkItems s e l = true → phFreeL l = true)) ?_ ?_ ?_ ?_ ?_ ?_
  · intro k fields ih ty hchk
    have heq : checkAny s ty (Value.ifaceV k fields) =
        (match s[resolveFor s ty (Value.ifaceV k fields)]? with
         | some (.iface attrs) =>
           k = resolveFor s ty (Value.ifaceV k fields) && checkFields s attrs fields
         | _ => false) := rfl
    rw [heq] at hchk
    cases hlook : s[resolveFor s ty (Value.ifaceV k fields)]? with
    | none => rw [hlook] at hchk; simp at hchk
    | some td =>
      rw [hlook] at hchk
      cases td with
      | iface attrs =>
        simp only [Bool.and_eq_true] at hchk
        exact ih.1 attrs hchk.2
      | alt tys => simp at hchk
      | enum syms => simp at hchk
      | pBool => simp at hchk
      | pUint => simp at hchk
      | pDouble => simp at hchk
      | pStr => simp at hchk
      | pIdent => simp at hchk
      | pNone => simp at hchk
      | arr e => simp at hchk
  · intro items ih ty hchk
    have heq : checkAny s ty (Value.arrV items) =
        (match s[resolveFor s ty (Value.arrV items)]? with
         | some (.arr e) => checkItems s e items
         | _ => false) := rfl
    rw [heq] at hchk
    cases hlook : s[resolveFor s ty (Value.arrV items)]? with
    | none => rw [hlook] at hchk; simp at hchk
    | some td =>
      rw [hlook] at hchk
      cases td with
      | arr e => exact ih.2 e hchk
      | iface attrs => simp at hchk
      | alt tys => simp at hchk
      | enum syms => simp at hchk
      | pBool => simp at hchk
      | pUint => simp at hchk
      | pDouble => simp at hchk
      | pStr => simp at hchk
      | pIdent => simp at hchk
      | pNone => simp at hchk
  · intro i ty hchk
    rw [show checkAny s ty (Value.placeholder i) = false from rfl] at hchk
    exact absurd hchk (by simp)
  · intro t h1 h2 h3
    cases t
    case ifaceV k fields => exact fun ty _ => (h1 k fields rfl).elim
    case arrV items => exact fun ty _ => (h2 items rfl).elim
    case placeholder i => exact fun ty _ => (h3 i rfl).elim
    all_goals exact fun ty _ => rfl
  · exact ⟨fun _ _ => rfl, fun _ _ => rfl⟩
  · intro x xs ih1 ih2
    constructor
    · intro attrs h
      cases attrs with
      | nil =>
        rw [show checkFields s [] (x :: xs) = false from rfl] at h
        exact absurd h (by simp)
      | cons a as =>
        rw [show checkFields s (a :: as) (x :: xs) =
            (checkAny s a.ty x && checkFields s as xs) from rfl] at h
        simp only [Bool.and_eq_true] at h
        have hx := ih1 a.ty h.1
        have hxs := ih2.1 as h.2
        show (phFree x && phFreeL xs) = true
        rw [hx, hxs]
        rfl
    · intro e h
      rw [show checkItems s e (x :: xs) =
          (checkAny s e x && checkItems s e xs) from rfl] at h
      simp only [Bool.and_eq_true] at h
      have hx := ih1 e h.1
      have hxs := ih2.2 e h.2
      show (phFree x && phFreeL xs) = true
      rw [hx, hxs]
      rfl

/-- The container round trip: decoding the bytes `write` produced returns
exactly the FloatFixed input tree, for the same schema, shared dictionary,
type and fuel. -/
theorem read_write_roundtrip (s : Schema) (D : List Str) (ty : Nat) (tree : Value)
    (fv fp : Nat) (out : List Nat)
    (hw : write s D ty tree fv fp [] = some out) :
    read s D ty fv fp out = .ok (floatFix s ty tree) := by
  rw [write] at hw
  simp only [] at hw
  by_cases hchk : checkAny s ty (floatFix s ty tree)
  · rw [if_pos hchk] at hw
    cases hm : mtv s (sortedLocals D (floatFix s ty tree) ++ D) fv (rootKey ty) ty
        (floatFix s ty tree) [] with
    | none => rw [hm] at hw; exact absurd hw (by simp)
    | some mm =>
      rw [hm] at hw
      simp only [] at hw
      cases hpb : writePiece s (sortedLocals D (floatFix s ty tree) ++ D) mm fp fv ty
          (floatFix s ty tree) with
      | none => rw [hpb] at hw; exact absurd hw (by simp)
      | some pieceB =>
        rw [hpb] at hw
        simp only [] at hw
        have hout : [] ++ MAGIC_HEADER ++ [FORMAT_VERSION] ++
            brotliCompress (writeDict (sortedLocals D (floatFix s ty tree)) ++
              modelWrite mm ++ pieceB) = out := Option.some.inj hw
        subst hout
        rw [read]
        have hshape : [] ++ MAGIC_HEADER ++ [FORMAT_VERSION] ++
            brotliCompress (writeDict (sortedLocals D (floatFix s ty tree)) ++
              modelWrite mm ++ pieceB) =
            MAGIC_HEADER ++ ([FORMAT_VERSION] ++
              (writeDict (sortedLocals D (floatFix s ty tree)) ++
                (modelWrite mm ++ pieceB))) := by
          simp [brotliCompress, List.append_assoc]
        rw [hshape]
        have hmlen : MAGIC_HEADER.length = 8 := rfl
        have htake : (MAGIC_HEADER ++ ([FORMAT_VERSION] ++
            (writeDict (sortedLocals D (floatFix s ty tree)) ++
              (modelWrite mm ++ pieceB)))).take 8 = MAGIC_HEADER := by
          rw [← hmlen, List.take_left]
        have hdrop : (MAGIC_HEADER ++ ([FORMAT_VERSION] ++
            (writeDict (sortedLocals D (floatFix s ty tree)) ++
              (modelWrite mm ++ pieceB)))).drop 8 =
            [FORMAT_VERSION] ++
              (writeDict (sortedLocals D (floatFix s ty tree)) ++
                (modelWrite mm ++ pieceB)) := by
          rw [← hmlen, List.drop_left]
        rw [htake, hdrop]
        simp only [ne_eq, not_true_eq_false, if_false, List.cons_append,
          List.nil_append, List.take_succ_cons, List.take_zero, List.drop_succ_cons,
          List.drop_zero]
        rw [show brotliDecompress (writeDict (sortedLocals D (floatFix s ty tree)) ++
            (modelWrite mm ++ pieceB)) =
            some (writeDict (sortedLocals D (floatFix s ty tree)) ++
              (modelWrite mm ++ pieceB)) from rfl]
        simp only []
        rw [readDict_writeDict]
        simp only []
        rw [modelRead_modelWrite]
        simp only []
        have hcontent : writeDict (sortedLocals D (floatFix s ty tree)) ++
            (modelWrite mm ++ pieceB) =
            (writeDict (sortedLocals D (floatFix s ty tree)) ++ modelWrite mm) ++
              (pieceB ++ []) := by
          simp [List.append_assoc]
        have hposlen : (writeDict (sortedLocals D (floatFix s ty tree)) ++
            (modelWrite mm ++ pieceB)).length - pieceB.length =
            ((writeDict (sortedLocals D (floatFix s ty tree)) ++
              modelWrite mm)).length := by
          simp only [List.length_append]
          omega
        rw [hposlen]
        have hrp := readPiece_writePiece s
          (sortedLocals D (floatFix s ty tree) ++ D) mm fp fv ty
          (floatFix s ty tree) pieceB
          (writeDict (sortedLocals D (floatFix s ty tree)) ++ modelWrite mm) []
          (phFree_of_checkAny s (floatFix s ty tree) ty hchk) hpb
        rw [← hcontent] at hrp
        rw [hrp]
        simp only []
        rw [if_pos hchk]
  · rw [if_neg hchk] at hw
    exact absurd hw (by simp)

/-! ## cpp_codegen.py: the type visitor and model-id allocation -/

/-- The mutable state of `CppTypeMacroGenerator` (cpp_codegen.py lines 57-66):
the model-id table, the next id counter, and the per-kind output lists.  The
visited set of `TypeVisitor` is threaded separately. -/
structure GenState where
  modelIds : List (MKey × Nat)
  nextModelId : Nat
  interfaces : List (Nat × List (Str × Nat × Bool × Nat))
  alts : List (Nat × List Nat)
  enums : List Nat
  primitives : List Nat
  frozenArrays : List (Nat × Nat × Nat)
deriving Repr

/-- The generator's initial state (cpp_codegen.py lines 58-65). -/
def initGenState : GenState := ⟨[], 0, [], [], [], [], []⟩

/-- `CppTypeMacroGenerator._get_insert_model_id` (cpp_codegen.py lines
84-91): return the existing id for a key, or allocate the next id on first
use. -/
def getInsertModelId (st : GenState) (k : MKey) : Nat × GenState :=
  match st.modelIds.find? (fun e => e.1 = k) with
  | some e => (e.2, st)
  | none =>
    (st.nextModelId,
      { st with modelIds := st.modelIds ++ [(k, st.nextModelId)],
                nextModelId := st.nextModelId + 1 })

/-- `visit_interface_type` (cpp_codegen.py lines 93-98): allocate a model id
keyed `(interface, attribute name)` for each attribute in order and record
the interface row. -/
def visitInterfaceCb (ty : Nat) (attrs : List Attr) (st : GenState) : GenState :=
  let p := attrs.foldl
    (fun (acc : List (Str × Nat × Bool × Nat) × GenState) a =>
      let r := getInsertModelId acc.2 (ty, a.name)
      (acc.1 ++ [(a.name, a.ty, a.lazy, r.1)], r.2))
    ([], st)
  { p.2 with interfaces := p.2.interfaces ++ [(ty, p.1)] }

/-- `visit_alt_type` (cpp_codegen.py lines 100-101). -/
def visitAltCb (ty : Nat) (tys : List Nat) (st : GenState) : GenState :=
  { st with alts := st.alts ++ [(ty, tys)] }

/-- `visit_enum_type` (cpp_codegen.py lines 103-105). -/
def visitEnumCb (ty : Nat) (st : GenState) : GenState :=
  { st with enums := st.enums ++ [ty] }

/-- `visit_primitive_type` (cpp_codegen.py lines 107-108). -/
def visitPrimCb (ty : Nat) (st : GenState) : GenState :=
  { st with primitives := st.primitives ++ [ty] }

/-- `visit_frozen_array_type` (cpp_codegen.py lines 110-112): allocate the
`(array, "list-length")` model id and record the array row. -/
def visitArrCb (ty e : Nat) (st : GenState) : GenState :=
  let r := getInsertModelId st (ty, listLengthName)
  { r.2 with frozenArrays := r.2.frozenArrays ++ [(ty, e, r.1)] }

/-- The number of arena handles not yet visited; the termination measure of
the traversal. -/
def unvisitedCount (s : Schema) (visited : List Nat) : Nat :=
  ((List.range s.length).filter (fun t => t ∉ visited)).length

/-- Filtering with a logically stronger predicate yields at most as many
elements. -/
theorem filter_length_mono {p q : α → Bool} :
    ∀ (l : List α), (∀ x, p x = true → q x = true) →
      (l.filter p).length ≤ (l.filter q).length := by
  intro l h
  induction l with
  | nil => simp
  | cons x xs ih =>
    by_cases hp : p x
    · have hq := h x hp
      simp [List.filter_cons, hp, hq]
      omega
    · simp only [List.filter_cons, hp, if_false, Bool.false_eq_true]
      by_cases hq : q x <;> simp [hq] <;> omega

/-- Filtering with a strictly stronger predicate, witnessed by one element,
yields strictly fewer elements. -/
theorem filter_length_strict {p q : α → Bool} :
    ∀ (l : List α), (∀ x, p x = true → q x = true) →
      ∀ x ∈ l, q x = true → p x = false →
        (l.filter p).length < (l.filter q).length := by
  intro l h
  induction l with
  | nil => intro x hx; simp at hx
  | cons y ys ih =>
    intro x hx hqx hpx
    rcases List.mem_cons.mp hx with rfl | hx'
    · simp only [List.filter_cons, hpx, Bool.false_eq_true, if_false, hqx, if_true]
      have := filter_length_mono (p := p) (q := q) ys h
      simp
      omega
    · by_cases hp : p y
      · have hq := h y hp
        simp only [List.filter_cons, hp, hq, if_true]
        have := ih x hx' hqx hpx
        simp
        omega
      · simp only [List.filter_cons, hp, Bool.false_eq_true, if_false]
        by_cases hq : q y
        · simp only [hq, if_true]
          have := ih x hx' hqx hpx
          simp
          omega
        · simp only [hq, Bool.false_eq_true, if_false]
          exact ih x hx' hqx hpx

/-- Marking an in-arena, unvisited handle strictly shrinks the unvisited
count. -/
theorem unvisitedCount_mark_lt (s : Schema) (visited : List Nat) (t : Nat)
    (ht : t < s.length) (hnt : ¬ t ∈ visited) :
    unvisitedCount s (visited ++ [t]) < unvisitedCount s visited := by
  apply filter_length_strict (List.range s.length)
  · intro x hx
    simp only [decide_eq_true_eq] at hx ⊢
    intro hmem
    exact hx (List.mem_append_left _ hmem)
  · exact List.mem_range.mpr ht
  · simpa using hnt
  · simp

/-- Marking an out-of-arena handle leaves the unvisited count unchanged. -/
theorem unvisitedCount_mark_eq (s : Schema) (visited : List Nat) (t : Nat)
    (ht : s.length ≤ t) :
    unvisitedCount s (visited ++ [t]) = unvisitedCount s visited := by
  unfold unvisitedCount
  congr 1
  apply List.filter_congr
  intro x hx
  have hxlt : x < s.length := List.mem_range.mp hx
  have hne : x ≠ t := by omega
  simp [List.mem_append, hne]

/-- `TypeVisitor.visit` (cpp_codegen.py lines 21-40), as the equivalent
worklist traversal: visit the head handle of the pending list, skipping it
if already visited, otherwise marking it, firing the per-kind callback, and
pushing the handles the source recurses into (an interface's attribute
types, an alternation's members, an array's element type) in front of the
pending list, which reproduces the source's depth-first pre-order exactly.
A handle whose arena lookup fails matches no `type(ty) is ...` case in the
source and only gets marked.  Totality needs no fuel: each step either
shrinks the pending list or strictly shrinks the unvisited count. -/
def visitAll (s : Schema) : List Nat → List Nat → GenState → List Nat × GenState
  | [], vis, st => (vis, st)
  | t :: ts, vis, st =>
    if hmem : t ∈ vis then visitAll s ts vis st
    else
      match hty : s[t]? with
      | some (.iface attrs) =>
        visitAll s (attrs.map (·.ty) ++ ts) (vis ++ [t]) (visitInterfaceCb t attrs st)
      | some (.alt tys) => visitAll s (tys ++ ts) (vis ++ [t]) (visitAltCb t tys st)
      | some (.enum syms) => visitAll s ts (vis ++ [t]) (visitEnumCb t st)
      | some .pBool => visitAll s ts (vis ++ [t]) (visitPrimCb t st)
      | some .pUint => visitAll s ts (vis ++ [t]) (visitPrimCb t st)
      | some .pDouble => visitAll s ts (vis ++ [t]) (visitPrimCb t st)
      | some .pStr => visitAll s ts (vis ++ [t]) (visitPrimCb t st)
      | some .pIdent => visitAll s ts (vis ++ [t]) (visitPrimCb t st)
      | some .pNone => visitAll s ts (vis ++ [t]) (visitPrimCb t st)
      | some (.arr e) => visitAll s (e :: ts) (vis ++ [t]) (visitArrCb t e st)
      | none => visitAll s ts (vis ++ [t]) st
termination_by l vis st => (unvisitedCount s vis, l.length)
decreasing_by
  all_goals simp_wf
  · exact Prod.Lex.right _ (by omega)
  all_goals first
    | exact Prod.Lex.left _ _ (unvisitedCount_mark_lt s _ _
        (List.getElem?_eq_some_iff.mp hty).1 hmem)
    | (rw [unvisitedCount_mark_eq s _ _ (List.getElem?_eq_none_iff.mp hty)]
       exact Prod.Lex.right _ (by omega))

/-- `CppTypeMacroGenerator.generate` (cpp_codegen.py lines 58-66,151-153):
reset the state and traverse from the root interface handle. -/
def cppGenerate (s : Schema) (root : Nat) : List Nat × GenState :=
  visitAll s [root] [] initGenState

/-- The model-id allocation invariant of `CppTypeMacroGenerator`: the ids in
the table are the consecutive integers `0, 1, ..., nextModelId - 1` in
allocation order, and no key occurs twice. -/
def MIdInv (st : GenState) : Prop :=
  st.modelIds.map Prod.snd = List.range st.nextModelId ∧
  (st.modelIds.map Prod.fst).Nodup

/-! ## Concrete instances

Concrete schemas, dictionaries and trees used in the closed-form
evaluations: a flat interface with a string array, a schema with nested
lazy interface attributes behind an alternation, and a one-distribution
model for a standalone piece. -/

/-- A schema: interface 0 with a bool attribute `a` and an array-of-string
attribute `b`. -/
def exSchema : Schema :=
  [.iface [⟨[97], 1, false⟩, ⟨[98], 2, false⟩], .pBool, .arr 3, .pStr]

/-- A shared dictionary holding the one-byte string `y`. -/
def exDict : List Str := [[121]]

/-- A conforming tree for `exSchema`: `{a: true, b: ["x", "y"]}`. -/
def exTree : Value :=
  .ifaceV 0 [.boolV true, .arrV [.strV [120], .strV [121]]]

/-- The container bytes for `exTree`. -/
def exBytes : List Nat := (write exSchema exDict 0 exTree 64 32 []).getD []

/-- A schema with nested lazy attributes: interface 0 has a lazy attribute
of alternation type 5, whose interface variant 3 itself has a lazy attribute
of interface type 6. -/
def exLSchema : Schema :=
  [.iface [⟨[97], 1, false⟩, ⟨[102], 3, true⟩], .pBool, .arr 3,
   .iface [⟨[100], 1, false⟩, ⟨[104], 6, true⟩], .pNone, .alt [4, 3],
   .iface [⟨[107], 1, false⟩]]

/-- A conforming tree for `exLSchema` with two nested lazy pieces. -/
def exLTree : Value :=
  .ifaceV 0 [.boolV true, .ifaceV 3 [.boolV false, .ifaceV 6 [.boolV true]]]

/-- The container bytes for `exLTree`. -/
def exLBytes : List Nat := (write exLSchema [] 0 exLTree 64 32 []).getD []

/-- A one-key model for a standalone bool piece. -/
def exPModel : Model := [((0, []), [(.boolS true, 1)])]

/-- The bytes of a standalone piece (body plus empty lazy index). -/
def exPBytes : List Nat :=
  (writePiece [TyDef.pBool] [] exPModel 1 5 0 (.boolV true)).getD []

/-! ## Sortedness of the local string table -/

/-- `lexLe` is total. -/
theorem lexLe_total : ∀ (a b : Str), lexLe a b = true ∨ lexLe b a = true := by
  intro a
  induction a with
  | nil => intro b; left; rfl
  | cons x xs ih =>
    intro b
    cases b with
    | nil => right; rfl
    | cons y ys =>
      by_cases hxy : x < y
      · left; simp [lexLe, hxy]
      · by_cases hyx : y < x
        · right; simp [lexLe, hyx]
        · have hxy' : x = y := by omega
          subst hxy'
          rcases ih ys with h | h
          · left; simp [lexLe, h]
          · right; simp [lexLe, h]

/-- `lexLe` is transitive. -/
theorem lexLe_trans : ∀ (a b c : Str),
    lexLe a b = true → lexLe b c = true → lexLe a c = true := by
  intro a
  induction a with
  | nil => intro b c _ _; rfl
  | cons x xs ih =>
    intro b c hab hbc
    cases b with
    | nil => simp [lexLe] at hab
    | cons y ys =>
      cases c with
      | nil => simp [lexLe] at hbc
      | cons z zs =>
        by_cases h1 : x < y
        · by_cases h2 : y < z
          · have h3 : x < z := by omega
            simp [lexLe, h3]
          · by_cases h3 : y = z
            · subst h3
              simp [lexLe, h1]
            · simp [lexLe, h2, h3] at hbc
        · by_cases h1' : x = y
          · subst h1'
            have hab' : lexLe xs ys = true := by simpa [lexLe, h1] using hab
            by_cases h2 : x < z
            · simp [lexLe, h2]
            · by_cases h3 : x = z
              · subst h3
                have hbc' : lexLe ys zs = true := by simpa [lexLe, h2] using hbc
                simp [lexLe, h2, ih ys zs hab' hbc']
              · simp [lexLe, h2, h3] at hbc
          · simp [lexLe, h1, h1'] at hab

/-- Inserting into a list is a permutation of consing. -/
theorem insertSorted_perm (x : Str) :
    ∀ (l : List Str), (insertSorted x l).Perm (x :: l) := by
  intro l
  induction l with
  | nil => exact List.Perm.refl _
  | cons y ys ih =>
    by_cases h : lexLe x y
    · simp [insertSorted, h]
    · simp only [insertSorted, h, Bool.false_eq_true, if_false]
      exact (ih.cons y).trans (List.Perm.swap x y ys)

/-- Membership in an insertion. -/
theorem mem_insertSorted (x a : Str) (l : List Str) :
    a ∈ insertSorted x l ↔ a = x ∨ a ∈ l := by
  rw [(insertSorted_perm x l).mem_iff]
  simp

/-- Insertion preserves `lexLe`-sortedness. -/
theorem insertSorted_pairwise (x : Str) :
    ∀ (l : List Str), List.Pairwise (fun a b => lexLe a b = true) l →
      List.Pairwise (fun a b => lexLe a b = true) (insertSorted x l) := by
  intro l
  induction l with
  | nil => intro _; simp [insertSorted]
  | cons y ys ih =>
    intro hp
    rcases List.pairwise_cons.mp hp with ⟨hy, hys⟩
    by_cases h : lexLe x y
    · simp only [insertSorted, h, if_true]
      refine List.pairwise_cons.mpr ⟨?_, hp⟩
      intro b hb
      rcases List.mem_cons.mp hb with rfl | hb'
      · exact h
      · exact lexLe_trans x y b h (hy b hb')
    · simp only [insertSorted, h, Bool.false_eq_true, if_false]
      refine List.pairwise_cons.mpr ⟨?_, ih hys⟩
      intro b hb
      rcases (mem_insertSorted x b ys).mp hb with hb1 | hb'
      · rw [hb1]
        rcases lexLe_total x y with h' | h'
        · exact absurd h' h
        · exact h'
      · exact hy b hb'

/-- `sortStrs` permutes its input. -/
theorem sortStrs_perm : ∀ (l : List Str), (sortStrs l).Perm l := by
  intro l
  induction l with
  | nil => exact List.Perm.refl _
  | cons x xs ih =>
    have : sortStrs (x :: xs) = insertSorted x (sortStrs xs) := rfl
    rw [this]
    exact (insertSorted_perm x (sortStrs xs)).trans (ih.cons x)

/-- `sortStrs` sorts. -/
theorem sortStrs_pairwise (l : List Str) :
    List.Pairwise (fun a b => lexLe a b = true) (sortStrs l) := by
  induction l with
  | nil => simp [sortStrs]
  | cons x xs ih => exact insertSorted_pairwise x (sortStrs xs) ih

/-- The local table is sorted lexicographically. -/
theorem sortedLocals_pairwise (dict : List Str) (v : Value) :
    List.Pairwise (fun a b => lexLe a b = true) (sortedLocals dict v) :=
  sortStrs_pairwise _

/-- The local table has no duplicate entries. -/
theorem sortedLocals_nodup (dict : List Str) (v : Value) :
    (sortedLocals dict v).Nodup := by
  unfold sortedLocals
  rw [(sortStrs_perm _).nodup_iff]
  exact (List.nodup_dedup _).filter _

/-- The local table holds exactly the collected strings outside the shared
dictionary. -/
theorem mem_sortedLocals (dict : List Str) (v : Value) (x : Str) :
    x ∈ sortedLocals dict v ↔ x ∈ collectStrs v ∧ ¬ x ∈ dict := by
  unfold sortedLocals
  rw [(sortStrs_perm _).mem_iff, List.mem_filter, List.mem_dedup]
  simp

/-- A first-index search over a list containing a matching element finds
something. -/
theorem firstIdx_ne_none_of_mem {p : α → Bool} :
    ∀ {l : List α} {x : α}, x ∈ l → p x = true → firstIdx p l ≠ none := by
  intro l
  induction l with
  | nil => intro x hx; simp at hx
  | cons y ys ih =>
    intro x hx hp
    rcases List.mem_cons.mp hx with rfl | hx'
    · simp [firstIdx, hp]
    · by_cases hy : p y
      · simp [firstIdx, hy]
      · cases hfi : firstIdx p ys with
        | none => exact absurd hfi (ih hx' hp)
        | some j => simp [firstIdx, hy, hfi]

/-! ## Frame lemmas for the FloatFixer -/

/-- No integer leaf in a list means none in any member. -/
theorem hasIntL_false : ∀ (l : List Value), hasIntL l = false →
    ∀ f ∈ l, hasInt f = false := by
  intro l
  induction l with
  | nil => intro _ f hf; simp at hf
  | cons v vs ih =>
    intro h f hf
    have e : hasIntL (v :: vs) = (hasInt v || hasIntL vs) := rfl
    rw [e, Bool.or_eq_false_iff] at h
    rcases List.mem_cons.mp hf with hf1 | hf'
    · rw [hf1]; exact h.1
    · exact ih h.2 f hf'

/-- Fixing fields preserves the field count. -/
theorem fixFields_length (s : Schema) :
    ∀ (fields : List Value) (attrs : List Attr),
      (fixFields s attrs fields).length = fields.length := by
  intro fields
  induction fields with
  | nil => intro attrs; cases attrs <;> rfl
  | cons f fs ih =>
    intro attrs
    cases attrs with
    | nil => rfl
    | cons a as =>
      show (floatFix s a.ty f :: fixFields s as fs).length = (f :: fs).length
      simp [ih]

/-- Fixing items preserves the item count. -/
theorem fixItems_length (s : Schema) (e : Nat) :
    ∀ (items : List Value), (fixItems s e items).length = items.length := by
  intro items
  induction items with
  | nil => rfl
  | cons x xs ih =>
    show (floatFix s e x :: fixItems s e xs).length = (x :: xs).length
    simp [ih]

/-- Field fixing is the identity when every member fix is. -/
theorem fixFields_congr_id (s : Schema) :
    ∀ (fields : List Value), (∀ t f, f ∈ fields → floatFix s t f = f) →
      ∀ (attrs : List Attr), fixFields s attrs fields = fields := by
  intro fields
  induction fields with
  | nil => intro _ attrs; cases attrs <;> rfl
  | cons f fs ih =>
    intro h attrs
    cases attrs with
    | nil => rfl
    | cons a as =>
      show floatFix s a.ty f :: fixFields s as fs = f :: fs
      rw [h a.ty f (List.mem_cons_self f fs),
        ih (fun t g hg => h t g (List.mem_cons_of_mem f hg)) as]

/-- Item fixing is the identity when every member fix is. -/
theorem fixItems_congr_id (s : Schema) (e : Nat) :
    ∀ (items : List Value), (∀ f ∈ items, floatFix s e f = f) →
      fixItems s e items = items := by
  intro items
  induction items with
  | nil => intro _; rfl
  | cons x xs ih =>
    intro h
    show floatFix s e x :: fixItems s e xs = x :: xs
    rw [h x (List.mem_cons_self x xs), ih (fun g hg => h g (List.mem_cons_of_mem x hg))]

/-- Unfolding equation for `floatFix` at an interface node. -/
theorem floatFix_ifaceV_eq (s : Schema) (ty k : Nat) (fields : List Value) :
    floatFix s ty (.ifaceV k fields) =
      (match s[resolveFor s ty (.ifaceV k fields)]? with
       | some (.iface attrs) => Value.ifaceV k (fixFields s attrs fields)
       | _ => Value.ifaceV k fields) := rfl

/-- Unfolding equation for `floatFix` at an array node. -/
theorem floatFix_arrV_eq (s : Schema) (ty : Nat) (items : List Value) :
    floatFix s ty (.arrV items) =
      (match s[resolveFor s ty (.arrV items)]? with
       | some (.arr e) => Value.arrV (fixItems s e items)
       | _ => Value.arrV items) := rfl

/-- Unfolding equation for `floatFix` at an integer leaf. -/
theorem floatFix_intV_eq (s : Schema) (ty : Nat) (i : Int) :
    floatFix s ty (.intV i) =
      (match s[resolveFor s ty (.intV i)]? with
       | some .pDouble => Value.dblV (.ofInt i)
       | _ => Value.intV i) := rfl

/-- A tree with no integer leaf is untouched by the FloatFixer. -/
theorem floatFix_of_noInt (s : Schema) :
    ∀ (N ty : Nat) (v : Value), sizeOf v ≤ N → hasInt v = false →
      floatFix s ty v = v := by
  intro N
  induction N using Nat.strong_induction_on with
  | _ N ih =>
    intro ty v hsz hni
    cases v with
    | ifaceV k fields =>
      have hl2 : sizeOf fields < sizeOf (Value.ifaceV k fields) := by simp
      have hniL : hasIntL fields = false := hni
      have hf : ∀ t f, f ∈ fields → floatFix s t f = f := by
        intro t f hfm
        have h1 : sizeOf f < sizeOf fields := List.sizeOf_lt_of_mem hfm
        exact ih (sizeOf f) (by omega) t f (le_refl _) (hasIntL_false fields hniL f hfm)
      rw [floatFix_ifaceV_eq]
      cases hl : s[resolveFor s ty (Value.ifaceV k fields)]? with
      | none => rfl
      | some td =>
        cases td with
        | iface attrs =>
          simp only []
          rw [fixFields_congr_id s fields hf attrs]
        | _ => rfl
    | arrV items =>
      have hl2 : sizeOf items < sizeOf (Value.arrV items) := by simp
      have hniL : hasIntL items = false := hni
      have hf : ∀ f ∈ items, ∀ t, floatFix s t f = f := by
        intro f hfm t
        have h1 : sizeOf f < sizeOf items := List.sizeOf_lt_of_mem hfm
        exact ih (sizeOf f) (by omega) t f (le_refl _) (hasIntL_false items hniL f hfm)
      rw [floatFix_arrV_eq]
      cases hl : s[resolveFor s ty (Value.arrV items)]? with
      | none => rfl
      | some td =>
        cases td with
        | arr e =>
          simp only []
          rw [fixItems_congr_id s e items (fun f hfm => hf f hfm e)]
        | _ => rfl
    | intV i =>
      have : hasInt (Value.intV i) = true := rfl
      rw [this] at hni
      cases hni
    | enumV x => rfl
    | boolV b => rfl
    | uintV n => rfl
    | dblV d => rfl
    | strV x => rfl
    | nullV => rfl
    | placeholder j => rfl

/-- Field fixing twice equals fixing once, pointwise. -/
theorem fixFields_idem_of (s : Schema) :
    ∀ (fields : List Value),
      (∀ t f, f ∈ fields → floatFix s t (floatFix s t f) = floatFix s t f) →
      ∀ (attrs : List Attr),
        fixFields s attrs (fixFields s attrs fields) = fixFields s attrs fields := by
  intro fields
  induction fields with
  | nil => intro _ attrs; cases attrs <;> rfl
  | cons f fs ih =>
    intro h attrs
    cases attrs with
    | nil => rfl
    | cons a as =>
      show floatFix s a.ty (floatFix s a.ty f) :: fixFields s as (fixFields s as fs) =
        floatFix s a.ty f :: fixFields s as fs
      rw [h a.ty f (List.mem_cons_self f fs),
        ih (fun t g hg => h t g (List.mem_cons_of_mem f hg)) as]

/-- Item fixing twice equals fixing once, pointwise. -/
theorem fixItems_idem_of (s : Schema) (e : Nat) :
    ∀ (items : List Value),
      (∀ f ∈ items, floatFix s e (floatFix s e f) = floatFix s e f) →
      fixItems s e (fixItems s e items) = fixItems s e items := by
  intro items
  induction items with
  | nil => intro _; rfl
  | cons x xs ih =>
    intro h
    show floatFix s e (floatFix s e x) :: fixItems s e (fixItems s e xs) =
      floatFix s e x :: fixItems s e xs
    rw [h x (List.mem_cons_self x xs), ih (fun g hg => h g (List.mem_cons_of_mem x hg))]

/-- The FloatFixer is idempotent: a second pass changes nothing. -/
theorem floatFix_idem (s : Schema) :
    ∀ (N ty : Nat) (v : Value), sizeOf v ≤ N →
      floatFix s ty (floatFix s ty v) = floatFix s ty v := by
  intro N
  induction N using Nat.strong_induction_on with
  | _ N ih =>
    intro ty v hsz
    cases v with
    | ifaceV k fields =>
      have hl2 : sizeOf fields < sizeOf (Value.ifaceV k fields) := by simp
      have hf : ∀ t f, f ∈ fields → floatFix s t (floatFix s t f) = floatFix s t f := by
        intro t f hfm
        have h1 : sizeOf f < sizeOf fields := List.sizeOf_lt_of_mem hfm
        exact ih (sizeOf f) (by omega) t f (le_refl _)
      rw [floatFix_ifaceV_eq s ty k fields]
      cases hl : s[resolveFor s ty (Value.ifaceV k fields)]? with
      | none =>
        simp only []
        rw [floatFix_ifaceV_eq s ty k fields, hl]
      | some td =>
        cases td with
        | iface attrs =>
          simp only []
          rw [floatFix_ifaceV_eq,
            resolveFor_ifaceV s ty k (fixFields s attrs fields) fields, hl]
          simp only []
          rw [fixFields_idem_of s fields hf attrs]
        | _ =>
          simp only []
          rw [floatFix_ifaceV_eq s ty k fields, hl]
    | arrV items =>
      have hl2 : sizeOf items < sizeOf (Value.arrV items) := by simp
      have hf : ∀ f ∈ items, ∀ t, floatFix s t (floatFix s t f) = floatFix s t f := by
        intro f hfm t
        have h1 : sizeOf f < sizeOf items := List.sizeOf_lt_of_mem hfm
        exact ih (sizeOf f) (by omega) t f (le_refl _)
      rw [floatFix_arrV_eq s ty items]
      cases hl : s[resolveFor s ty (Value.arrV items)]? with
      | none =>
        simp only []
        rw [floatFix_arrV_eq s ty items, hl]
      | some td =>
        cases td with
        | arr e =>
          simp only []
          rw [floatFix_arrV_eq,
            resolveFor_arrV s ty (fixItems s e items) items, hl]
          simp only []
          rw [fixItems_idem_of s e items (fun f hfm => hf f hfm e)]
        | _ =>
          simp only []
          rw [floatFix_arrV_eq s ty items, hl]
    | intV i =>
      rw [floatFix_intV_eq s ty i]
      cases hl : s[resolveFor s ty (Value.intV i)]? with
      | none =>
        simp only []
        rw [floatFix_intV_eq s ty i, hl]
      | some td =>
        cases td with
        | pDouble => rfl
        | _ =>
          simp only []
          rw [floatFix_intV_eq s ty i, hl]
    | enumV x => rfl
    | boolV b => rfl
    | uintV n => rfl
    | dblV d => rfl
    | strV x => rfl
    | nullV => rfl
    | placeholder j => rfl

/-- The encoder sees the tree only through the FloatFixer: encoding an
already-fixed tree yields the identical output. -/
theorem write_floatFix (s : Schema) (dict : List Str) (ty : Nat) (tree : Value)
    (fv fp : Nat) (out : List Nat) :
    write s dict ty tree fv fp out = write s dict ty (floatFix s ty tree) fv fp out := by
  unfold write
  rw [floatFix_idem s (sizeOf tree) ty tree (le_refl _)]

/-- The interface constructor and arity survive the FloatFixer. -/
theorem floatFix_ifaceV_shape (s : Schema) (ty k : Nat) (fields : List Value) :
    ∃ fields2, floatFix s ty (.ifaceV k fields) = .ifaceV k fields2 ∧
      fields2.length = fields.length := by
  rw [floatFix_ifaceV_eq]
  cases hl : s[resolveFor s ty (Value.ifaceV k fields)]? with
  | none => exact ⟨fields, rfl, rfl⟩
  | some td =>
    cases td with
    | iface attrs => exact ⟨fixFields s attrs fields, rfl, fixFields_length s fields attrs⟩
    | _ => exact ⟨fields, rfl, rfl⟩

/-- The array constructor and arity survive the FloatFixer. -/
theorem floatFix_arrV_shape (s : Schema) (ty : Nat) (items : List Value) :
    ∃ items2, floatFix s ty (.arrV items) = .arrV items2 ∧
      items2.length = items.length := by
  rw [floatFix_arrV_eq]
  cases hl : s[resolveFor s ty (Value.arrV items)]? with
  | none => exact ⟨items, rfl, rfl⟩
  | some td =>
    cases td with
    | arr e => exact ⟨fixItems s e items, rfl, fixItems_length s e items⟩
    | _ => exact ⟨items, rfl, rfl⟩

/-- `readListN` returns exactly as many records as requested. -/
theorem readListN_length {rd : List Nat → Option (α × List Nat)} :
    ∀ {k : Nat} {inp : List Nat} {xs : List α} {r : List Nat},
      readListN rd k inp = some (xs, r) → xs.length = k := by
  intro k
  induction k with
  | zero =>
    intro inp xs r h
    simp only [readListN, Option.some.injEq, Prod.mk.injEq] at h
    simp [← h.1]
  | succ k ih =>
    intro inp xs r h
    simp only [readListN] at h
    cases h1 : rd inp with
    | none => rw [h1] at h; cases h
    | some p =>
      obtain ⟨x, r1⟩ := p
      rw [h1] at h
      simp only [] at h
      cases h2 : readListN rd k r1 with
      | none => rw [h2] at h; cases h
      | some q =>
        obtain ⟨xs1, r2⟩ := q
        rw [h2] at h
        simp only [Option.some.injEq, Prod.mk.injEq] at h
        rw [← h.1]
        simp [ih h2]

/-! ## Model-id allocation invariants -/

/-- In a list of pairs with distinct first components, the first component
determines the second. -/
theorem nodup_fst_functional {α β : Type} [DecidableEq α] :
    ∀ (l : List (α × β)), (l.map Prod.fst).Nodup →
      ∀ (k : α) (i j : β), (k, i) ∈ l → (k, j) ∈ l → i = j := by
  intro l
  induction l with
  | nil => intro _ k i j hi; simp at hi
  | cons p ps ih =>
    intro hnd k i j hi hj
    rw [List.map_cons, List.nodup_cons] at hnd
    rcases List.mem_cons.mp hi with hi1 | hi' <;>
      rcases List.mem_cons.mp hj with hj1 | hj'
    · exact congrArg Prod.snd (hi1.trans hj1.symm)
    · exfalso
      apply hnd.1
      rw [congrArg Prod.fst hi1.symm]
      exact List.mem_map.mpr ⟨(k, j), hj', rfl⟩
    · exfalso
      apply hnd.1
      rw [congrArg Prod.fst hj1.symm]
      exact List.mem_map.mpr ⟨(k, i), hi', rfl⟩
    · exact ih hnd.2 k i j hi' hj'

/-- In a list of pairs with distinct second components, the second component
determines the first. -/
theorem nodup_snd_functional {α β : Type} [DecidableEq β] :
    ∀ (l : List (α × β)), (l.map Prod.snd).Nodup →
      ∀ (k1 k2 : α) (i : β), (k1, i) ∈ l → (k2, i) ∈ l → k1 = k2 := by
  intro l
  induction l with
  | nil => intro _ k1 k2 i hi; simp at hi
  | cons p ps ih =>
    intro hnd k1 k2 i hi hj
    rw [List.map_cons, List.nodup_cons] at hnd
    rcases List.mem_cons.mp hi with hi1 | hi' <;>
      rcases List.mem_cons.mp hj with hj1 | hj'
    · exact congrArg Prod.fst (hi1.trans hj1.symm)
    · exfalso
      apply hnd.1
      rw [congrArg Prod.snd hi1.symm]
      exact List.mem_map.mpr ⟨(k2, i), hj', rfl⟩
    · exfalso
      apply hnd.1
      rw [congrArg Prod.snd hj1.symm]
      exact List.mem_map.mpr ⟨(k1, i), hi', rfl⟩
    · exact ih hnd.2 k1 k2 i hi' hj'

/-- `_get_insert_model_id` preserves the allocation invariant. -/
theorem getInsertModelId_inv (st : GenState) (k : MKey) (h : MIdInv st) :
    MIdInv (getInsertModelId st k).2 := by
  unfold getInsertModelId
  cases hf : st.modelIds.find? (fun e => e.1 = k) with
  | some e => exact h
  | none =>
    simp only []
    constructor
    · show (st.modelIds ++ [(k, st.nextModelId)]).map Prod.snd =
        List.range (st.nextModelId + 1)
      rw [List.map_append, h.1, List.range_succ]
      rfl
    · show ((st.modelIds ++ [(k, st.nextModelId)]).map Prod.fst).Nodup
      rw [List.map_append]
      have hk : ¬ k ∈ st.modelIds.map Prod.fst := by
        intro hmem
        rcases List.mem_map.mp hmem with ⟨e, he, hek⟩
        have := List.find?_eq_none.mp hf e he
        simp [hek] at this
      simp only [List.map_cons, List.map_nil]
      rw [List.nodup_append]
      refine ⟨h.2, List.nodup_singleton k, ?_⟩
      intro a ha hb
      rw [List.mem_singleton] at hb
      exact hk (hb ▸ ha)

/-- The attribute fold of `visit_interface_type` preserves the allocation
invariant. -/
theorem visitInterfaceFold_inv (ty : Nat) :
    ∀ (attrs : List Attr) (acc : List (Str × Nat × Bool × Nat) × GenState),
      MIdInv acc.2 →
      MIdInv (attrs.foldl
        (fun (acc : List (Str × Nat × Bool × Nat) × GenState) a =>
          let r := getInsertModelId acc.2 (ty, a.name)
          (acc.1 ++ [(a.name, a.ty, a.lazy, r.1)], r.2))
        acc).2 := by
  intro attrs
  induction attrs with
  | nil => intro acc h; exact h
  | cons a as ih =>
    intro acc h
    rw [List.foldl_cons]
    exact ih _ (getInsertModelId_inv acc.2 (ty, a.name) h)

/-- `visit_interface_type` preserves the allocation invariant. -/
theorem visitInterfaceCb_inv (ty : Nat) (attrs : List Attr) (st : GenState)
    (h : MIdInv st) : MIdInv (visitInterfaceCb ty attrs st) :=
  visitInterfaceFold_inv ty attrs ([], st) h

/-- `visit_frozen_array_type` preserves the allocation invariant. -/
theorem visitArrCb_inv (ty e : Nat) (st : GenState) (h : MIdInv st) :
    MIdInv (visitArrCb ty e st) :=
  getInsertModelId_inv st (ty, listLengthName) h

/-- The empty worklist ends the traversal. -/
theorem visitAll_nil_eq (s : Schema) (vis : List Nat) (st : GenState) :
    visitAll s [] vis st = (vis, st) := by
  rw [visitAll]

/-- An already-visited handle is skipped: the visited set suppresses
re-entry. -/
theorem visitAll_skip (s : Schema) (t : Nat) (ts vis : List Nat) (st : GenState)
    (hmem : t ∈ vis) :
    visitAll s (t :: ts) vis st = visitAll s ts vis st := by
  rw [visitAll]
  rw [dif_pos hmem]

/-- A fresh interface handle is marked, its callback fires, and its
attribute types are pushed in front of the worklist. -/
theorem visitAll_step_iface (s : Schema) (t : Nat) (ts vis : List Nat) (st : GenState)
    (attrs : List Attr) (hmem : ¬ t ∈ vis) (hty : s[t]? = some (.iface attrs)) :
    visitAll s (t :: ts) vis st =
      visitAll s (attrs.map (·.ty) ++ ts) (vis ++ [t]) (visitInterfaceCb t attrs st) := by
  rw [visitAll]
  rw [dif_neg hmem]
  split
  all_goals rename_i heq
  all_goals rw [hty] at heq
  all_goals try cases heq
  all_goals rfl

/-- A fresh alternation handle is marked, recorded, and its member types are
pushed in front of the worklist. -/
theorem visitAll_step_alt (s : Schema) (t : Nat) (ts vis : List Nat) (st : GenState)
    (tys : List Nat) (hmem : ¬ t ∈ vis) (hty : s[t]? = some (.alt tys)) :
    visitAll s (t :: ts) vis st =
      visitAll s (tys ++ ts) (vis ++ [t]) (visitAltCb t tys st) := by
  rw [visitAll]
  rw [dif_neg hmem]
  split
  all_goals rename_i heq
  all_goals rw [hty] at heq
  all_goals try cases heq
  all_goals rfl

/-- A fresh enum handle is marked and recorded. -/
theorem visitAll_step_enum (s : Schema) (t : Nat) (ts vis : List Nat) (st : GenState)
    (syms : List Str) (hmem : ¬ t ∈ vis) (hty : s[t]? = some (.enum syms)) :
    visitAll s (t :: ts) vis st = visitAll s ts (vis ++ [t]) (visitEnumCb t st) := by
  rw [visitAll]
  rw [dif_neg hmem]
  split
  all_goals rename_i heq
  all_goals rw [hty] at heq
  all_goals try cases heq
  all_goals rfl

/-- A fresh bool-primitive handle is marked and recorded. -/
theorem visitAll_step_pBool (s : Schema) (t : Nat) (ts vis : List Nat) (st : GenState)
    (hmem : ¬ t ∈ vis) (hty : s[t]? = some .pBool) :
    visitAll s (t :: ts) vis st = visitAll s ts (vis ++ [t]) (visitPrimCb t st) := by
  rw [visitAll]
  rw [dif_neg hmem]
  split
  all_goals rename_i heq
  all_goals rw [hty] at heq
  all_goals try cases heq
  all_goals rfl

/-- A fresh uint-primitive handle is marked and recorded. -/
theorem visitAll_step_pUint (s : Schema) (t : Nat) (ts vis : List Nat) (st : GenState)
    (hmem : ¬ t ∈ vis) (hty : s[t]? = some .pUint) :
    visitAll s (t :: ts) vis st = visitAll s ts (vis ++ [t]) (visitPrimCb t st) := by
  rw [visitAll]
  rw [dif_neg hmem]
  split
  all_goals rename_i heq
  all_goals rw [hty] at heq
  all_goals try cases heq
  all_goals rfl

/-- A fresh double-primitive handle is marked and recorded. -/
theorem visitAll_step_pDouble (s : Schema) (t : Nat) (ts vis : List Nat) (st : GenState)
    (hmem : ¬ t ∈ vis) (hty : s[t]? = some .pDouble) :
    visitAll s (t :: ts) vis st = visitAll s ts (vis ++ [t]) (visitPrimCb t st) := by
  rw [visitAll]
  rw [dif_neg hmem]
  split
  all_goals rename_i heq
  all_goals rw [hty] at heq
  all_goals try cases heq
  all_goals rfl

/-- A fresh string-primitive handle is marked and recorded. -/
theorem visitAll_step_pStr (s : Schema) (t : Nat) (ts vis : List Nat) (st : GenState)
    (hmem : ¬ t ∈ vis) (hty : s[t]? = some .pStr) :
    visitAll s (t :: ts) vis st = visitAll s ts (vis ++ [t]) (visitPrimCb t st) := by
  rw [visitAll]
  rw [dif_neg hmem]
  split
  all_goals rename_i heq
  all_goals rw [hty] at heq
  all_goals try cases heq
  all_goals rfl

/-- A fresh identifier-primitive handle is marked and recorded. -/
theorem visitAll_step_pIdent (s : Schema) (t : Nat) (ts vis : List Nat) (st : GenState)
    (hmem : ¬ t ∈ vis) (hty : s[t]? = some .pIdent) :
    visitAll s (t :: ts) vis st = visitAll s ts (vis ++ [t]) (visitPrimCb t st) := by
  rw [visitAll]
  rw [dif_neg hmem]
  split
  all_goals rename_i heq
  all_goals rw [hty] at heq
  all_goals try cases heq
  all_goals rfl

/-- A fresh none-primitive handle is marked and recorded. -/
theorem visitAll_step_pNone (s : Schema) (t : Nat) (ts vis : List Nat) (st : GenState)
    (hmem : ¬ t ∈ vis) (hty : s[t]? = some .pNone) :
    visitAll s (t :: ts) vis st = visitAll s ts (vis ++ [t]) (visitPrimCb t st) := by
  rw [visitAll]
  rw [dif_neg hmem]
  split
  all_goals rename_i heq
  all_goals rw [hty] at heq
  all_goals try cases heq
  all_goals rfl

/-- A fresh frozen-array handle is marked, its callback fires, and its
element type is pushed in front of the worklist. -/
theorem visitAll_step_arr (s : Schema) (t : Nat) (ts vis : List Nat) (st : GenState)
    (e : Nat) (hmem : ¬ t ∈ vis) (hty : s[t]? = some (.arr e)) :
    visitAll s (t :: ts) vis st =
      visitAll s (e :: ts) (vis ++ [t]) (visitArrCb t e st) := by
  rw [visitAll]
  rw [dif_neg hmem]
  split
  all_goals rename_i heq
  all_goals rw [hty] at heq
  all_goals try cases heq
  all_goals rfl

/-- A fresh handle outside the arena is only marked. -/
theorem visitAll_step_none (s : Schema) (t : Nat) (ts vis : List Nat) (st : GenState)
    (hmem : ¬ t ∈ vis) (hty : s[t]? = none) :
    visitAll s (t :: ts) vis st = visitAll s ts (vis ++ [t]) st := by
  rw [visitAll]
  rw [dif_neg hmem]
  split
  all_goals rename_i heq
  all_goals rw [hty] at heq
  all_goals try cases heq
  all_goals rfl

/-- The traversal preserves the allocation invariant. -/
theorem visitAll_inv (s : Schema) :
    ∀ (l vis : List Nat) (st : GenState), MIdInv st →
      MIdInv (visitAll s l vis st).2 := by
  intro l vis st
  induction l, vis, st using visitAll.induct s with
  | case1 vis st => intro h; rw [visitAll_nil_eq]; exact h
  | case2 t ts vis st hmem ih =>
    intro h
    rw [visitAll_skip s t ts vis st hmem]
    exact ih h
  | case3 t ts vis st hmem attrs hty ih =>
    intro h
    rw [visitAll_step_iface s t ts vis st attrs hmem hty]
    exact ih (visitInterfaceCb_inv t attrs st h)
  | case4 t ts vis st hmem tys hty ih =>
    intro h
    rw [visitAll_step_alt s t ts vis st tys hmem hty]
    exact ih h
  | case5 t ts vis st hmem syms hty ih =>
    intro h
    rw [visitAll_step_enum s t ts vis st syms hmem hty]
    exact ih h
  | case6 t ts vis st hmem hty ih =>
    intro h
    rw [visitAll_step_pBool s t ts vis st hmem hty]
    exact ih h
  | case7 t ts vis st hmem hty ih =>
    intro h
    rw [visitAll_step_pUint s t ts vis st hmem hty]
    exact ih h
  | case8 t ts vis st hmem hty ih =>
    intro h
    rw [visitAll_step_pDouble s t ts vis st hmem hty]
    exact ih h
  | case9 t ts vis st hmem hty ih =>
    intro h
    rw [visitAll_step_pStr s t ts vis st hmem hty]
    exact ih h
  | case10 t ts vis st hmem hty ih =>
    intro h
    rw [visitAll_step_pIdent s t ts vis st hmem hty]
    exact ih h
  | case11 t ts vis st hmem hty ih =>
    intro h
    rw [visitAll_step_pNone s t ts vis st hmem hty]
    exact ih h
  | case12 t ts vis st hmem e hty ih =>
    intro h
    rw [visitAll_step_arr s t ts vis st e hmem hty]
    exact ih (visitArrCb_inv t e st h)
  | case13 t ts vis st hmem hty ih =>
    intro h
    rw [visitAll_step_none s t ts vis st hmem hty]
    exact ih h

/-- The traversal only ever appends fresh handles to the visited list. -/
theorem visitAll_nodup (s : Schema) :
    ∀ (l vis : List Nat) (st : GenState), vis.Nodup →
      (visitAll s l vis st).1.Nodup := by
  intro l vis st
  induction l, vis, st using visitAll.induct s with
  | case1 vis st => intro h; rw [visitAll_nil_eq]; exact h
  | case2 t ts vis st hmem ih =>
    intro h
    rw [visitAll_skip s t ts vis st hmem]
    exact ih h
  | case3 t ts vis st hmem attrs hty ih =>
    intro h
    rw [visitAll_step_iface s t ts vis st attrs hmem hty]
    exact ih (by simp [List.nodup_append, h, hmem])
  | case4 t ts vis st hmem tys hty ih =>
    intro h
    rw [visitAll_step_alt s t ts vis st tys hmem hty]
    exact ih (by simp [List.nodup_append, h, hmem])
  | case5 t ts vis st hmem syms hty ih =>
    intro h
    rw [visitAll_step_enum s t ts vis st syms hmem hty]
    exact ih (by simp [List.nodup_append, h, hmem])
  | case6 t ts vis st hmem hty ih =>
    intro h
    rw [visitAll_step_pBool s t ts vis st hmem hty]
    exact ih (by simp [List.nodup_append, h, hmem])
  | case7 t ts vis st hmem hty ih =>
    intro h
    rw [visitAll_step_pUint s t ts vis st hmem hty]
    exact ih (by simp [List.nodup_append, h, hmem])
  | case8 t ts vis st hmem hty ih =>
    intro h
    rw [visitAll_step_pDouble s t ts vis st hmem hty]
    exact ih (by simp [List.nodup_append, h, hmem])
  | case9 t ts vis st hmem hty ih =>
    intro h
    rw [visitAll_step_pStr s t ts vis st hmem hty]
    exact ih (by simp [List.nodup_append, h, hmem])
  | case10 t ts vis st hmem hty ih =>
    intro h
    rw [visitAll_step_pIdent s t ts vis st hmem hty]
    exact ih (by simp [List.nodup_append, h, hmem])
  | case11 t ts vis st hmem hty ih =>
    intro h
    rw [visitAll_step_pNone s t ts vis st hmem hty]
    exact ih (by simp [List.nodup_append, h, hmem])
  | case12 t ts vis st hmem e hty ih =>
    intro h
    rw [visitAll_step_arr s t ts vis st e hmem hty]
    exact ih (by simp [List.nodup_append, h, hmem])
  | case13 t ts vis st hmem hty ih =>
    intro h
    rw [visitAll_step_none s t ts vis st hmem hty]
    exact ih (by simp [List.nodup_append, h, hmem])

/-- The initial generator state satisfies the allocation invariant. -/
theorem initGenState_inv : MIdInv initGenState := by
  constructor <;> simp [initGenState]

/-! ## The claims

One theorem per claim of the specification, each followed by its witness
when its statement carries hypotheses. -/

/-- C1: for every tree accepted by `write` (which type-checks the tree after
the FloatFixer coercion of integer values occupying double-typed slots) and
every shared string dictionary, `read` on the produced bytes returns exactly
the coerced input tree. -/
theorem c1_round_trip (s : Schema) (D : List Str) (ty : Nat) (tree : Value)
    (fv fp : Nat) (out : List Nat)
    (hw : write s D ty tree fv fp [] = some out) :
    read s D ty fv fp out = .ok (floatFix s ty tree) :=
  read_write_roundtrip s D ty tree fv fp out hw

/-- Witness for C1 at a concrete schema with two nested lazy pieces. -/
theorem c1_round_trip_witness :
    write exLSchema [] 0 exLTree 64 32 [] = some exLBytes ∧
    read exLSchema [] 0 64 32 exLBytes = .ok (floatFix exLSchema 0 exLTree) :=
  ⟨rfl, c1_round_trip exLSchema [] 0 exLTree 64 32 exLBytes rfl⟩

/-- C2: `write` is a pure function of its arguments: the bytes it appends to
the output stream are exactly the bytes it computes from `(types,
string_dict, ty, tree)` alone, independent of the stream already written.
In this embedding `write` is a function, so two runs on equal arguments are
definitionally byte-identical, and this theorem carries the part of the
claim the Python mutation of the passed-in `bytearray` leaves non-trivial:
the result on any prior stream `out` is the result on the empty stream
appended to `out`. -/
theorem c2_write_pure (s : Schema) (D : List Str) (ty : Nat) (tree : Value)
    (fv fp : Nat) (out : List Nat) :
    write s D ty tree fv fp out =
      (write s D ty tree fv fp []).map (fun b => out ++ b) := by
  unfold write
  by_cases hc : checkAny s ty (floatFix s ty tree) = true
  · simp only [hc, if_true]
    cases hm : mtv s (sortedLocals D (floatFix s ty tree) ++ D) fv (rootKey ty) ty
        (floatFix s ty tree) [] with
    | none => rfl
    | some m =>
      simp only []
      cases hp : writePiece s (sortedLocals D (floatFix s ty tree) ++ D) m fp fv ty
          (floatFix s ty tree) with
      | none => rfl
      | some pieceB => simp
  · simp only [hc, if_false]
    rfl

/-- C3: a successful `write` emits exactly the 8 magic bytes
`89 42 4A 53 0D 0A 00 0A`, the version byte `02`, and the brotli compression
of local string table, model section and root piece in that order; and every
piece `writePiece` accepts is its encoded body, a varint lazy-part count,
one varint byte length per part, then the concatenated part bodies, where
each part is itself a `writePiece` result of the same layout. -/
theorem c3_container_layout (s : Schema) (D : List Str) (ty : Nat) (tree : Value)
    (fv fp : Nat) (out : List Nat) (s2 : Schema) (sd' : List Str) (m' : Model)
    (fp' fv' ty' : Nat) (v : Value) (bytes : List Nat)
    (hw : write s D ty tree fv fp [] = some out)
    (hwp : writePiece s2 sd' m' (fp' + 1) fv' ty' v = some bytes) :
    (MAGIC_HEADER = [0x89, 0x42, 0x4A, 0x53, 0x0D, 0x0A, 0x00, 0x0A] ∧
     FORMAT_VERSION = 2) ∧
    (∃ m pieceB,
      mtv s (sortedLocals D (floatFix s ty tree) ++ D) fv (rootKey ty) ty
        (floatFix s ty tree) [] = some m ∧
      writePiece s (sortedLocals D (floatFix s ty tree) ++ D) m fp fv ty
        (floatFix s ty tree) = some pieceB ∧
      out = MAGIC_HEADER ++ [FORMAT_VERSION] ++
        brotliCompress (writeDict (sortedLocals D (floatFix s ty tree)) ++
          modelWrite m ++ pieceB)) ∧
    (∃ body parts,
      encodeVal s2 sd' m' fv' (rootKey ty') ty' (extractV s2 ty' v []).1 = some body ∧
      omap (fun e => writePiece s2 sd' m' fp' fv' e.1.ty e.2)
        (extractV s2 ty' v []).2 = some parts ∧
      bytes = body ++ writeVarint parts.length ++
        (parts.map (fun p => writeVarint p.length)).flatten ++ parts.flatten ∧
      parts.length = (extractV s2 ty' v []).2.length ∧
      (∀ (i : Nat) (e : Attr × Value), (extractV s2 ty' v []).2[i]? = some e →
        ∃ pb, writePiece s2 sd' m' fp' fv' e.1.ty e.2 = some pb ∧
          parts[i]? = some pb)) := by
  refine ⟨⟨rfl, rfl⟩, ?_, ?_⟩
  · simp only [write] at hw
    split at hw
    · split at hw
      · cases hw
      · rename_i m hm
        split at hw
        · cases hw
        · rename_i pieceB hp
          refine ⟨m, pieceB, hm, hp, ?_⟩
          cases hw
          simp
    · cases hw
  · rw [writePiece_succ_eq] at hwp
    split at hwp
    · cases hwp
    · rename_i body hbody
      split at hwp
      · cases hwp
      · rename_i parts hparts
        cases hwp
        refine ⟨body, parts, hbody, hparts, rfl, omap_length hparts, ?_⟩
        intro i e he
        rcases omap_get hparts i e he with ⟨pb, hpb1, hpb2⟩
        exact ⟨pb, hpb2, hpb1⟩

/-- Witness for C3: a concrete container write and a concrete standalone
piece write. -/
theorem c3_container_layout_witness :
    (write exSchema exDict 0 exTree 64 32 [] = some exBytes ∧
     writePiece [TyDef.pBool] [] exPModel (0 + 1) 5 0 (.boolV true) = some exPBytes) ∧
    ((MAGIC_HEADER = [0x89, 0x42, 0x4A, 0x53, 0x0D, 0x0A, 0x00, 0x0A] ∧
      FORMAT_VERSION = 2) ∧
     (∃ m pieceB,
       mtv exSchema (sortedLocals exDict (floatFix exSchema 0 exTree) ++ exDict) 64
         (rootKey 0) 0 (floatFix exSchema 0 exTree) [] = some m ∧
       writePiece exSchema (sortedLocals exDict (floatFix exSchema 0 exTree) ++ exDict)
         m 32 64 0 (floatFix exSchema 0 exTree) = some pieceB ∧
       exBytes = MAGIC_HEADER ++ [FORMAT_VERSION] ++
         brotliCompress (writeDict (sortedLocals exDict (floatFix exSchema 0 exTree)) ++
           modelWrite m ++ pieceB)) ∧
     (∃ body parts,
       encodeVal [TyDef.pBool] [] exPModel 5 (rootKey 0) 0
         (extractV [TyDef.pBool] 0 (.boolV true) []).1 = some body ∧
       omap (fun e => writePiece [TyDef.pBool] [] exPModel 0 5 e.1.ty e.2)
         (extractV [TyDef.pBool] 0 (.boolV true) []).2 = some parts ∧
       exPBytes = body ++ writeVarint parts.length ++
         (parts.map (fun p => writeVarint p.length)).flatten ++ parts.flatten ∧
       parts.length = (extractV [TyDef.pBool] 0 (.boolV true) []).2.length ∧
       (∀ (i : Nat) (e : Attr × Value),
         (extractV [TyDef.pBool] 0 (.boolV true) []).2[i]? = some e →
         ∃ pb, writePiece [TyDef.pBool] [] exPModel 0 5 e.1.ty e.2 = some pb ∧
           parts[i]? = some pb))) :=
  ⟨⟨rfl, rfl⟩,
   c3_container_layout exSchema exDict 0 exTree 64 32 exBytes [TyDef.pBool] []
     exPModel 0 5 0 (.boolV true) exPBytes rfl rfl⟩

/-- C4: a stream whose first 9 bytes are not the magic header followed by
version `02` is rejected with `magicMismatch` or `versionMismatch`; the
result depends only on those 9 bytes (the payload behind them is never
read), and a magic mismatch is reported before the version byte is ever
examined. -/
theorem c4_magic_version_rejection (s : Schema) (D : List Str) (ty fv fp : Nat)
    (inp : List Nat)
    (hlen : 9 ≤ inp.length)
    (hbad : inp.take 9 ≠ MAGIC_HEADER ++ [FORMAT_VERSION]) :
    (read s D ty fv fp inp = .error .magicMismatch ∨
     read s D ty fv fp inp = .error .versionMismatch) ∧
    (∀ rest, read s D ty fv fp (inp.take 9 ++ rest) = read s D ty fv fp inp) ∧
    (inp.take 8 ≠ MAGIC_HEADER → read s D ty fv fp inp = .error .magicMismatch) := by
  have hlen9 : (inp.take 9).length = 9 := by
    rw [List.length_take]
    omega
  have htake8 : ∀ rest, (inp.take 9 ++ rest).take 8 = inp.take 8 := by
    intro rest
    rw [List.take_append_eq_append_take, List.take_take]
    simp [hlen9]
  by_cases hm : inp.take 8 = MAGIC_HEADER
  · have hv : (inp.drop 8).take 1 ≠ [FORMAT_VERSION] := by
      intro hveq
      apply hbad
      have h98 : (9 : Nat) = 8 + 1 := rfl
      rw [h98, List.take_add, hm, hveq]
    have hr : read s D ty fv fp inp = .error .versionMismatch := by
      unfold read
      rw [if_neg (by simp [hm]), if_pos hv]
    refine ⟨Or.inr hr, ?_, fun h8 => absurd hm h8⟩
    intro rest
    have hdrop8 : (inp.take 9 ++ rest).drop 8 = (inp.drop 8).take 1 ++ rest := by
      rw [List.drop_append_eq_append_drop, List.drop_take]
      simp [hlen9]
    have htk1 : ((inp.drop 8).take 1 ++ rest).take 1 = (inp.drop 8).take 1 := by
      rw [List.take_append_eq_append_take]
      have : ((inp.drop 8).take 1).length = 1 := by
        rw [List.length_take, List.length_drop]
        omega
      simp [this]
    rw [hr]
    unfold read
    rw [if_neg (by simp [htake8 rest, hm]), hdrop8, if_pos (by rw [htk1]; exact hv)]
  · have hr : read s D ty fv fp inp = .error .magicMismatch := by
      unfold read
      rw [if_pos hm]
    refine ⟨Or.inl hr, ?_, fun _ => hr⟩
    intro rest
    rw [hr]
    unfold read
    rw [if_pos (by rw [htake8 rest]; exact hm)]

/-- Witness for C4 at a nine-byte all-zero stream. -/
theorem c4_magic_version_rejection_witness :
    (9 ≤ ([0, 0, 0, 0, 0, 0, 0, 0, 0] : List Nat).length ∧
     ([0, 0, 0, 0, 0, 0, 0, 0, 0] : List Nat).take 9 ≠
       MAGIC_HEADER ++ [FORMAT_VERSION]) ∧
    ((read exSchema exDict 0 64 32 [0, 0, 0, 0, 0, 0, 0, 0, 0] = .error .magicMismatch ∨
      read exSchema exDict 0 64 32 [0, 0, 0, 0, 0, 0, 0, 0, 0] = .error .versionMismatch) ∧
     (∀ rest, read exSchema exDict 0 64 32
        (([0, 0, 0, 0, 0, 0, 0, 0, 0] : List Nat).take 9 ++ rest) =
        read exSchema exDict 0 64 32 [0, 0, 0, 0, 0, 0, 0, 0, 0]) ∧
     (([0, 0, 0, 0, 0, 0, 0, 0, 0] : List Nat).take 8 ≠ MAGIC_HEADER →
       read exSchema exDict 0 64 32 [0, 0, 0, 0, 0, 0, 0, 0, 0] =
         .error .magicMismatch)) :=
  ⟨⟨by decide, by decide⟩,
   c4_magic_version_rejection exSchema exDict 0 64 32 [0, 0, 0, 0, 0, 0, 0, 0, 0]
     (by decide) (by decide)⟩

/-- C5: the absolute lazy offsets are the base position plus the prefix sums
of the declared sizes; a successful resolution of lazy index `i` reads
offsets `i` and `i + 1`, decodes a piece at the first and is fatal unless
the position afterwards equals the second; and a successful `readPiece`
decodes the body, the varint count and exactly that many varint sizes,
restores all placeholders through the resolver over the offsets computed
from the position just after the size list, and ends at the last offset,
past all lazy bodies — the base position itself when the count is zero. -/
theorem c5_lazy_offsets (p : Nat) (sizes : List Nat) (j : Nat)
    (rp : Nat → Nat → Option (Value × Nat)) (offs : List Nat) (a : Attr)
    (i : Nat) (v : Value) (s : Schema) (sd : List Str) (m : Model) (fp fv : Nat)
    (data : List Nat) (pos ty : Nat) (v' : Value) (e : Nat)
    (hj : j ≤ sizes.length)
    (hres : lazyResolver rp offs a i = some v)
    (hrp : readPiece s sd m (fp + 1) fv data pos ty = some (v', e)) :
    ((offsetsFrom p sizes)[j]? = some (p + (sizes.take j).sum)) ∧
    (∃ o o' pe, offs[i]? = some o ∧ offs[i + 1]? = some o' ∧
      rp o a.ty = some (v, pe) ∧ pe = o') ∧
    (∃ w c rest1 k rest2 szs rest3,
      decodeVal s sd m fv (rootKey ty) ty (data.drop pos) 0 = some (w, rest1, c) ∧
      readVarint rest1 = some (k, rest2) ∧
      readListN readVarint k rest2 = some (szs, rest3) ∧
      szs.length = k ∧
      restoreV s (lazyResolver (fun o t => readPiece s sd m fp fv data o t)
        (offsetsFrom (data.length - rest3.length) szs)) ty w = some v' ∧
      e = (data.length - rest3.length) + szs.sum ∧
      (offsetsFrom (data.length - rest3.length) szs)[szs.length]? = some e ∧
      (szs = [] → e = data.length - rest3.length)) := by
  refine ⟨offsetsFrom_get sizes p j hj, ?_, ?_⟩
  · unfold lazyResolver at hres
    split at hres
    · rename_i o o' ho ho'
      split at hres
      · rename_i q pe hrpo
        split at hres
        · rename_i hpe
          cases hres
          exact ⟨o, o', pe, ho, ho', hrpo, hpe⟩
        · cases hres
      · cases hres
    · cases hres
  · rw [readPiece_succ_eq] at hrp
    split at hrp
    · cases hrp
    · rename_i w rest1 c hdec
      split at hrp
      · cases hrp
      · rename_i k rest2 hvar
        split at hrp
        · cases hrp
        · rename_i szs rest3 hlist
          have hrp' : (match restoreV s
              (lazyResolver (fun o t => readPiece s sd m fp fv data o t)
                (offsetsFrom (data.length - rest3.length) szs)) ty w with
            | some v'' => some (v'', (data.length - rest3.length) + szs.sum)
            | none => none) = some (v', e) := hrp
          split at hrp'
          · rename_i v'' hres'
            cases hrp'
            refine ⟨w, c, rest1, k, rest2, szs, rest3, hdec, hvar, hlist,
              readListN_length hlist, hres', rfl, ?_, ?_⟩
            · rw [offsetsFrom_get szs (data.length - rest3.length) szs.length
                (le_refl _)]
              rw [List.take_length]
            · intro hszs
              subst hszs
              simp
          · cases hrp'

/-- Witness for C5 at concrete offsets, a concrete resolver success and a
concrete piece decode. -/
theorem c5_lazy_offsets_witness :
    (1 ≤ ([3, 4] : List Nat).length ∧
     lazyResolver (fun o _ => some (Value.nullV, o + 1)) [0, 1] ⟨[97], 1, false⟩ 0 =
       some .nullV ∧
     readPiece [TyDef.pBool] [] exPModel (0 + 1) 5 exPBytes 0 0 =
       some (.boolV true, exPBytes.length)) ∧
    (((offsetsFrom 7 [3, 4])[1]? = some (7 + (([3, 4] : List Nat).take 1).sum)) ∧
     (∃ o o' pe, ([0, 1] : List Nat)[0]? = some o ∧ ([0, 1] : List Nat)[0 + 1]? = some o' ∧
       (fun (o : Nat) (_ : Nat) => some (Value.nullV, o + 1)) o
         (Attr.mk [97] 1 false).ty = some (Value.nullV, pe) ∧ pe = o') ∧
     (∃ w c rest1 k rest2 szs rest3,
       decodeVal [TyDef.pBool] [] exPModel 5 (rootKey 0) 0 (exPBytes.drop 0) 0 =
         some (w, rest1, c) ∧
       readVarint rest1 = some (k, rest2) ∧
       readListN readVarint k rest2 = some (szs, rest3) ∧
       szs.length = k ∧
       restoreV [TyDef.pBool]
         (lazyResolver (fun o t => readPiece [TyDef.pBool] [] exPModel 0 5 exPBytes o t)
           (offsetsFrom (exPBytes.length - rest3.length) szs)) 0 w = some (.boolV true) ∧
       exPBytes.length = (exPBytes.length - rest3.length) + szs.sum ∧
       (offsetsFrom (exPBytes.length - rest3.length) szs)[szs.length]? =
         some exPBytes.length ∧
       (szs = [] → exPBytes.length = exPBytes.length - rest3.length))) :=
  ⟨⟨by decide, rfl, rfl⟩,
   c5_lazy_offsets 7 [3, 4] 1 (fun o _ => some (Value.nullV, o + 1)) [0, 1]
     ⟨[97], 1, false⟩ 0 .nullV [TyDef.pBool] [] exPModel 0 5 exPBytes 0 0
     (.boolV true) exPBytes.length (by decide) rfl rfl⟩

/-- C6: the local string table of a successful `write` is the collected
string leaves of the (coerced) tree minus the shared dictionary entries,
deduplicated and in lexicographically sorted order; the written frame starts
with that table; every collected string is resolvable by index search in the
combined space `local ++ shared`, the space both the encoder and (via the
dictionary round trip) the decoder index into. -/
theorem c6_string_table (s : Schema) (D : List Str) (ty : Nat) (tree : Value)
    (fv fp : Nat) (out : List Nat)
    (hw : write s D ty tree fv fp [] = some out) :
    List.Pairwise (fun a b => lexLe a b = true) (sortedLocals D (floatFix s ty tree)) ∧
    (sortedLocals D (floatFix s ty tree)).Nodup ∧
    (∀ x, x ∈ sortedLocals D (floatFix s ty tree) ↔
      x ∈ collectStrs (floatFix s ty tree) ∧ ¬ x ∈ D) ∧
    (∀ x ∈ collectStrs (floatFix s ty tree),
      firstIdx (fun y => y = x) (sortedLocals D (floatFix s ty tree) ++ D) ≠ none) ∧
    (∃ m pieceB, out = MAGIC_HEADER ++ [FORMAT_VERSION] ++
      brotliCompress (writeDict (sortedLocals D (floatFix s ty tree)) ++
        modelWrite m ++ pieceB)) ∧
    (∀ rest, readDict (writeDict (sortedLocals D (floatFix s ty tree)) ++ rest) =
      some (sortedLocals D (floatFix s ty tree), rest)) := by
  refine ⟨sortedLocals_pairwise D (floatFix s ty tree),
    sortedLocals_nodup D (floatFix s ty tree),
    mem_sortedLocals D (floatFix s ty tree), ?_, ?_,
    fun rest => readDict_writeDict (sortedLocals D (floatFix s ty tree)) rest⟩
  · intro x hx
    by_cases hd : x ∈ D
    · exact firstIdx_ne_none_of_mem (List.mem_append_right _ hd) (by simp)
    · exact firstIdx_ne_none_of_mem
        (List.mem_append_left _ ((mem_sortedLocals D (floatFix s ty tree) x).mpr
          ⟨hx, hd⟩)) (by simp)
  · simp only [write] at hw
    split at hw
    · split at hw
      · cases hw
      · rename_i m hm
        split at hw
        · cases hw
        · rename_i pieceB hp
          refine ⟨m, pieceB, ?_⟩
          cases hw
          simp
    · cases hw

/-- Witness for C6 at a concrete write whose tree holds one shared and one
local string. -/
theorem c6_string_table_witness :
    write exSchema exDict 0 exTree 64 32 [] = some exBytes ∧
    (List.Pairwise (fun a b => lexLe a b = true)
      (sortedLocals exDict (floatFix exSchema 0 exTree)) ∧
     (sortedLocals exDict (floatFix exSchema 0 exTree)).Nodup ∧
     (∀ x, x ∈ sortedLocals exDict (floatFix exSchema 0 exTree) ↔
       x ∈ collectStrs (floatFix exSchema 0 exTree) ∧ ¬ x ∈ exDict) ∧
     (∀ x ∈ collectStrs (floatFix exSchema 0 exTree),
       firstIdx (fun y => y = x)
         (sortedLocals exDict (floatFix exSchema 0 exTree) ++ exDict) ≠ none) ∧
     (∃ m pieceB, exBytes = MAGIC_HEADER ++ [FORMAT_VERSION] ++
       brotliCompress (writeDict (sortedLocals exDict (floatFix exSchema 0 exTree)) ++
         modelWrite m ++ pieceB)) ∧
     (∀ rest, readDict (writeDict (sortedLocals exDict (floatFix exSchema 0 exTree))
        ++ rest) = some (sortedLocals exDict (floatFix exSchema 0 exTree), rest))) :=
  ⟨rfl, c6_string_table exSchema exDict 0 exTree 64 32 exBytes rfl⟩

/-- C7: the model-id table built by the canonical duplicate-suppressing
traversal from the root assigns the consecutive ids `0, 1, ...` in
first-use order, never repeats a key, and its key and id columns each
determine the other; determinism across runs is definitional, since
`cppGenerate` is a function of the schema and root alone. -/
theorem c7_model_id_allocation (s : Schema) (root : Nat) :
    ((cppGenerate s root).2.modelIds.map Prod.snd =
      List.range (cppGenerate s root).2.nextModelId) ∧
    ((cppGenerate s root).2.modelIds.map Prod.fst).Nodup ∧
    (∀ (k : MKey) (i j : Nat), (k, i) ∈ (cppGenerate s root).2.modelIds →
      (k, j) ∈ (cppGenerate s root).2.modelIds → i = j) ∧
    (∀ (k1 k2 : MKey) (i : Nat), (k1, i) ∈ (cppGenerate s root).2.modelIds →
      (k2, i) ∈ (cppGenerate s root).2.modelIds → k1 = k2) := by
  have hinv : MIdInv (cppGenerate s root).2 :=
    visitAll_inv s [root] [] initGenState initGenState_inv
  refine ⟨hinv.1, hinv.2, nodup_fst_functional _ hinv.2, nodup_snd_functional _ ?_⟩
  rw [hinv.1]
  exact List.nodup_range _

/-- C8: the worklist form of `TypeVisitor.visit` is a total function on
every schema, cyclic type graphs included (its Lean definition terminates by
the strictly shrinking unvisited count, with no fuel), it visits each handle
at most once — a visited handle is skipped and the visited list stays
duplicate-free — and a fresh interface unfolds to its attribute types, a
fresh alternation to its member types, and a fresh frozen array to its
element type. -/
theorem c8_visitor_traversal (s : Schema) (t u w a2 : Nat) (ts vis l : List Nat)
    (st : GenState) (attrs : List Attr) (tys : List Nat) (e : Nat)
    (hnd : vis.Nodup)
    (hmem : t ∈ vis)
    (hu : ¬ u ∈ vis) (htyu : s[u]? = some (.iface attrs))
    (hw : ¬ w ∈ vis) (htyw : s[w]? = some (.alt tys))
    (ha : ¬ a2 ∈ vis) (htya : s[a2]? = some (.arr e)) :
    (visitAll s l vis st).1.Nodup ∧
    visitAll s (t :: ts) vis st = visitAll s ts vis st ∧
    visitAll s (u :: ts) vis st =
      visitAll s (attrs.map (·.ty) ++ ts) (vis ++ [u]) (visitInterfaceCb u attrs st) ∧
    visitAll s (w :: ts) vis st =
      visitAll s (tys ++ ts) (vis ++ [w]) (visitAltCb w tys st) ∧
    visitAll s (a2 :: ts) vis st =
      visitAll s (e :: ts) (vis ++ [a2]) (visitArrCb a2 e st) :=
  ⟨visitAll_nodup s l vis st hnd,
   visitAll_skip s t ts vis st hmem,
   visitAll_step_iface s u ts vis st attrs hu htyu,
   visitAll_step_alt s w ts vis st tys hw htyw,
   visitAll_step_arr s a2 ts vis st e ha htya⟩

/-- Witness for C8 at a four-type schema with one handle already visited. -/
theorem c8_visitor_traversal_witness :
    (([0] : List Nat).Nodup ∧ 0 ∈ ([0] : List Nat) ∧ ¬ 1 ∈ ([0] : List Nat) ∧
     ([TyDef.pBool, .iface [], .alt [0], .arr 0] : Schema)[1]? =
       some (.iface []) ∧
     ¬ 2 ∈ ([0] : List Nat) ∧
     ([TyDef.pBool, .iface [], .alt [0], .arr 0] : Schema)[2]? =
       some (.alt [0]) ∧
     ¬ 3 ∈ ([0] : List Nat) ∧
     ([TyDef.pBool, .iface [], .alt [0], .arr 0] : Schema)[3]? =
       some (.arr 0)) ∧
    ((visitAll [TyDef.pBool, .iface [], .alt [0], .arr 0] [] [0] initGenState).1.Nodup ∧
     visitAll [TyDef.pBool, .iface [], .alt [0], .arr 0] [0] [0] initGenState =
       visitAll [TyDef.pBool, .iface [], .alt [0], .arr 0] [] [0] initGenState ∧
     visitAll [TyDef.pBool, .iface [], .alt [0], .arr 0] [1] [0] initGenState =
       visitAll [TyDef.pBool, .iface [], .alt [0], .arr 0]
         (([] : List Attr).map (·.ty) ++ []) ([0] ++ [1])
         (visitInterfaceCb 1 [] initGenState) ∧
     visitAll [TyDef.pBool, .iface [], .alt [0], .arr 0] [2] [0] initGenState =
       visitAll [TyDef.pBool, .iface [], .alt [0], .arr 0] ([0] ++ []) ([0] ++ [2])
         (visitAltCb 2 [0] initGenState) ∧
     visitAll [TyDef.pBool, .iface [], .alt [0], .arr 0] [3] [0] initGenState =
       visitAll [TyDef.pBool, .iface [], .alt [0], .arr 0] (0 :: []) ([0] ++ [3])
         (visitArrCb 3 0 initGenState)) :=
  ⟨⟨by decide, by decide, by decide, rfl, by decide, rfl, by decide, rfl⟩,
   c8_visitor_traversal [TyDef.pBool, .iface [], .alt [0], .arr 0] 0 1 2 3 [] [0] []
     initGenState [] [0] 0 (by decide) (by decide) (by decide) rfl (by decide) rfl
     (by decide) rfl⟩

/-- C9: the FloatFixer is the only pass through which encoding touches the
tree — a tree with no integer leaf is returned unchanged, an integer in a
double-typed slot becomes exactly its double coercion, the pass is
idempotent, `write` consumes the tree only through it, and it preserves the
constructor and arity of every interface and array node (all other leaves
are returned unchanged by definition, e.g. the string leaf below).  The
shared `string_dict` is an unmutated input of both `write` and `read` in
this embedding, which is the claim's dictionary-frame part. -/
theorem c9_floatfix_frame (s : Schema) (D : List Str) (ty : Nat) (tree w : Value)
    (fv fp : Nat) (out : List Nat) (i : Int) (k : Nat) (fields items : List Value)
    (x : Str)
    (hni : hasInt w = false)
    (hdbl : s[resolveFor s ty (.intV i)]? = some .pDouble) :
    floatFix s ty w = w ∧
    floatFix s ty (.intV i) = .dblV (.ofInt i) ∧
    floatFix s ty (floatFix s ty tree) = floatFix s ty tree ∧
    write s D ty tree fv fp out = write s D ty (floatFix s ty tree) fv fp out ∧
    (∃ fields2, floatFix s ty (.ifaceV k fields) = .ifaceV k fields2 ∧
      fields2.length = fields.length) ∧
    (∃ items2, floatFix s ty (.arrV items) = .arrV items2 ∧
      items2.length = items.length) ∧
    floatFix s ty (.strV x) = .strV x := by
  refine ⟨floatFix_of_noInt s (sizeOf w) ty w (le_refl _) hni, ?_,
    floatFix_idem s (sizeOf tree) ty tree (le_refl _),
    write_floatFix s D ty tree fv fp out,
    floatFix_ifaceV_shape s ty k fields,
    floatFix_arrV_shape s ty items, rfl⟩
  rw [floatFix_intV_eq, hdbl]

/-- Witness for C9 at a one-type double schema. -/
theorem c9_floatfix_frame_witness :
    (hasInt (Value.boolV true) = false ∧
     ([TyDef.pDouble] : Schema)[resolveFor [TyDef.pDouble] 0 (.intV 5)]? =
       some .pDouble) ∧
    (floatFix [TyDef.pDouble] 0 (.boolV true) = .boolV true ∧
     floatFix [TyDef.pDouble] 0 (.intV 5) = .dblV (.ofInt 5) ∧
     floatFix [TyDef.pDouble] 0 (floatFix [TyDef.pDouble] 0 (.intV 5)) =
       floatFix [TyDef.pDouble] 0 (.intV 5) ∧
     write [TyDef.pDouble] [] 0 (.intV 5) 64 32 [] =
       write [TyDef.pDouble] [] 0 (floatFix [TyDef.pDouble] 0 (.intV 5)) 64 32 [] ∧
     (∃ fields2, floatFix [TyDef.pDouble] 0 (.ifaceV 0 []) = .ifaceV 0 fields2 ∧
       fields2.length = ([] : List Value).length) ∧
     (∃ items2, floatFix [TyDef.pDouble] 0 (.arrV []) = .arrV items2 ∧
       items2.length = ([] : List Value).length) ∧
     floatFix [TyDef.pDouble] 0 (.strV [120]) = .strV [120]) :=
  ⟨⟨rfl, rfl⟩,
   c9_floatfix_frame [TyDef.pDouble] [] 0 (.intV 5) (.boolV true) 64 32 [] 5 0 [] []
     [120] rfl rfl⟩

/-- C10: every tree a successful `read` returns has passed the structural
type check against the requested type: a decode whose restored result does
not conform is fatal (`checkFailed`), never returned. -/
theorem c10_read_type_checked (s : Schema) (D : List Str) (ty fv fp : Nat)
    (inp : List Nat) (v : Value)
    (h : read s D ty fv fp inp = .ok v) :
    checkAny s ty v = true := by
  simp only [read] at h
  split at h
  · cases h
  · split at h
    · cases h
    · split at h
      · cases h
      · split at h
        · cases h
        · split at h
          · cases h
          · split at h
            · cases h
            · split at h
              · rename_i hchk
                cases h
                exact hchk
              · cases h

/-- Witness for C10 at a concrete successful read. -/
theorem c10_read_type_checked_witness :
    read exSchema exDict 0 64 32 exBytes = .ok (floatFix exSchema 0 exTree) ∧
    checkAny exSchema 0 (floatFix exSchema 0 exTree) = true :=
  ⟨rfl, c10_read_type_checked exSchema exDict 0 64 32 exBytes
    (floatFix exSchema 0 exTree) rfl⟩

end Fbssdc
